import Mathlib

/-!
Verification development for the rift discovery/reconciliation core.

The Go sources under internal/ are shallowly embedded: strings are Lean
strings manipulated through their character lists, Go maps are modelled as
association lists or update functions, and the INI / kubeconfig stores are
modelled as association lists of sections / entries.  File I/O, YAML/INI
serialisation, network calls and goroutine scheduling stay outside the
model: every function below mirrors the pure computation the Go code
performs between a load and a save.
-/

namespace Rift

/-! ## Character and string primitives (Go strings package, naming.go) -/

/-- Character class [a-z0-9], the complement of naming.go's nonSlugRegex. -/
def isSlugChar (c : Char) : Bool :=
  (97 ≤ c.toNat && c.toNat ≤ 122) || (48 ≤ c.toNat && c.toNat ≤ 57)

/-- Characters that may appear in a generated name: [a-z0-9-]. -/
def isNameChar (c : Char) : Bool := isSlugChar c || c == '-'

/-- ASCII lower-casing of one character (strings.ToLower restricted to the
ASCII range used by the repository). -/
def lowerChar (c : Char) : Char :=
  if 65 ≤ c.toNat ∧ c.toNat ≤ 90 then Char.ofNat (c.toNat + 32) else c

/-- Whitespace in the sense of strings.TrimSpace. -/
def isSpaceChar (c : Char) : Bool :=
  c == ' ' || c == '\t' || c == '\n' || c == '\r' || c == '\x0b' || c == '\x0c'

/-- Drop matching characters from the front of a list. -/
def dropLead (p : Char → Bool) (l : List Char) : List Char := l.dropWhile p

/-- Drop matching characters from the back of a list. -/
def dropTrail (p : Char → Bool) (l : List Char) : List Char :=
  (l.reverse.dropWhile p).reverse

/-- Trim matching characters from both ends (strings.Trim / TrimSpace). -/
def trimChars (p : Char → Bool) (l : List Char) : List Char :=
  dropTrail p (dropLead p l)

/-- Trim whitespace from both ends of a string (strings.TrimSpace). -/
def trimStr (s : String) : String := ⟨trimChars isSpaceChar s.data⟩

/-- Lower-case a whole string (strings.ToLower). -/
def toLowerStr (s : String) : String := ⟨s.data.map lowerChar⟩

/-- Collapse every run of consecutive hyphens to a single hyphen.  Together
with mapping each non-slug character to a hyphen this implements
nonSlugRegex.ReplaceAllString(s, "-"): a run of characters matching
[^a-z0-9]+ becomes one "-". -/
def squeezeDashes : List Char → List Char
  | [] => []
  | [c] => [c]
  | c1 :: c2 :: rest =>
    if c1 = '-' ∧ c2 = '-' then squeezeDashes (c2 :: rest)
    else c1 :: squeezeDashes (c2 :: rest)

/-- Core of naming.Slug on character lists. -/
def slugChars (cs : List Char) : List Char :=
  let lowered := (trimChars isSpaceChar cs).map lowerChar
  let dashed := lowered.map (fun c => if isSlugChar c then c else '-')
  trimChars (fun c => c = '-') (squeezeDashes dashed)

/-- naming.Slug: lower-case, collapse non-[a-z0-9] runs to "-", trim
hyphens, fall back to "unknown" when empty. -/
def Slug (s : String) : String :=
  let r := slugChars s.data
  if r.isEmpty then "unknown" else ⟨r⟩

/-- Substring containment on character lists (strings.Contains). -/
def containsSub : List Char → List Char → Bool
  | [], sub => sub.isEmpty
  | c :: t, sub => List.isPrefixOf sub (c :: t) || containsSub t sub

/-- strings.Contains. -/
def strContains (s sub : String) : Bool := containsSub s.data sub.data

/-- strings.HasPrefix. -/
def strStarts (s pre : String) : Bool := List.isPrefixOf pre.data s.data

/-- strings.TrimPrefix. -/
def dropPre (pre s : String) : String :=
  if strStarts s pre then ⟨s.data.drop pre.data.length⟩ else s

/-- strings.Join with a given separator. -/
def joinWith (sep : String) : List String → String
  | [] => ""
  | [p] => p
  | p :: q :: rest => p ++ sep ++ joinWith sep (q :: rest)

/-- naming.InferEnv: lower-case-join the parts and test substrings in
priority order. -/
def InferEnv (parts : List String) : String :=
  let combined := toLowerStr (joinWith " " parts)
  if strContains combined "prod" then "prod"
  else if strContains combined "staging" || strContains combined "stage" then "staging"
  else if strContains combined "development" || strContains combined "dev" then "dev"
  else if strContains combined "integration" || strContains combined "int" then "int"
  else "other"

/-! ## Decimal rendering (fmt.Sprintf %d) -/

/-- One decimal digit as a character. -/
def digitChar (d : Nat) : Char :=
  if d = 0 then '0' else if d = 1 then '1' else if d = 2 then '2'
  else if d = 3 then '3' else if d = 4 then '4' else if d = 5 then '5'
  else if d = 6 then '6' else if d = 7 then '7' else if d = 8 then '8' else '9'

/-- Fuel-driven decimal digit expansion; fuel larger than the number of
divisions by ten suffices. -/
def decDigitsAux : Nat → Nat → List Char
  | 0, _ => []
  | fuel + 1, n =>
    if n < 10 then [digitChar n]
    else decDigitsAux fuel (n / 10) ++ [digitChar (n % 10)]

/-- Decimal digits of a natural number, most significant first. -/
def decDigits (n : Nat) : List Char := decDigitsAux (n + 1) n

/-- Decimal rendering of a natural number (fmt %d on a non-negative int). -/
def natRepr (n : Nat) : String := ⟨decDigits n⟩

/-! ## Byte-lexicographic string order (Go string comparison) and sorting -/

/-- Lexicographic comparison of character lists by code point; on UTF-8
encoded strings this agrees with Go's byte-wise string order. -/
def charsLe : List Char → List Char → Bool
  | [], _ => true
  | _ :: _, [] => false
  | a :: as, b :: bs =>
    if a.toNat < b.toNat then true
    else if b.toNat < a.toNat then false
    else charsLe as bs

/-- Go string less-or-equal. -/
def strLe (s t : String) : Bool := charsLe s.data t.data

/-- Insert into a sorted list (helper for sortBy). -/
def insertLe {α : Type} (le : α → α → Bool) (a : α) : List α → List α
  | [] => [a]
  | b :: l => if le a b then a :: b :: l else b :: insertLe le a l

/-- Insertion sort with a boolean order; models sort.Slice / sort.Strings
(Go's sort is unstable, so any order among key-equal elements is a faithful
model; this one is deterministic). -/
def sortBy {α : Type} (le : α → α → Bool) : List α → List α
  | [] => []
  | a :: l => insertLe le a (sortBy le l)

/-- sort.Strings. -/
def sortStrings (l : List String) : List String := sortBy strLe l

/-- Keep the first occurrence of each string (models collecting the keys of
a Go map built by successive assignment). -/
def dedupStr : List String → List String
  | [] => []
  | a :: l => a :: (dedupStr l).filter (fun x => !(x == a))

/-! ## Data model (internal/config, internal/discovery, internal/state) -/

/-- config.Config.  NamespaceDefaults is a Go map modelled as an
association list; lookup takes the first binding (Go map keys are unique). -/
structure Config where
  SSOStartURL : String
  SSORegion : String
  Regions : List String
  NamespaceDefaults : List (String × String)
deriving DecidableEq

/-- First binding for a key, with the Go zero value "" when absent. -/
def lookupDefault (m : List (String × String)) (k : String) : String :=
  match m.find? (fun kv => kv.1 == k) with
  | some kv => kv.2
  | none => ""

/-- config.Config.NamespaceForEnv. -/
def Config.NamespaceForEnv (c : Config) (env : String) : String :=
  let key := toLowerStr (trimStr env)
  if key = "" then ""
  else if trimStr (lookupDefault c.NamespaceDefaults key) ≠ "" then
    trimStr (lookupDefault c.NamespaceDefaults key)
  else if key = "staging" then trimStr (lookupDefault c.NamespaceDefaults "stg")
  else if key = "stg" then trimStr (lookupDefault c.NamespaceDefaults "staging")
  else ""

/-- discovery.RoleAccess. -/
structure RoleAccess where
  AccountID : String
  AccountName : String
  RoleName : String
deriving DecidableEq

/-- discovery.ClusterAccess. -/
structure ClusterAccess where
  AccountID : String
  AccountName : String
  RoleName : String
  Region : String
  ClusterName : String
  ClusterARN : String
  ClusterEndpoint : String
  ClusterCertificateBase64 : String
deriving DecidableEq

/-- discovery.Inventory (GeneratedAt, a wall-clock timestamp copied through
unchanged, is omitted). -/
structure Inventory where
  Roles : List RoleAccess
  Clusters : List ClusterAccess
deriving DecidableEq

/-- state.RoleRecord. -/
structure RoleRecord where
  Env : String
  AccountID : String
  AccountName : String
  RoleName : String
  RoleSlug : String
  AWSProfile : String
deriving DecidableEq

/-- state.ClusterRecord. -/
structure ClusterRecord where
  Env : String
  AccountID : String
  AccountName : String
  RoleName : String
  AWSProfile : String
  Region : String
  ClusterName : String
  ClusterARN : String
  ClusterEndpoint : String
  ClusterCertificateBase64 : String
  KubeContext : String
  Namespace : String
  Namespaces : List String
deriving DecidableEq

/-- state.State (GeneratedAt omitted as in Inventory). -/
structure State where
  Regions : List String
  Roles : List RoleRecord
  Clusters : List ClusterRecord
deriving DecidableEq

/-- Sort key of state.State.Normalize for roles. -/
def roleRecKey (r : RoleRecord) : String :=
  joinWith "|" [r.Env, r.AccountName, r.RoleName]

/-- Sort key of state.State.Normalize for clusters. -/
def clusterRecKey (c : ClusterRecord) : String :=
  joinWith "|" [c.Env, c.AccountName, c.RoleName, c.Region, c.ClusterName]

/-- state.State.Normalize: re-sort roles and clusters. -/
def State.Normalize (s : State) : State :=
  { s with
    Roles := sortBy (fun a b => strLe (roleRecKey a) (roleRecKey b)) s.Roles
    Clusters := sortBy (fun a b => strLe (clusterRecKey a) (clusterRecKey b)) s.Clusters }

/-! ## Name allocation (internal/naming) -/

/-- naming.uniqueNamer: a per-run counting map from slugged base name to
occurrence count, modelled as a function that is zero off its support. -/
structure Namer where
  counts : String → Nat

/-- The empty registry (naming.newUniqueNamer). -/
def Namer.empty : Namer := ⟨fun _ => 0⟩

/-- naming.uniqueNamer.next: slug the base, bump its count, and append the
1-based occurrence index from the second occurrence on. -/
def Namer.next (u : Namer) (base : String) : String × Namer :=
  let b := Slug base
  let k := u.counts b + 1
  (if k = 1 then b else b ++ "-" ++ natRepr k,
   ⟨fun x => if x = b then k else u.counts x⟩)

/-- Allocate a whole sequence of bases through one registry. -/
def allocAll (u : Namer) : List String → List String
  | [] => []
  | b :: bs =>
    let (n, u') := u.next b
    n :: allocAll u' bs

/-- Sort key used by BuildState for inventory roles. -/
def roleSortKey (r : RoleAccess) : String :=
  joinWith "|" [r.AccountName, r.AccountID, r.RoleName]

/-- Sort key used by BuildState for inventory clusters. -/
def clusterSortKey (c : ClusterAccess) : String :=
  joinWith "|" [c.AccountName, c.RoleName, c.Region, c.ClusterName]

/-- BuildState's deterministic pre-sort of roles. -/
def sortRolesInv (l : List RoleAccess) : List RoleAccess :=
  sortBy (fun a b => strLe (roleSortKey a) (roleSortKey b)) l

/-- BuildState's deterministic pre-sort of clusters. -/
def sortClustersInv (l : List ClusterAccess) : List ClusterAccess :=
  sortBy (fun a b => strLe (clusterSortKey a) (clusterSortKey b)) l

/-- Account slug with fallback to the account id (BuildState). -/
def accountSlugOf (accountName accountID : String) : String :=
  if Slug accountName = "unknown" then Slug accountID else Slug accountName

/-- Profile base name derived from one inventory role. -/
def roleBase (role : RoleAccess) : String :=
  let env := InferEnv [role.AccountName, role.RoleName]
  "rift-" ++ env ++ "-" ++ accountSlugOf role.AccountName role.AccountID ++ "-" ++
    Slug role.RoleName

/-- Environment inferred for one inventory cluster. -/
def clusterEnv (cl : ClusterAccess) : String :=
  InferEnv [cl.AccountName, cl.RoleName, cl.ClusterName]

/-- Context base name derived from one inventory cluster. -/
def contextBase (cl : ClusterAccess) : String :=
  "rift-" ++ clusterEnv cl ++ "-" ++ accountSlugOf cl.AccountName cl.AccountID ++ "-" ++
    Slug cl.ClusterName

/-- Profile base name synthesized for a cluster whose role key is unbound. -/
def clusterRoleBase (cl : ClusterAccess) : String :=
  "rift-" ++ clusterEnv cl ++ "-" ++ accountSlugOf cl.AccountName cl.AccountID ++ "-" ++
    Slug cl.RoleName

/-- Role key used in roleKeyToProfile. -/
def roleKeyOf (accountID roleName : String) : String := accountID ++ "|" ++ roleName

/-- Accumulator of BuildState's first (role) loop: the profile registry, the
roleKeyToProfile map (Go zero value "" when unbound) and the role records
built so far. -/
structure BuildAcc where
  pNamer : Namer
  keyMap : String → String
  roles : List RoleRecord

/-- One iteration of BuildState's role loop (the base is exactly roleBase;
profile and updated registry are the two components of one next call). -/
def roleStep (acc : BuildAcc) (role : RoleAccess) : BuildAcc :=
  { pNamer := (acc.pNamer.next (roleBase role)).2
    keyMap := fun x => if x = roleKeyOf role.AccountID role.RoleName
      then (acc.pNamer.next (roleBase role)).1 else acc.keyMap x
    roles := acc.roles ++
      [{ Env := InferEnv [role.AccountName, role.RoleName], AccountID := role.AccountID,
         AccountName := role.AccountName, RoleName := role.RoleName,
         RoleSlug := Slug role.RoleName,
         AWSProfile := (acc.pNamer.next (roleBase role)).1 }] }

/-- Accumulator of BuildState's second (cluster) loop. -/
structure BuildAcc2 where
  pNamer : Namer
  cNamer : Namer
  keyMap : String → String
  roles : List RoleRecord
  clusters : List ClusterRecord

/-- The ClusterRecord BuildState's cluster loop appends (namespace defaults
resolved through cfg.NamespaceForEnv). -/
def clusterRecOf (cfg : Config) (cl : ClusterAccess) (profile context : String) :
    ClusterRecord :=
  { Env := clusterEnv cl, AccountID := cl.AccountID, AccountName := cl.AccountName,
    RoleName := cl.RoleName, AWSProfile := profile, Region := cl.Region,
    ClusterName := cl.ClusterName, ClusterARN := cl.ClusterARN,
    ClusterEndpoint := cl.ClusterEndpoint,
    ClusterCertificateBase64 := cl.ClusterCertificateBase64,
    KubeContext := context, Namespace := cfg.NamespaceForEnv (clusterEnv cl),
    Namespaces := if cfg.NamespaceForEnv (clusterEnv cl) = "" then ([] : List String)
      else [cfg.NamespaceForEnv (clusterEnv cl)] }

/-- The RoleRecord synthesized for a cluster whose role key is unbound. -/
def synthRoleRec (cl : ClusterAccess) (profile : String) : RoleRecord :=
  { Env := clusterEnv cl, AccountID := cl.AccountID, AccountName := cl.AccountName,
    RoleName := cl.RoleName, RoleSlug := Slug cl.RoleName, AWSProfile := profile }

/-- One iteration of BuildState's cluster loop, including the defensive
synthesis of a RoleRecord when the cluster's role key is unbound (the Go
code branches on roleKeyToProfile[key] == ""). -/
def clusterStep (cfg : Config) (acc : BuildAcc2) (cl : ClusterAccess) : BuildAcc2 :=
  if acc.keyMap (roleKeyOf cl.AccountID cl.RoleName) = "" then
    { pNamer := (acc.pNamer.next (clusterRoleBase cl)).2
      cNamer := (acc.cNamer.next (contextBase cl)).2
      keyMap := fun x => if x = roleKeyOf cl.AccountID cl.RoleName
        then (acc.pNamer.next (clusterRoleBase cl)).1 else acc.keyMap x
      roles := acc.roles ++ [synthRoleRec cl ((acc.pNamer.next (clusterRoleBase cl)).1)]
      clusters := acc.clusters ++
        [clusterRecOf cfg cl ((acc.pNamer.next (clusterRoleBase cl)).1)
          ((acc.cNamer.next (contextBase cl)).1)] }
  else
    { pNamer := acc.pNamer
      cNamer := (acc.cNamer.next (contextBase cl)).2
      keyMap := acc.keyMap
      roles := acc.roles
      clusters := acc.clusters ++
        [clusterRecOf cfg cl (acc.keyMap (roleKeyOf cl.AccountID cl.RoleName))
          ((acc.cNamer.next (contextBase cl)).1)] }

/-- State of both loops after BuildState has processed the sorted inventory. -/
def buildLoops (cfg : Config) (inv : Inventory) : BuildAcc2 :=
  let a1 := (sortRolesInv inv.Roles).foldl roleStep
    { pNamer := Namer.empty, keyMap := fun _ => "", roles := [] }
  (sortClustersInv inv.Clusters).foldl (clusterStep cfg)
    { pNamer := a1.pNamer, cNamer := Namer.empty, keyMap := a1.keyMap,
      roles := a1.roles, clusters := [] }

/-- Dedupe key of naming.dedupeRoles. -/
def dedupeKey (r : RoleRecord) : String :=
  r.AccountID ++ "|" ++ r.RoleName ++ "|" ++ r.AWSProfile

/-- One iteration of naming.dedupeRoles' loop (seen keys, kept records). -/
def dedupeStep (acc : List String × List RoleRecord) (r : RoleRecord) :
    List String × List RoleRecord :=
  if (dedupeKey r) ∈ acc.1 then acc else (acc.1 ++ [dedupeKey r], acc.2 ++ [r])

/-- naming.dedupeRoles: keep the first record for each
accountID|roleName|profile key. -/
def dedupeRoles (roles : List RoleRecord) : List RoleRecord :=
  (roles.foldl dedupeStep ([], [])).2

/-- naming.BuildState. -/
def BuildState (cfg : Config) (inv : Inventory) : State :=
  let a2 := buildLoops cfg inv
  State.Normalize
    { Regions := cfg.Regions, Roles := dedupeRoles a2.roles, Clusters := a2.clusters }

/-! ## AWS profile store reconciler (internal/awsconfig/manager.go)

The INI file is modelled as an ordered association list of sections, each
section an ordered association list of keys.  The go-ini library keeps
section and key names unique; the model keeps the file's order so that
untouched entries stay byte-identical. -/

/-- One INI section body: ordered key/value bindings. -/
abbrev IniSec := List (String × String)

/-- An INI file: ordered named sections. -/
abbrev IniFile := List (String × IniSec)

/-- Value of a key, "" when absent (ini Key(...).String()). -/
def getVal (sec : IniSec) (key : String) : String :=
  match sec.find? (fun kv => kv.1 == key) with
  | some kv => kv.2
  | none => ""

/-- Replace the first binding of a key or append a new one. -/
def setValRaw : IniSec → String → String → IniSec
  | [], key, value => [(key, value)]
  | kv :: rest, key, value =>
    if kv.1 = key then (key, value) :: rest else kv :: setValRaw rest key value

/-- awsconfig.setKey on a section body: write only on change, report whether
a write happened. -/
def setKeySec (sec : IniSec) (key value : String) : IniSec × Bool :=
  if getVal sec key = value then (sec, false) else (setValRaw sec key value, true)

/-- One setKey application threading the change flag. -/
def setKeysStep (acc : IniSec × Bool) (kv : String × String) : IniSec × Bool :=
  ((setKeySec acc.1 kv.1 kv.2).1, acc.2 || (setKeySec acc.1 kv.1 kv.2).2)

/-- Apply awsconfig.setKey for a list of key/value pairs, or-ing the change
flags (the pattern changed = setKey(...) || changed). -/
def setKeysSec (sec : IniSec) (kvs : List (String × String)) : IniSec × Bool :=
  kvs.foldl setKeysStep (sec, false)

/-- Does a section of this name exist? -/
def hasSec (f : IniFile) (name : String) : Bool := f.any (fun s => s.1 == name)

/-- Body of the first section of this name, [] when absent. -/
def getSec (f : IniFile) (name : String) : IniSec :=
  match f.find? (fun s => s.1 == name) with
  | some s => s.2
  | none => []

/-- Replace the body of every section of this name (names are unique in a
loaded file, so this is the library's in-place mutation). -/
def updateSec (f : IniFile) (name : String) (sec : IniSec) : IniFile :=
  f.map (fun s => if s.1 = name then (name, sec) else s)

/-- ini NewSection: append an empty section when the name is absent. -/
def ensureSec (f : IniFile) (name : String) : IniFile :=
  if hasSec f name then f else f ++ [(name, [])]

/-- ini DeleteSection. -/
def deleteSec (f : IniFile) (name : String) : IniFile :=
  f.filter (fun s => !(s.1 == name))

/-- awsconfig.SyncResult. -/
structure AwsSyncResult where
  Added : Nat
  Updated : Nat
  Removed : Nat
deriving DecidableEq

/-- The fixed section name "sso-session rift" (awsconfig.ssoSessionSection). -/
def sessionSecName : String := "sso-session rift"

/-- awsconfig.ensureSSOSession: create the session section if needed and
refresh its three keys; report whether anything changed. -/
def sessionKVs (cfg : Config) : List (String × String) :=
  [("sso_start_url", cfg.SSOStartURL), ("sso_region", cfg.SSORegion),
   ("sso_registration_scopes", "sso:account:access")]

def ensureSSOSession (cfg : Config) (f : IniFile) : IniFile × Bool :=
  let f1 := ensureSec f sessionSecName
  let sc := setKeysSec (getSec f1 sessionSecName) (sessionKVs cfg)
  (updateSec f1 sessionSecName sc.1, sc.2)

/-- Desired profile names: the keys of the Go map desired, sorted
(sort.Strings over map keys; later State.Roles entries overwrite earlier
ones with the same profile). -/
def desiredProfilesOf (st : State) : List String :=
  sortStrings (dedupStr (st.Roles.map (fun r => r.AWSProfile)))

/-- The RoleRecord the Go map desired holds for a profile name: the last
record carrying it (successive map assignment). -/
def desiredRoleFor (st : State) (p : String) : RoleRecord :=
  match st.Roles.reverse.find? (fun r => r.AWSProfile == p) with
  | some r => r
  | none => { Env := "", AccountID := "", AccountName := "", RoleName := "",
              RoleSlug := "", AWSProfile := "" }

/-- cfg.Regions[0] when non-empty (awsconfig.Sync's defaultRegion). -/
def defaultRegionOf (cfg : Config) : String :=
  match cfg.Regions with
  | [] => ""
  | r :: _ => r

/-- The key/value pairs awsconfig.Sync writes into a profile section. -/
def profileKVs (cfg : Config) (r : RoleRecord) : List (String × String) :=
  [("sso_session", "rift"), ("sso_account_id", r.AccountID),
   ("sso_role_name", r.RoleName)] ++
  (if defaultRegionOf cfg = "" then [] else [("region", defaultRegionOf cfg)]) ++
  [("output", "json")]

/-- One iteration of awsconfig.Sync's create-or-update loop. -/
def awsUpdateStep (cfg : Config) (st : State) (acc : IniFile × AwsSyncResult)
    (p : String) : IniFile × AwsSyncResult :=
  let secName := "profile " ++ p
  let created := !(hasSec acc.1 secName)
  let fB := ensureSec acc.1 secName
  let sc := setKeysSec (getSec fB secName) (profileKVs cfg (desiredRoleFor st p))
  (updateSec fB secName sc.1,
   { acc.2 with
      Added := acc.2.Added + (if created then 1 else 0)
      Updated := acc.2.Updated + (if sc.2 && !created then 1 else 0) })

/-- awsconfig.Sync on the loaded file: session refresh, deletion of owned
sections that are no longer desired, then create-or-update of every desired
profile section.  Returns the file that Sync persists (when not a dry run)
together with the diff counters. -/
def awsSync (cfg : Config) (st : State) (f : IniFile) : IniFile × AwsSyncResult :=
  let f1 := (ensureSSOSession cfg f).1
  let existingRift := ((f1.map (fun s => s.1)).filter
    (fun n => strStarts n "profile rift-")).map (fun n => dropPre "profile " n)
  let desired := desiredProfilesOf st
  let toRemove := existingRift.filter (fun p => !(desired.contains p))
  let f2 := toRemove.foldl (fun acc p => deleteSec acc ("profile " ++ p)) f1
  let res1 : AwsSyncResult :=
    { Added := 0, Updated := (if (ensureSSOSession cfg f).2 then 1 else 0),
      Removed := toRemove.length }
  desired.foldl (awsUpdateStep cfg st) (f2, res1)

/-! ## Kubeconfig reconciler (internal/kubeconfig/manager.go)

The client-go api.Config is modelled by its three entry maps (association
lists keyed by entry name) and the current context.  Only the fields the
manager reads or writes are modelled; base64 CA decoding is an external
library call modelled by an arbitrary function caOf. -/

/-- api.Cluster restricted to the fields the manager touches. -/
structure KCluster where
  Server : String
  CAData : String
deriving DecidableEq

/-- api.ExecConfig restricted to the fields the manager touches. -/
structure KExec where
  APIVersion : String
  Command : String
  Args : List String
deriving DecidableEq

/-- api.AuthInfo restricted to its exec stanza (nil modelled as none). -/
structure KUser where
  Exec : Option KExec
deriving DecidableEq

/-- api.Context restricted to the fields the manager touches. -/
structure KContext where
  Cluster : String
  AuthInfo : String
  Namespace : String
deriving DecidableEq

/-- api.Config as the manager sees it. -/
structure KubeConfig where
  Clusters : List (String × KCluster)
  AuthInfos : List (String × KUser)
  Contexts : List (String × KContext)
  CurrentContext : String
deriving DecidableEq

/-- Map lookup (nil pointer modelled as none). -/
def kLookup {α : Type} (m : List (String × α)) (k : String) : Option α :=
  match m.find? (fun kv => kv.1 == k) with
  | some kv => some kv.2
  | none => none

/-- Map assignment: replace the first binding or append. -/
def kInsert {α : Type} : List (String × α) → String → α → List (String × α)
  | [], k, v => [(k, v)]
  | kv :: rest, k, v =>
    if kv.1 = k then (k, v) :: rest else kv :: kInsert rest k v

/-- kubeconfig.SyncResult. -/
structure KubeSyncResult where
  AddedContexts : Nat
  UpdatedContexts : Nat
  RemovedContexts : Nat
deriving DecidableEq

/-- kubeconfig.clusterEqual on possibly-nil pointers. -/
def kClusterEq : Option KCluster → Option KCluster → Bool
  | none, none => true
  | some a, some b => a == b
  | _, _ => false

/-- kubeconfig.userEqual: nil handling, then command and args only
(APIVersion is not compared by the Go code). -/
def kUserEq : Option KUser → Option KUser → Bool
  | none, none => true
  | some a, some b =>
    match a.Exec, b.Exec with
    | none, none => true
    | some ea, some eb => ea.Command == eb.Command && ea.Args == eb.Args
    | _, _ => false
  | _, _ => false

/-- kubeconfig.contextEqual. -/
def kContextEq : Option KContext → Option KContext → Bool
  | none, none => true
  | some a, some b => a == b
  | _, _ => false

/-- Desired context names: keys of the Go map desired, sorted. -/
def desiredContextsOf (st : State) : List String :=
  sortStrings (dedupStr (st.Clusters.map (fun c => c.KubeContext)))

/-- The ClusterRecord the Go map desired holds for a context name. -/
def desiredClusterFor (st : State) (n : String) : ClusterRecord :=
  match st.Clusters.reverse.find? (fun c => c.KubeContext == n) with
  | some c => c
  | none =>
    { Env := "", AccountID := "", AccountName := "", RoleName := "", AWSProfile := "",
      Region := "", ClusterName := "", ClusterARN := "", ClusterEndpoint := "",
      ClusterCertificateBase64 := "", KubeContext := "", Namespace := "", Namespaces := [] }

/-- Desired api.Cluster entry (caOf models the base64 decode fallback). -/
def desiredKCluster (caOf : String → String) (c : ClusterRecord) : KCluster :=
  { Server := c.ClusterEndpoint, CAData := caOf c.ClusterCertificateBase64 }

/-- Desired api.AuthInfo entry: the aws eks get-token exec stanza. -/
def desiredKUser (c : ClusterRecord) : KUser :=
  { Exec := some
      ({ APIVersion := "client.authentication.k8s.io/v1beta1", Command := "aws",
         Args := ["eks", "get-token", "--profile", c.AWSProfile, "--cluster-name",
                  c.ClusterName, "--region", c.Region] } : KExec) }

/-- Desired api.Context entry (Namespace's zero value is ""). -/
def desiredKContext (n : String) (c : ClusterRecord) : KContext :=
  { Cluster := n, AuthInfo := n, Namespace := c.Namespace }

/-- One iteration of kubeconfig.Sync's create-or-update loop. -/
def kubeUpdateStep (caOf : String → String) (st : State)
    (acc : KubeConfig × KubeSyncResult) (n : String) : KubeConfig × KubeSyncResult :=
  let rec0 := desiredClusterFor st n
  let dc := desiredKCluster caOf rec0
  let du := desiredKUser rec0
  let dx := desiredKContext n rec0
  let clusterExisted := (kLookup acc.1.Clusters n).isSome
  let changed := !(kClusterEq (kLookup acc.1.Clusters n) (some dc)) ||
    !(kUserEq (kLookup acc.1.AuthInfos n) (some du)) ||
    !(kContextEq (kLookup acc.1.Contexts n) (some dx))
  ({ acc.1 with
      Clusters := kInsert acc.1.Clusters n dc
      AuthInfos := kInsert acc.1.AuthInfos n du
      Contexts := kInsert acc.1.Contexts n dx },
   { acc.2 with
      AddedContexts := acc.2.AddedContexts + (if clusterExisted then 0 else 1)
      UpdatedContexts := acc.2.UpdatedContexts +
        (if clusterExisted && changed then 1 else 0) })

/-- kubeconfig.Sync on the loaded config: delete owned entries that are no
longer desired, create or update every desired entry, then repoint
current-context when it is missing or invalid. -/
def kubeSync (caOf : String → String) (st : State) (cfg : KubeConfig) :
    KubeConfig × KubeSyncResult :=
  let desired := desiredContextsOf st
  let removedKeys := (cfg.Contexts.map (fun kv => kv.1)).filter
    (fun n => strStarts n "rift-" && !(desired.contains n))
  let c1 : KubeConfig :=
    { cfg with
      Contexts := cfg.Contexts.filter (fun kv => !(removedKeys.contains kv.1))
      Clusters := cfg.Clusters.filter (fun kv => !(removedKeys.contains kv.1))
      AuthInfos := cfg.AuthInfos.filter (fun kv => !(removedKeys.contains kv.1)) }
  let fr := desired.foldl (kubeUpdateStep caOf st)
    (c1, { AddedContexts := 0, UpdatedContexts := 0, RemovedContexts := removedKeys.length })
  let cc1 := if fr.1.CurrentContext ≠ "" ∧ kLookup fr.1.Contexts fr.1.CurrentContext = none
    then "" else fr.1.CurrentContext
  let cc2 := if cc1 = "" then (match desired with | [] => cc1 | n :: _ => n) else cc1
  ({ fr.1 with CurrentContext := cc2 }, fr.2)

/-! ## SSO token cache (internal/discovery/token_cache.go)

The records are the JSON files the loop successfully reads and decodes;
expiry parsing over the three accepted layouts is the external time package,
modelled by an arbitrary partial parse function into seconds. -/

/-- discovery.tokenCacheRecord. -/
structure TokenCacheRecord where
  StartURL : String
  Region : String
  AccessToken : String
  ExpiresAt : String
deriving DecidableEq

/-- discovery.tokenInfo with the expiry in seconds. -/
structure TokenData where
  AccessToken : String
  ExpiresAt : Int
deriving DecidableEq

/-- The candidate filter of discovery.loadTokenFromCache applied to one
record: skip empty tokens or expiries, mismatched start URLs, mismatched
regions (case-insensitive), unparsable expiries, and expiries not more than
60 seconds after now. -/
def tokenCandidate (parseE : String → Option Int) (sURL reg : String) (now : Int)
    (rec : TokenCacheRecord) : Option TokenData :=
  if rec.AccessToken = "" ∨ rec.ExpiresAt = "" then none
  else if sURL ≠ "" ∧ rec.StartURL ≠ sURL then none
  else if reg ≠ "" ∧ toLowerStr rec.Region ≠ reg then none
  else match parseE rec.ExpiresAt with
    | none => none
    | some exp => if now + 60 < exp then some ⟨rec.AccessToken, exp⟩ else none

/-- discovery.loadTokenFromCache on the readable cache records: none models
ErrSSONotLoggedIn, otherwise the candidate with the latest expiry is
returned (sort by descending expiry, take the first). -/
def loadTokenFromCache (parseE : String → Option Int) (startURL region : String)
    (now : Int) (records : List TokenCacheRecord) : Option TokenData :=
  match records.filterMap
      (tokenCandidate parseE (trimStr startURL) (toLowerStr (trimStr region)) now) with
  | [] => none
  | c0 :: cs =>
    match sortBy (fun a b => b.ExpiresAt ≤ a.ExpiresAt) (c0 :: cs) with
    | [] => none
    | c :: _ => some c

/-! ## Namespace enrichment (internal/namespaces/discovery.go)

The bounded worker pool only produces, per probed cluster, an outcome that
is either an error or a discovered namespace list; the sequential loop after
g.Wait() is what mutates State and the counters, and is modelled here. -/

/-- One probe outcome: the cluster index and either a failure (none) or the
discovered namespace names. -/
structure NsOutcome where
  idx : Nat
  result : Option (List String)

/-- Sorted distinct strings: the keys of a Go set map, sorted. -/
def sortedSetOf (l : List String) : List String := sortStrings (dedupStr l)

/-- namespaces.mergeNamespaces: union of the previously stored names, the
cluster's default namespace and the discovered names, trimmed, with empties
dropped, deduplicated and sorted. -/
def mergeNamespaces (cluster : ClusterRecord) (discovered : List String) : List String :=
  sortedSetOf
    (((cluster.Namespaces.map trimStr).filter (fun ns => !(ns == ""))) ++
     (if trimStr cluster.Namespace = "" then [] else [trimStr cluster.Namespace]) ++
     ((discovered.map trimStr).filter (fun ns => !(ns == ""))))

/-- namespaces.equalStringSets: sort both copies and compare element-wise. -/
def equalStringSets (a b : List String) : Bool := sortStrings a == sortStrings b

/-- Update and error counters of namespaces.Result. -/
structure NsCounters where
  ClustersUpdated : Nat
  Errors : Nat
deriving DecidableEq

/-- One iteration of namespaces.Enrich's outcome loop: an error counts and
changes nothing else; a success merges and bumps the update counter exactly
when the merged set differs from the stored one. -/
def enrichStep (acc : List ClusterRecord × NsCounters) (oc : NsOutcome) :
    List ClusterRecord × NsCounters :=
  match oc.result with
  | none => (acc.1, { acc.2 with Errors := acc.2.Errors + 1 })
  | some discovered =>
    match acc.1.get? oc.idx with
    | none => acc
    | some c =>
      let merged := mergeNamespaces c discovered
      if equalStringSets c.Namespaces merged then acc
      else (acc.1.set oc.idx { c with Namespaces := merged },
            { acc.2 with ClustersUpdated := acc.2.ClustersUpdated + 1 })

/-- The outcome loop of namespaces.Enrich over all collected outcomes. -/
def enrichProcess (clusters : List ClusterRecord) (outcomes : List NsOutcome) :
    List ClusterRecord × NsCounters :=
  outcomes.foldl enrichStep (clusters, ⟨0, 0⟩)

/-! ## Generic lemmas about the sorting and dedup helpers -/

theorem mem_insertLe {α : Type} (le : α → α → Bool) (a x : α) (l : List α) :
    x ∈ insertLe le a l ↔ x = a ∨ x ∈ l := by
  induction l with
  | nil => simp [insertLe]
  | cons b t ih =>
    simp only [insertLe]
    split
    · simp
    · simp only [List.mem_cons, ih]
      tauto

theorem insertLe_perm {α : Type} (le : α → α → Bool) (a : α) (l : List α) :
    (insertLe le a l).Perm (a :: l) := by
  induction l with
  | nil => simp [insertLe]
  | cons b t ih =>
    simp only [insertLe]
    split
    · exact List.Perm.refl _
    · exact (ih.cons b).trans (List.Perm.swap a b t)

theorem sortBy_perm {α : Type} (le : α → α → Bool) (l : List α) :
    (sortBy le l).Perm l := by
  induction l with
  | nil => exact List.Perm.refl _
  | cons a t ih => exact (insertLe_perm le a (sortBy le t)).trans (ih.cons a)

theorem mem_sortBy {α : Type} (le : α → α → Bool) {x : α} {l : List α} :
    x ∈ sortBy le l ↔ x ∈ l := (sortBy_perm le l).mem_iff

theorem nodup_sortBy {α : Type} (le : α → α → Bool) {l : List α} (h : l.Nodup) :
    (sortBy le l).Nodup := ((sortBy_perm le l).nodup_iff).mpr h

theorem pairwise_insertLe {α : Type} (le : α → α → Bool)
    (htrans : ∀ a b c, le a b = true → le b c = true → le a c = true)
    (htot : ∀ a b, le a b = true ∨ le b a = true)
    (a : α) (l : List α) (h : l.Pairwise (fun x y => le x y = true)) :
    (insertLe le a l).Pairwise (fun x y => le x y = true) := by
  induction l with
  | nil => simp [insertLe]
  | cons b t ih =>
    rw [List.pairwise_cons] at h
    simp only [insertLe]
    split
    · rename_i hab
      refine List.pairwise_cons.mpr ⟨?_, List.pairwise_cons.mpr h⟩
      intro x hx
      rcases List.mem_cons.mp hx with rfl | hx
      · exact hab
      · exact htrans a b x hab (h.1 x hx)
    · rename_i hab
      have hba : le b a = true := by
        rcases htot a b with h1 | h1
        · exact absurd h1 hab
        · exact h1
      refine List.pairwise_cons.mpr ⟨?_, ih h.2⟩
      intro x hx
      rcases (mem_insertLe le a x t).mp hx with rfl | hx
      · exact hba
      · exact h.1 x hx

theorem pairwise_sortBy {α : Type} (le : α → α → Bool)
    (htrans : ∀ a b c, le a b = true → le b c = true → le a c = true)
    (htot : ∀ a b, le a b = true ∨ le b a = true) (l : List α) :
    (sortBy le l).Pairwise (fun x y => le x y = true) := by
  induction l with
  | nil => simp [sortBy]
  | cons a t ih => exact pairwise_insertLe le htrans htot a (sortBy le t) ih

theorem mem_dedupStr {x : String} {l : List String} : x ∈ dedupStr l ↔ x ∈ l := by
  induction l with
  | nil => simp [dedupStr]
  | cons a t ih =>
    simp only [dedupStr, List.mem_cons, List.mem_filter, ih, Bool.not_eq_eq_eq_not,
      Bool.not_true, beq_eq_false_iff_ne, ne_eq]
    constructor
    · rintro (rfl | ⟨hx, _⟩)
      · exact Or.inl rfl
      · exact Or.inr hx
    · rintro (rfl | hx)
      · exact Or.inl rfl
      · by_cases hxa : x = a
        · exact Or.inl hxa
        · exact Or.inr ⟨hx, hxa⟩

theorem nodup_dedupStr (l : List String) : (dedupStr l).Nodup := by
  induction l with
  | nil => simp [dedupStr]
  | cons a t ih =>
    refine List.Nodup.cons ?_ ((List.filter_sublist _).nodup ih)
    intro hmem
    have := List.mem_filter.mp hmem
    simp at this

theorem charsLe_total : ∀ a b : List Char, charsLe a b = true ∨ charsLe b a = true := by
  intro a
  induction a with
  | nil => intro b; left; cases b <;> rfl
  | cons x xs ih =>
    intro b
    cases b with
    | nil => right; rfl
    | cons y ys =>
      simp only [charsLe]
      rcases Nat.lt_trichotomy x.toNat y.toNat with h | h | h
      · left; simp [h]
      · have h1 : ¬ x.toNat < y.toNat := by omega
        have h2 : ¬ y.toNat < x.toNat := by omega
        simp only [if_neg h1, if_neg h2]
        exact ih ys
      · right; simp [h]

theorem charsLe_trans : ∀ a b c : List Char,
    charsLe a b = true → charsLe b c = true → charsLe a c = true := by
  intro a
  induction a with
  | nil => intro b c _ _; cases c <;> rfl
  | cons x xs ih =>
    intro b c hab hbc
    cases b with
    | nil => simp [charsLe] at hab
    | cons y ys =>
      cases c with
      | nil => simp [charsLe] at hbc
      | cons z zs =>
        simp only [charsLe] at hab hbc ⊢
        rcases Nat.lt_trichotomy x.toNat z.toNat with h | h | h
        · simp [h]
        · have h1 : ¬ x.toNat < z.toNat := by omega
          have h2 : ¬ z.toNat < x.toNat := by omega
          simp only [if_neg h1, if_neg h2]
          by_cases hxy : x.toNat < y.toNat
          · by_cases hyz : y.toNat < z.toNat
            · omega
            · by_cases hzy : z.toNat < y.toNat
              · simp [if_neg (by omega : ¬ y.toNat < z.toNat), if_pos hzy] at hbc
              · omega
          · by_cases hyx : y.toNat < x.toNat
            · simp [if_neg hxy, if_pos hyx] at hab
            · have hxyeq : x.toNat = y.toNat := by omega
              by_cases hyz : y.toNat < z.toNat
              · omega
              · by_cases hzy : z.toNat < y.toNat
                · simp [if_neg hyz, if_pos hzy] at hbc
                · exact ih ys zs (by simpa [if_neg hxy, if_neg hyx] using hab)
                    (by simpa [if_neg hyz, if_neg hzy] using hbc)
        · exfalso
          by_cases hxy : x.toNat < y.toNat
          · by_cases hyz : y.toNat < z.toNat
            · omega
            · by_cases hzy : z.toNat < y.toNat
              · simp [if_neg hyz, if_pos hzy] at hbc
              · omega
          · by_cases hyx : y.toNat < x.toNat
            · simp [if_neg hxy, if_pos hyx] at hab
            · by_cases hyz : y.toNat < z.toNat
              · omega
              · by_cases hzy : z.toNat < y.toNat
                · simp [if_neg hyz, if_pos hzy] at hbc
                · omega

theorem charsLe_antisymm : ∀ a b : List Char,
    charsLe a b = true → charsLe b a = true → a = b := by
  intro a
  induction a with
  | nil =>
    intro b _ hba
    cases b with
    | nil => rfl
    | cons y ys => simp [charsLe] at hba
  | cons x xs ih =>
    intro b hab hba
    cases b with
    | nil => simp [charsLe] at hab
    | cons y ys =>
      simp only [charsLe] at hab hba
      by_cases hxy : x.toNat < y.toNat
      · simp [if_neg (by omega : ¬ y.toNat < x.toNat), if_pos hxy] at hba
      · by_cases hyx : y.toNat < x.toNat
        · simp [if_neg hxy, if_pos hyx] at hab
        · have heq : x = y := Char.le_antisymm
            (show x.toNat ≤ y.toNat by omega) (show y.toNat ≤ x.toNat by omega)
          subst heq
          have h1 := ih ys (by simpa [if_neg hxy] using hab) (by simpa [if_neg hxy] using hba)
          rw [h1]

theorem strLe_total (a b : String) : strLe a b = true ∨ strLe b a = true :=
  charsLe_total a.data b.data

theorem strLe_trans (a b c : String) :
    strLe a b = true → strLe b c = true → strLe a c = true :=
  charsLe_trans a.data b.data c.data

theorem strLe_antisymm (a b : String) :
    strLe a b = true → strLe b a = true → a = b := fun h1 h2 =>
  String.ext (charsLe_antisymm a.data b.data h1 h2)

/-! ## C9: environment inference -/

/-- C9: for every list of input strings, InferEnv lowercase-joins them and
returns the first match in priority order — any occurrence of "prod" gives
"prod"; otherwise "staging"/"stage" gives "staging"; otherwise
"development"/"dev" gives "dev"; otherwise "integration"/"int" gives "int";
otherwise "other" — and in particular
InferEnv ["acme-production", "Admin"] = "prod",
InferEnv ["acme-staging", "Dev"] = "staging" and
InferEnv ["sandbox", "ops"] = "other". -/
theorem inferEnv_priority_and_examples :
    (∀ parts : List String,
      (strContains (toLowerStr (joinWith " " parts)) "prod" = true →
        InferEnv parts = "prod") ∧
      (strContains (toLowerStr (joinWith " " parts)) "prod" = false →
        (strContains (toLowerStr (joinWith " " parts)) "staging" ||
         strContains (toLowerStr (joinWith " " parts)) "stage") = true →
        InferEnv parts = "staging") ∧
      (strContains (toLowerStr (joinWith " " parts)) "prod" = false →
        (strContains (toLowerStr (joinWith " " parts)) "staging" ||
         strContains (toLowerStr (joinWith " " parts)) "stage") = false →
        (strContains (toLowerStr (joinWith " " parts)) "development" ||
         strContains (toLowerStr (joinWith " " parts)) "dev") = true →
        InferEnv parts = "dev") ∧
      (strContains (toLowerStr (joinWith " " parts)) "prod" = false →
        (strContains (toLowerStr (joinWith " " parts)) "staging" ||
         strContains (toLowerStr (joinWith " " parts)) "stage") = false →
        (strContains (toLowerStr (joinWith " " parts)) "development" ||
         strContains (toLowerStr (joinWith " " parts)) "dev") = false →
        (strContains (toLowerStr (joinWith " " parts)) "integration" ||
         strContains (toLowerStr (joinWith " " parts)) "int") = true →
        InferEnv parts = "int") ∧
      (strContains (toLowerStr (joinWith " " parts)) "prod" = false →
        (strContains (toLowerStr (joinWith " " parts)) "staging" ||
         strContains (toLowerStr (joinWith " " parts)) "stage") = false →
        (strContains (toLowerStr (joinWith " " parts)) "development" ||
         strContains (toLowerStr (joinWith " " parts)) "dev") = false →
        (strContains (toLowerStr (joinWith " " parts)) "integration" ||
         strContains (toLowerStr (joinWith " " parts)) "int") = false →
        InferEnv parts = "other")) ∧
    InferEnv ["acme-production", "Admin"] = "prod" ∧
    InferEnv ["acme-staging", "Dev"] = "staging" ∧
    InferEnv ["sandbox", "ops"] = "other" := by
  refine ⟨fun parts => ?_, by decide, by decide, by decide⟩
  unfold InferEnv
  refine ⟨fun h1 => ?_, fun h1 h2 => ?_, fun h1 h2 h3 => ?_,
    fun h1 h2 h3 h4 => ?_, fun h1 h2 h3 h4 => ?_⟩
  · simp only [h1]; simp
  · simp only [h1, h2]; simp
  · simp only [h1, h2, h3]; simp
  · simp only [h1, h2, h3, h4]; simp
  · simp only [h1, h2, h3, h4]; simp

/-- Witness for C9's conditional clauses at a concrete input. -/
theorem inferEnv_priority_and_examples_witness :
    InferEnv ["sprint"] = "int" := by
  have h := (inferEnv_priority_and_examples.1 ["sprint"]).2.2.2.1
  exact h (by decide) (by decide) (by decide) (by decide)

/-! ## C5: token-cache resolution -/

/-- Candidates survive the filter exactly under the claim's conditions. -/
theorem tokenCandidate_iff (parseE : String → Option Int) (sURL reg : String)
    (now : Int) (rec : TokenCacheRecord) (u : TokenData) :
    tokenCandidate parseE sURL reg now rec = some u ↔
      (rec.AccessToken ≠ "" ∧ rec.ExpiresAt ≠ "" ∧
       (sURL ≠ "" → rec.StartURL = sURL) ∧
       (reg ≠ "" → toLowerStr rec.Region = reg) ∧
       ∃ e, parseE rec.ExpiresAt = some e ∧ now + 60 < e ∧
         u = ⟨rec.AccessToken, e⟩) := by
  unfold tokenCandidate
  split_ifs with h1 h2 h3
  · simp only [false_iff]
    rintro ⟨ha, hb, -⟩
    rcases h1 with h1 | h1
    · exact ha h1
    · exact hb h1
  · simp only [false_iff]
    rintro ⟨-, -, hc, -⟩
    exact h2.2 (hc h2.1)
  · simp only [false_iff]
    rintro ⟨-, -, -, hd, -⟩
    exact h3.2 (hd h3.1)
  · push_neg at h1 h2 h3
    cases hp : parseE rec.ExpiresAt with
    | none =>
      dsimp only
      simp only [reduceCtorEq, false_iff]
      rintro ⟨-, -, -, -, e, he, -⟩
      exact he
    | some e0 =>
      dsimp only
      split_ifs with h4
      · constructor
        · intro h
          cases h
          exact ⟨h1.1, h1.2, fun hs => h2 hs, fun hr => h3 hr, e0, rfl, h4, rfl⟩
        · rintro ⟨-, -, -, -, e, he, hgt, rfl⟩
          cases he
          rfl
      · simp only [reduceCtorEq, false_iff]
        rintro ⟨-, -, -, -, e, he, hgt, rfl⟩
        cases he
        exact h4 hgt

/-- C5: the token resolver keeps exactly the records matching the requested
start URL (when non-empty) and region (case-insensitively, when non-empty)
with a parsable expiry more than 60 seconds after now, returns the
candidate with the latest expiry, and fails (SSONotLoggedIn, modelled as
none) exactly when no candidate remains; in particular a token expiring 30
seconds in the future is rejected and one expiring 2 minutes in the future
is accepted. -/
theorem loadTokenFromCache_spec :
    (∀ (parseE : String → Option Int) (startURL region : String) (now : Int)
       (records : List TokenCacheRecord),
      (∀ rec u,
        tokenCandidate parseE (trimStr startURL) (toLowerStr (trimStr region)) now rec
            = some u ↔
          (rec.AccessToken ≠ "" ∧ rec.ExpiresAt ≠ "" ∧
           (trimStr startURL ≠ "" → rec.StartURL = trimStr startURL) ∧
           (toLowerStr (trimStr region) ≠ "" →
             toLowerStr rec.Region = toLowerStr (trimStr region)) ∧
           ∃ e, parseE rec.ExpiresAt = some e ∧ now + 60 < e ∧
             u = ⟨rec.AccessToken, e⟩)) ∧
      (∀ t, loadTokenFromCache parseE startURL region now records = some t →
        (∃ rec ∈ records,
          tokenCandidate parseE (trimStr startURL) (toLowerStr (trimStr region)) now rec
            = some t) ∧
        (∀ rec ∈ records, ∀ u,
          tokenCandidate parseE (trimStr startURL) (toLowerStr (trimStr region)) now rec
              = some u →
          u.ExpiresAt ≤ t.ExpiresAt)) ∧
      (loadTokenFromCache parseE startURL region now records = none ↔
        ∀ rec ∈ records,
          tokenCandidate parseE (trimStr startURL) (toLowerStr (trimStr region)) now rec
            = none)) ∧
    loadTokenFromCache
      (fun s => if s = "t30" then some 30 else if s = "t120" then some 120 else none)
      "" "" 0 [{ StartURL := "u", Region := "r", AccessToken := "tok", ExpiresAt := "t30" }]
      = none ∧
    loadTokenFromCache
      (fun s => if s = "t30" then some 30 else if s = "t120" then some 120 else none)
      "" "" 0 [{ StartURL := "u", Region := "r", AccessToken := "tok", ExpiresAt := "t120" }]
      = some { AccessToken := "tok", ExpiresAt := 120 } := by
  refine ⟨?_, by decide, by decide⟩
  intro parseE startURL region now records
  refine ⟨fun rec u => tokenCandidate_iff parseE _ _ now rec u, ?_, ?_⟩
  · intro t ht
    unfold loadTokenFromCache at ht
    cases hc : records.filterMap
        (tokenCandidate parseE (trimStr startURL) (toLowerStr (trimStr region)) now) with
    | nil => rw [hc] at ht; exact Option.noConfusion ht
    | cons c0 cs =>
      rw [hc] at ht
      dsimp only at ht
      cases hs : sortBy (fun a b => b.ExpiresAt ≤ a.ExpiresAt) (c0 :: cs) with
      | nil =>
        exfalso
        have := (sortBy_perm (fun a b => decide (b.ExpiresAt ≤ a.ExpiresAt)) (c0 :: cs)).length_eq
        rw [hs] at this
        simp at this
      | cons t0 ts =>
        rw [hs] at ht
        simp only [Option.some.injEq] at ht
        subst ht
        constructor
        · have hmem : t0 ∈ c0 :: cs := by
            have : t0 ∈ sortBy (fun a b => decide (b.ExpiresAt ≤ a.ExpiresAt)) (c0 :: cs) := by
              rw [hs]; exact List.mem_cons_self _ _
            exact (mem_sortBy _).mp this
          rw [← hc] at hmem
          exact List.mem_filterMap.mp hmem
        · intro rec hrec u hu
          have humem : u ∈ c0 :: cs := by
            rw [← hc]
            exact List.mem_filterMap.mpr ⟨rec, hrec, hu⟩
          have husort : u ∈ sortBy (fun a b => decide (b.ExpiresAt ≤ a.ExpiresAt)) (c0 :: cs) :=
            (mem_sortBy _).mpr humem
          rw [hs] at husort
          rcases List.mem_cons.mp husort with rfl | hin
          · exact le_refl _
          · have hpair := pairwise_sortBy (fun a b => decide (b.ExpiresAt ≤ a.ExpiresAt))
              (fun a b c h1 h2 => by
                simp only [decide_eq_true_eq] at h1 h2 ⊢; omega)
              (fun a b => by
                simp only [decide_eq_true_eq]; omega)
              (c0 :: cs)
            rw [hs] at hpair
            have := (List.pairwise_cons.mp hpair).1 u hin
            simpa using this
  · unfold loadTokenFromCache
    cases hc : records.filterMap
        (tokenCandidate parseE (trimStr startURL) (toLowerStr (trimStr region)) now) with
    | nil =>
      simp only [true_iff]
      intro rec hrec
      cases hcand : tokenCandidate parseE (trimStr startURL) (toLowerStr (trimStr region))
          now rec with
      | none => rfl
      | some u =>
        exfalso
        have : u ∈ records.filterMap
            (tokenCandidate parseE (trimStr startURL) (toLowerStr (trimStr region)) now) :=
          List.mem_filterMap.mpr ⟨rec, hrec, hcand⟩
        rw [hc] at this
        exact List.not_mem_nil u this
    | cons c0 cs =>
      cases hs : sortBy (fun a b => b.ExpiresAt ≤ a.ExpiresAt) (c0 :: cs) with
      | nil =>
        exfalso
        have := (sortBy_perm (fun a b => decide (b.ExpiresAt ≤ a.ExpiresAt)) (c0 :: cs)).length_eq
        rw [hs] at this
        simp at this
      | cons t0 ts =>
        dsimp only
        rw [hs]
        simp only [reduceCtorEq, false_iff]
        intro hall
        have : c0 ∈ records.filterMap
            (tokenCandidate parseE (trimStr startURL) (toLowerStr (trimStr region)) now) := by
          rw [hc]; exact List.mem_cons_self _ _
        rcases List.mem_filterMap.mp this with ⟨rec, hrec, hcand⟩
        rw [hall rec hrec] at hcand
        exact Option.noConfusion hcand

/-- Witness for C5's conditional clauses: a concrete resolver run returning
the later of two valid tokens. -/
theorem loadTokenFromCache_spec_witness :
    loadTokenFromCache (fun s => if s = "a" then some 100 else some 500) "" "" 0
      [{ StartURL := "u", Region := "r", AccessToken := "t1", ExpiresAt := "a" },
       { StartURL := "u", Region := "r", AccessToken := "t2", ExpiresAt := "b" }]
      = some { AccessToken := "t2", ExpiresAt := 500 } ∧
    (500 : Int) ≤ 500 := by
  constructor
  · decide
  · have h := ((loadTokenFromCache_spec.1
      (fun s => if s = "a" then some 100 else some 500) "" "" 0
      [{ StartURL := "u", Region := "r", AccessToken := "t1", ExpiresAt := "a" },
       { StartURL := "u", Region := "r", AccessToken := "t2", ExpiresAt := "b" }]).2.1
      { AccessToken := "t2", ExpiresAt := 500 } (by decide)).2
      { StartURL := "u", Region := "r", AccessToken := "t2", ExpiresAt := "b" }
      (by decide) { AccessToken := "t2", ExpiresAt := 500 } (by decide)
    exact h

/-! ## C8: namespace enrichment merge semantics -/

theorem pairwise_sortedSetOf (l : List String) :
    (sortedSetOf l).Pairwise (fun a b => strLe a b = true) :=
  pairwise_sortBy strLe strLe_trans strLe_total _

theorem nodup_sortedSetOf (l : List String) : (sortedSetOf l).Nodup :=
  nodup_sortBy strLe (nodup_dedupStr l)

theorem mem_sortedSetOf {x : String} {l : List String} : x ∈ sortedSetOf l ↔ x ∈ l :=
  (mem_sortBy _).trans mem_dedupStr

theorem sortBy_eq_self {α : Type} (le : α → α → Bool) (l : List α)
    (h : l.Pairwise (fun a b => le a b = true)) : sortBy le l = l := by
  induction l with
  | nil => rfl
  | cons a t ih =>
    have ht := List.pairwise_cons.mp h
    simp only [sortBy, ih ht.2]
    cases t with
    | nil => rfl
    | cons b t' => simp [insertLe, ht.1 b (List.mem_cons_self b t')]

theorem equalStringSets_iff_of_sorted {a b : List String}
    (ha : a.Pairwise (fun x y => strLe x y = true))
    (hb : b.Pairwise (fun x y => strLe x y = true)) :
    equalStringSets a b = true ↔ a = b := by
  unfold equalStringSets sortStrings
  rw [sortBy_eq_self strLe a ha, sortBy_eq_self strLe b hb]
  exact beq_iff_eq

/-- Membership in the merge result. -/
theorem mem_mergeNamespaces (c : ClusterRecord) (discovered : List String) (x : String) :
    x ∈ mergeNamespaces c discovered ↔
      ((∃ y ∈ c.Namespaces, trimStr y = x) ∧ x ≠ "") ∨
      (x = trimStr c.Namespace ∧ x ≠ "") ∨
      ((∃ y ∈ discovered, trimStr y = x) ∧ x ≠ "") := by
  unfold mergeNamespaces
  rw [mem_sortedSetOf]
  simp only [List.mem_append, List.mem_filter, List.mem_map]
  constructor
  · rintro ((⟨⟨y, hy, rfl⟩, hne⟩ | hdef) | ⟨⟨y, hy, rfl⟩, hne⟩)
    · exact Or.inl ⟨⟨y, hy, rfl⟩, by simpa using hne⟩
    · refine Or.inr (Or.inl ?_)
      by_cases hz : trimStr c.Namespace = ""
      · rw [if_pos hz] at hdef; simp at hdef
      · rw [if_neg hz] at hdef
        simp only [List.mem_singleton] at hdef
        exact ⟨hdef, hdef ▸ hz⟩
    · exact Or.inr (Or.inr ⟨⟨y, hy, rfl⟩, by simpa using hne⟩)
  · rintro (⟨⟨y, hy, rfl⟩, hne⟩ | ⟨rfl, hne⟩ | ⟨⟨y, hy, rfl⟩, hne⟩)
    · exact Or.inl (Or.inl ⟨⟨y, hy, rfl⟩, by simpa using hne⟩)
    · refine Or.inl (Or.inr ?_)
      rw [if_neg hne]
      simp
    · exact Or.inr ⟨⟨y, hy, rfl⟩, by simpa using hne⟩

/-- C8: a probe failure leaves the cluster list unchanged and bumps only the
error counter; a successful probe replaces the probed cluster's namespace
list with the sorted deduplicated union of the stored names, the default
namespace and the discovered names (so the stored set never shrinks), and
bumps the update counter exactly when that union differs from the stored
list (for a stored list that is a sorted set, list equality is exactly set
equality); concretely, a failed probe against a cluster storing ["a", "b"]
leaves it at ["a", "b"] and counts one error. -/
theorem enrich_merge_spec :
    (∀ (clusters : List ClusterRecord) (ctrs : NsCounters) (idx : Nat),
      enrichStep (clusters, ctrs) ⟨idx, none⟩ =
        (clusters, { ctrs with Errors := ctrs.Errors + 1 })) ∧
    (∀ (clusters : List ClusterRecord) (ctrs : NsCounters) (idx : Nat)
       (c : ClusterRecord) (discovered : List String),
      clusters.get? idx = some c →
      ((mergeNamespaces c discovered).Pairwise (fun a b => strLe a b = true) ∧
       (mergeNamespaces c discovered).Nodup ∧
       (∀ x, x ∈ mergeNamespaces c discovered ↔
         ((∃ y ∈ c.Namespaces, trimStr y = x) ∧ x ≠ "") ∨
         (x = trimStr c.Namespace ∧ x ≠ "") ∨
         ((∃ y ∈ discovered, trimStr y = x) ∧ x ≠ "")) ∧
       (∀ y ∈ c.Namespaces, trimStr y ≠ "" → trimStr y ∈ mergeNamespaces c discovered)) ∧
      (equalStringSets c.Namespaces (mergeNamespaces c discovered) = true →
        enrichStep (clusters, ctrs) ⟨idx, some discovered⟩ = (clusters, ctrs)) ∧
      (equalStringSets c.Namespaces (mergeNamespaces c discovered) = false →
        enrichStep (clusters, ctrs) ⟨idx, some discovered⟩ =
          (clusters.set idx { c with Namespaces := mergeNamespaces c discovered },
           { ctrs with ClustersUpdated := ctrs.ClustersUpdated + 1 })) ∧
      (c.Namespaces.Pairwise (fun a b => strLe a b = true) →
        (equalStringSets c.Namespaces (mergeNamespaces c discovered) = true ↔
          c.Namespaces = mergeNamespaces c discovered))) ∧
    (∀ e : ClusterRecord, e.Namespaces = ["a", "b"] →
      enrichProcess [e] [⟨0, none⟩] = ([e], ⟨0, 1⟩)) := by
  refine ⟨fun clusters ctrs idx => rfl, ?_, fun e he => rfl⟩
  intro clusters ctrs idx c discovered hget
  refine ⟨⟨pairwise_sortedSetOf _, nodup_sortedSetOf _,
    fun x => mem_mergeNamespaces c discovered x, ?_⟩, ?_, ?_, ?_⟩
  · intro y hy hne
    exact (mem_mergeNamespaces c discovered (trimStr y)).mpr
      (Or.inl ⟨⟨y, hy, rfl⟩, hne⟩)
  · intro heq
    unfold enrichStep
    rw [hget]
    simp only [heq]
    rfl
  · intro hne
    unfold enrichStep
    rw [hget]
    simp only [hne]
    rfl
  · intro hsorted
    exact equalStringSets_iff_of_sorted hsorted (pairwise_sortedSetOf _)

/-- Witness for C8's conditional clauses: a concrete successful probe that
merges a discovered namespace into a stored pair. -/
theorem enrich_merge_spec_witness :
    enrichStep
      ([{ Env := "", AccountID := "", AccountName := "", RoleName := "", AWSProfile := "",
          Region := "", ClusterName := "", ClusterARN := "", ClusterEndpoint := "",
          ClusterCertificateBase64 := "", KubeContext := "", Namespace := "",
          Namespaces := ["a", "b"] }], ⟨0, 0⟩) ⟨0, some ["c"]⟩ =
      ([{ Env := "", AccountID := "", AccountName := "", RoleName := "", AWSProfile := "",
          Region := "", ClusterName := "", ClusterARN := "", ClusterEndpoint := "",
          ClusterCertificateBase64 := "", KubeContext := "", Namespace := "",
          Namespaces := ["a", "b", "c"] }], ⟨1, 0⟩) := by
  have h := (enrich_merge_spec.2.1
    [{ Env := "", AccountID := "", AccountName := "", RoleName := "", AWSProfile := "",
       Region := "", ClusterName := "", ClusterARN := "", ClusterEndpoint := "",
       ClusterCertificateBase64 := "", KubeContext := "", Namespace := "",
       Namespaces := ["a", "b"] }] ⟨0, 0⟩ 0
    { Env := "", AccountID := "", AccountName := "", RoleName := "", AWSProfile := "",
      Region := "", ClusterName := "", ClusterARN := "", ClusterEndpoint := "",
      ClusterCertificateBase64 := "", KubeContext := "", Namespace := "",
      Namespaces := ["a", "b"] } ["c"] (by decide)).2.2.1 (by decide)
  exact h.trans (by decide)

/-! ## Decimal rendering lemmas -/

theorem digitChar_isDigit (d : Nat) : (digitChar d).isDigit = true := by
  unfold digitChar
  split_ifs <;> decide

theorem digitChar_toNat (d : Nat) (h : d < 10) : (digitChar d).toNat = 48 + d := by
  unfold digitChar
  interval_cases d <;> simp

theorem decDigitsAux_ne_nil (fuel n : Nat) (h : n < fuel) : decDigitsAux fuel n ≠ [] := by
  cases fuel with
  | zero => omega
  | succ f =>
    unfold decDigitsAux
    split
    · simp
    · simp

theorem decDigits_ne_nil (n : Nat) : decDigits n ≠ [] :=
  decDigitsAux_ne_nil (n + 1) n (Nat.lt_succ_self n)

theorem isDigit_of_mem_decDigitsAux :
    ∀ (fuel n : Nat) (c : Char), c ∈ decDigitsAux fuel n → c.isDigit = true := by
  intro fuel
  induction fuel with
  | zero => intro n c hc; simp [decDigitsAux] at hc
  | succ f ih =>
    intro n c hc
    unfold decDigitsAux at hc
    split at hc
    · rcases List.mem_singleton.mp hc with rfl
      exact digitChar_isDigit n
    · rcases List.mem_append.mp hc with hc | hc
      · exact ih _ c hc
      · rcases List.mem_singleton.mp hc with rfl
        exact digitChar_isDigit _

theorem isDigit_of_mem_decDigits (n : Nat) (c : Char) (h : c ∈ decDigits n) :
    c.isDigit = true := isDigit_of_mem_decDigitsAux (n + 1) n c h

/-- Numeric value of a digit list, used to invert decDigits. -/
def decVal (l : List Char) : Nat := l.foldl (fun a c => 10 * a + (c.toNat - 48)) 0

theorem decVal_decDigitsAux :
    ∀ (fuel n : Nat), n < fuel → decVal (decDigitsAux fuel n) = n := by
  intro fuel
  induction fuel with
  | zero => intro n h; omega
  | succ f ih =>
    intro n h
    unfold decDigitsAux
    split
    · rename_i h10
      simp only [decVal, List.foldl_cons, List.foldl_nil]
      rw [digitChar_toNat n h10]
      omega
    · rename_i h10
      push_neg at h10
      have hdiv : n / 10 < n := Nat.div_lt_self (by omega) (by omega)
      have hfuel : n / 10 < f := by omega
      have hmod : n % 10 < 10 := Nat.mod_lt n (by omega)
      simp only [decVal, List.foldl_append, List.foldl_cons, List.foldl_nil]
      have hrec := ih (n / 10) hfuel
      simp only [decVal] at hrec
      rw [hrec, digitChar_toNat _ hmod]
      omega

theorem decVal_decDigits (n : Nat) : decVal (decDigits n) = n :=
  decVal_decDigitsAux (n + 1) n (Nat.lt_succ_self n)

theorem decDigits_inj {m n : Nat} (h : decDigits m = decDigits n) : m = n := by
  have := decVal_decDigits m
  rw [h, decVal_decDigits n] at this
  omega

theorem natRepr_inj {m n : Nat} (h : natRepr m = natRepr n) : m = n := by
  unfold natRepr at h
  exact decDigits_inj (congrArg String.data h)

theorem dash_not_mem_decDigits (n : Nat) : '-' ∉ decDigits n := by
  intro hc
  have := isDigit_of_mem_decDigits n '-' hc
  simp [Char.isDigit] at this

/-! ## Allocator occurrence characterization -/

/-- The name issued for the k-th occurrence of a (slugged) base. -/
def nameOf (b : String) (k : Nat) : String :=
  if k = 1 then b else b ++ "-" ++ natRepr k

theorem namer_next_eq (u : Namer) (base : String) :
    u.next base = (nameOf (Slug base) (u.counts (Slug base) + 1),
      ⟨fun x => if x = Slug base then u.counts (Slug base) + 1 else u.counts x⟩) := rfl

theorem allocAll_length (u : Namer) (bs : List String) :
    (allocAll u bs).length = bs.length := by
  induction bs generalizing u with
  | nil => rfl
  | cons b bs ih => simp [allocAll, ih]

theorem allocAll_getElem :
    ∀ (bs : List String) (u : Namer) (i : Nat) (h : i < bs.length)
      (h2 : i < (allocAll u bs).length),
    (allocAll u bs)[i] =
      nameOf (Slug bs[i])
        (u.counts (Slug bs[i]) +
          (bs.take (i + 1)).countP (fun x => Slug x == Slug bs[i])) := by
  intro bs
  induction bs with
  | nil => intro u i h h2; simp at h
  | cons b bs ih =>
    intro u i h h2
    cases i with
    | zero =>
      simp only [allocAll, List.getElem_cons_zero, List.take_succ_cons, List.take_zero,
        List.countP_cons, List.countP_nil, beq_self_eq_true, if_pos rfl]
      rfl
    | succ i =>
      have hlen : i < bs.length := by simpa using h
      have hlen2 : i < (allocAll (u.next b).2 bs).length := by
        rw [allocAll_length]; exact hlen
      simp only [allocAll, List.getElem_cons_succ]
      rw [ih (u.next b).2 i hlen hlen2]
      simp only [List.take_succ_cons, List.countP_cons]
      congr 1
      by_cases hb : Slug b = Slug bs[i]
      · have h1 : ((u.next b).2).counts (Slug bs[i]) = u.counts (Slug bs[i]) + 1 := by
          simp [namer_next_eq, hb]
        have hbeq : (Slug b == Slug bs[i]) = true := beq_iff_eq.mpr hb
        rw [h1, hbeq]
        simp only [eq_self_iff_true, if_true]
        omega
      · have h1 : ((u.next b).2).counts (Slug bs[i]) = u.counts (Slug bs[i]) := by
          simp only [namer_next_eq]
          exact if_neg (Ne.symm hb)
        have hbeq : (Slug b == Slug bs[i]) = false := beq_false_of_ne hb
        rw [h1, hbeq]
        simp

/-! ## Collision structure of allocated names -/

theorem append_dash_digits_inj :
    ∀ (x y s t : List Char),
      (∀ c ∈ s, c.isDigit = true) → (∀ c ∈ t, c.isDigit = true) →
      x ++ '-' :: s = y ++ '-' :: t → x = y ∧ s = t := by
  intro x
  induction x with
  | nil =>
    intro y s t hs ht heq
    cases y with
    | nil =>
      simp only [List.nil_append, List.cons.injEq] at heq
      exact ⟨rfl, heq.2⟩
    | cons b ys =>
      simp only [List.nil_append, List.cons_append, List.cons.injEq] at heq
      exfalso
      have hmem : '-' ∈ s := by
        rw [heq.2]
        exact List.mem_append.mpr (Or.inr (List.mem_cons_self _ _))
      have := hs '-' hmem
      simp [Char.isDigit] at this
  | cons a xs ih =>
    intro y s t hs ht heq
    cases y with
    | nil =>
      simp only [List.cons_append, List.nil_append, List.cons.injEq] at heq
      exfalso
      have hmem : '-' ∈ t := by
        rw [← heq.2]
        exact List.mem_append.mpr (Or.inr (List.mem_cons_self _ _))
      have := ht '-' hmem
      simp [Char.isDigit] at this
    | cons b ys =>
      simp only [List.cons_append, List.cons.injEq] at heq
      obtain ⟨rfl, heq2⟩ := heq
      obtain ⟨h1, h2⟩ := ih ys s t hs ht heq2
      exact ⟨by rw [h1], h2⟩

theorem nameOf_data (b : String) (k : Nat) (hk : k ≠ 1) :
    (nameOf b k).data = b.data ++ '-' :: (natRepr k).data := by
  unfold nameOf
  rw [if_neg hk, String.data_append, String.data_append]
  simp

theorem nameOf_eq_cases (b1 b2 : String) (k1 k2 : Nat)
    (heq : nameOf b1 k1 = nameOf b2 k2) :
    (b1 = b2 ∧ (k1 = 1 ↔ k2 = 1) ∧ (k1 ≠ 1 → k1 = k2)) ∨
    (k1 = 1 ∧ k2 ≠ 1 ∧ b1 = b2 ++ "-" ++ natRepr k2) ∨
    (k2 = 1 ∧ k1 ≠ 1 ∧ b2 = b1 ++ "-" ++ natRepr k1) := by
  by_cases e1 : k1 = 1 <;> by_cases e2 : k2 = 1
  · left
    refine ⟨?_, by simp [e1, e2], fun h => absurd e1 h⟩
    unfold nameOf at heq
    rwa [if_pos e1, if_pos e2] at heq
  · right; left
    refine ⟨e1, e2, ?_⟩
    unfold nameOf at heq
    rwa [if_pos e1, if_neg e2] at heq
  · right; right
    refine ⟨e2, e1, ?_⟩
    unfold nameOf at heq
    rw [if_neg e1, if_pos e2] at heq
    exact heq.symm
  · left
    have hd := congrArg String.data heq
    rw [nameOf_data b1 k1 e1, nameOf_data b2 k2 e2] at hd
    obtain ⟨hb, hr⟩ := append_dash_digits_inj b1.data b2.data _ _
      (fun c hc => isDigit_of_mem_decDigits k1 c hc)
      (fun c hc => isDigit_of_mem_decDigits k2 c hc) hd
    refine ⟨String.ext hb, by simp [e1, e2], fun _ => ?_⟩
    exact natRepr_inj (String.ext hr)

/-- Does b1 read as b2 followed by "-" and a non-empty run of decimal
digits?  Exactly this shape makes a fresh base collide with a suffixed
occurrence of another base. -/
def numSuffixOf (b1 b2 : String) : Bool :=
  List.isPrefixOf (b2.data ++ ['-']) b1.data &&
  !(b1.data.drop (b2.data.length + 1)).isEmpty &&
  (b1.data.drop (b2.data.length + 1)).all (fun c => c.isDigit)

theorem numSuffixOf_of_eq (b1 b2 : String) (k : Nat)
    (heq : b1 = b2 ++ "-" ++ natRepr k) : numSuffixOf b1 b2 = true := by
  subst heq
  unfold numSuffixOf
  have hdata : (b2 ++ "-" ++ natRepr k).data = (b2.data ++ ['-']) ++ decDigits k := by
    rw [String.data_append, String.data_append]
    simp [natRepr]
  have hlen : (b2.data ++ ['-']).length = b2.data.length + 1 := by simp
  simp only [hdata, Bool.and_eq_true]
  refine ⟨⟨?_, ?_⟩, ?_⟩
  · exact List.isPrefixOf_iff_prefix.mpr (List.prefix_append _ _)
  · rw [← hlen, List.drop_left]
    simp only [Bool.not_eq_eq_eq_not, Bool.not_true, ← Bool.not_eq_true, List.isEmpty_iff]
    exact decDigits_ne_nil k
  · rw [← hlen, List.drop_left]
    exact List.all_eq_true.mpr (fun c hc => isDigit_of_mem_decDigits k c hc)

/-- Distinctness of all names issued by one registry from the empty state,
provided no slugged base extends another by a "-digits" suffix. -/
theorem allocAll_nodup (bs : List String)
    (hns : ∀ b1 ∈ bs.map Slug, ∀ b2 ∈ bs.map Slug, numSuffixOf b1 b2 = false) :
    (allocAll Namer.empty bs).Nodup := by
  have hlen := allocAll_length Namer.empty bs
  apply List.pairwise_iff_get.mpr
  intro i j hij heq
  have hi : (i : Nat) < bs.length := by rw [← hlen]; exact i.isLt
  have hj : (j : Nat) < bs.length := by rw [← hlen]; exact j.isLt
  have hij' : (i : Nat) < (j : Nat) := hij
  rw [List.get_eq_getElem, List.get_eq_getElem,
    allocAll_getElem bs Namer.empty i hi i.isLt,
    allocAll_getElem bs Namer.empty j hj j.isLt] at heq
  have hcounts : ∀ s, Namer.empty.counts s = 0 := fun _ => rfl
  rw [hcounts, hcounts, Nat.zero_add, Nat.zero_add] at heq
  have hki1 : 1 ≤ (bs.take ((i : Nat) + 1)).countP (fun x => Slug x == Slug bs[(i : Nat)]) := by
    apply List.countP_pos_iff.mpr
    refine ⟨bs[(i : Nat)], ?_, by simp⟩
    have h1 : (i : Nat) < (bs.take ((i : Nat) + 1)).length := by
      rw [List.length_take]; omega
    have h2 := List.getElem_take bs (j := (i : Nat) + 1) (i := (i : Nat)) (h := h1)
    rw [← h2]
    exact List.getElem_mem h1
  have hmono : Slug bs[(i : Nat)] = Slug bs[(j : Nat)] →
      (bs.take ((i : Nat) + 1)).countP (fun x => Slug x == Slug bs[(i : Nat)]) <
      (bs.take ((j : Nat) + 1)).countP (fun x => Slug x == Slug bs[(j : Nat)]) := by
    intro hs
    have hpred : (fun x => Slug x == Slug bs[(j : Nat)]) =
        (fun x => Slug x == Slug bs[(i : Nat)]) := by
      funext x
      rw [hs]
    rw [hpred]
    have hstep : (bs.take ((j : Nat) + 1)).countP (fun x => Slug x == Slug bs[(i : Nat)]) =
        (bs.take (j : Nat)).countP (fun x => Slug x == Slug bs[(i : Nat)]) + 1 := by
      rw [List.take_succ, List.getElem?_eq_getElem hj]
      simp only [Option.toList_some, List.countP_append, List.countP_cons, List.countP_nil]
      have : (Slug bs[(j : Nat)] == Slug bs[(i : Nat)]) = true := beq_iff_eq.mpr hs.symm
      rw [this]
      simp
    have hmon : (bs.take ((i : Nat) + 1)).countP (fun x => Slug x == Slug bs[(i : Nat)]) ≤
        (bs.take (j : Nat)).countP (fun x => Slug x == Slug bs[(i : Nat)]) := by
      have hsplit : bs.take (j : Nat) =
          bs.take ((i : Nat) + 1) ++ (bs.drop ((i : Nat) + 1)).take ((j : Nat) - ((i : Nat) + 1)) := by
        rw [← List.take_add]
        congr 1
        omega
      rw [hsplit, List.countP_append]
      omega
    omega
  have hmem1 : Slug bs[(i : Nat)] ∈ bs.map Slug :=
    List.mem_map.mpr ⟨bs[(i : Nat)], List.getElem_mem hi, rfl⟩
  have hmem2 : Slug bs[(j : Nat)] ∈ bs.map Slug :=
    List.mem_map.mpr ⟨bs[(j : Nat)], List.getElem_mem hj, rfl⟩
  rcases nameOf_eq_cases _ _ _ _ heq with ⟨hb, hiff, hkeq⟩ | ⟨h1, h2, hsuf⟩ | ⟨h1, h2, hsuf⟩
  · have hlt := hmono hb
    by_cases hk1 : (bs.take ((i : Nat) + 1)).countP (fun x => Slug x == Slug bs[(i : Nat)]) = 1
    · have := hiff.mp hk1
      omega
    · have := hkeq hk1
      omega
  · have hsx := numSuffixOf_of_eq _ _ _ hsuf
    have hfalse := hns _ hmem1 _ hmem2
    rw [hfalse] at hsx
    exact Bool.noConfusion hsx
  · have hsx := numSuffixOf_of_eq _ _ _ hsuf
    have hfalse := hns _ hmem2 _ hmem1
    rw [hfalse] at hsx
    exact Bool.noConfusion hsx

/-! ## Decomposition of BuildState's two registries -/

/-- Registry state after allocating a sequence of bases. -/
def namerAfter (u : Namer) : List String → Namer
  | [] => u
  | b :: bs => namerAfter (u.next b).2 bs

theorem allocAll_append (u : Namer) (l1 l2 : List String) :
    allocAll u (l1 ++ l2) = allocAll u l1 ++ allocAll (namerAfter u l1) l2 := by
  induction l1 generalizing u with
  | nil => rfl
  | cons b bs ih => simp [allocAll, namerAfter, ih]

/-- Bases the cluster loop feeds to the profile registry: one per cluster
whose role key is not yet bound (synthesized RoleRecords). -/
def profileBasesAux (bound : String → Bool) : List ClusterAccess → List String
  | [] => []
  | cl :: rest =>
    if bound (roleKeyOf cl.AccountID cl.RoleName) = true then profileBasesAux bound rest
    else clusterRoleBase cl ::
      profileBasesAux
        (fun x => if x = roleKeyOf cl.AccountID cl.RoleName then true else bound x) rest

/-- All bases fed to the profile registry during BuildState, in order. -/
def profileBasesOf (inv : Inventory) : List String :=
  (sortRolesInv inv.Roles).map roleBase ++
  profileBasesAux
    (fun k => (sortRolesInv inv.Roles).any (fun r => roleKeyOf r.AccountID r.RoleName == k))
    (sortClustersInv inv.Clusters)

/-- All bases fed to the context registry during BuildState, in order. -/
def contextBasesOf (inv : Inventory) : List String :=
  (sortClustersInv inv.Clusters).map contextBase

theorem Slug_ne_empty (s : String) : Slug s ≠ "" := by
  unfold Slug
  dsimp only
  split
  · intro h
    exact absurd (congrArg String.data h) (by decide)
  · rename_i hne
    intro h
    have hd := congrArg String.data h
    have : (slugChars s.data).isEmpty = true := by
      rw [show slugChars s.data = [] from hd]
      rfl
    rw [this] at hne
    exact hne rfl

theorem nameOf_ne_empty (b : String) (k : Nat) (hb : b ≠ "") : nameOf b k ≠ "" := by
  unfold nameOf
  split
  · exact hb
  · intro h
    have hd := congrArg String.data h
    rw [String.data_append, String.data_append] at hd
    rcases List.append_eq_nil.mp hd with ⟨h1, -⟩
    rcases List.append_eq_nil.mp h1 with ⟨hbd, -⟩
    exact hb (String.ext hbd)

theorem namer_next_fst_ne_empty (u : Namer) (b : String) : (u.next b).1 ≠ "" := by
  rw [namer_next_eq]
  exact nameOf_ne_empty _ _ (Slug_ne_empty b)

theorem allocAll_cons (u : Namer) (b : String) (bs : List String) :
    allocAll u (b :: bs) = (u.next b).1 :: allocAll (u.next b).2 bs := rfl

theorem namerAfter_cons (u : Namer) (b : String) (bs : List String) :
    namerAfter u (b :: bs) = namerAfter (u.next b).2 bs := rfl

/-- Simulation of the role loop: the produced profiles are exactly the
registry's allocations for the role bases, the registry is threaded, and a
role key is unbound exactly when no processed role carries it. -/
theorem roleLoop_sim :
    ∀ (rs : List RoleAccess) (acc : BuildAcc),
      ((rs.foldl roleStep acc).roles.map (fun r => r.AWSProfile) =
        acc.roles.map (fun r => r.AWSProfile) ++ allocAll acc.pNamer (rs.map roleBase)) ∧
      ((rs.foldl roleStep acc).pNamer = namerAfter acc.pNamer (rs.map roleBase)) ∧
      (∀ k, ((rs.foldl roleStep acc).keyMap k = "") ↔
        (acc.keyMap k = "" ∧
          rs.any (fun r => roleKeyOf r.AccountID r.RoleName == k) = false)) := by
  intro rs
  induction rs with
  | nil => intro acc; simp [namerAfter, allocAll]
  | cons r rs ih =>
    intro acc
    simp only [List.foldl_cons, List.map_cons]
    obtain ⟨ih1, ih2, ih3⟩ := ih (roleStep acc r)
    refine ⟨?_, ?_, ?_⟩
    · rw [ih1, allocAll_cons]
      unfold roleStep
      dsimp only
      rw [List.map_append]
      simp
    · rw [ih2, namerAfter_cons]
      rfl
    · intro k
      rw [ih3 k]
      unfold roleStep
      dsimp only
      by_cases hk : k = roleKeyOf r.AccountID r.RoleName
      · rw [if_pos hk]
        simp only [List.any_cons]
        constructor
        · rintro ⟨hp, -⟩
          exact absurd hp (namer_next_fst_ne_empty _ _)
        · rintro ⟨-, hany⟩
          rw [Bool.or_eq_false_iff] at hany
          have : (roleKeyOf r.AccountID r.RoleName == k) = true := beq_iff_eq.mpr hk.symm
          rw [this] at hany
          exact absurd hany.1 (by simp)
      · rw [if_neg hk]
        simp only [List.any_cons]
        have : (roleKeyOf r.AccountID r.RoleName == k) = false :=
          beq_false_of_ne (fun h => hk h.symm)
        rw [this]
        simp

theorem profileBasesAux_cons (bound : String → Bool) (cl : ClusterAccess)
    (cs : List ClusterAccess) :
    profileBasesAux bound (cl :: cs) =
      if bound (roleKeyOf cl.AccountID cl.RoleName) = true then profileBasesAux bound cs
      else clusterRoleBase cl :: profileBasesAux
        (fun x => if x = roleKeyOf cl.AccountID cl.RoleName then true else bound x) cs := rfl

/-- Simulation of the cluster loop: contexts are exactly the context
registry's allocations for the context bases, and the appended synthesized
profiles are exactly the profile registry's allocations for the unbound
role-key bases. -/
theorem clusterLoop_sim (cfg : Config) :
    ∀ (cs : List ClusterAccess) (acc : BuildAcc2) (bound : String → Bool),
      (∀ k, (acc.keyMap k = "") ↔ (bound k = false)) →
      ((cs.foldl (clusterStep cfg) acc).clusters.map (fun c => c.KubeContext) =
        acc.clusters.map (fun c => c.KubeContext) ++
          allocAll acc.cNamer (cs.map contextBase)) ∧
      ((cs.foldl (clusterStep cfg) acc).roles.map (fun r => r.AWSProfile) =
        acc.roles.map (fun r => r.AWSProfile) ++
          allocAll acc.pNamer (profileBasesAux bound cs)) := by
  intro cs
  induction cs with
  | nil => intro acc bound hb; simp [profileBasesAux, allocAll]
  | cons cl cs ih =>
    intro acc bound hb
    simp only [List.foldl_cons, List.map_cons]
    by_cases hsy : acc.keyMap (roleKeyOf cl.AccountID cl.RoleName) = ""
    · have hbound : bound (roleKeyOf cl.AccountID cl.RoleName) = false := (hb _).mp hsy
      have hstep : clusterStep cfg acc cl =
          { pNamer := (acc.pNamer.next (clusterRoleBase cl)).2
            cNamer := (acc.cNamer.next (contextBase cl)).2
            keyMap := fun x => if x = roleKeyOf cl.AccountID cl.RoleName
              then (acc.pNamer.next (clusterRoleBase cl)).1 else acc.keyMap x
            roles := acc.roles ++ [synthRoleRec cl ((acc.pNamer.next (clusterRoleBase cl)).1)]
            clusters := acc.clusters ++
              [clusterRecOf cfg cl ((acc.pNamer.next (clusterRoleBase cl)).1)
                ((acc.cNamer.next (contextBase cl)).1)] } := by
        unfold clusterStep
        rw [if_pos hsy]
      obtain ⟨ihc, ihr⟩ := ih (clusterStep cfg acc cl)
        (fun x => if x = roleKeyOf cl.AccountID cl.RoleName then true else bound x)
        (by
          intro k
          rw [hstep]
          dsimp only
          by_cases hk : k = roleKeyOf cl.AccountID cl.RoleName
          · simp only [hk, if_pos rfl]
            constructor
            · intro h
              exact absurd h (namer_next_fst_ne_empty _ _)
            · intro h
              exact absurd h (by simp)
          · simp only [if_neg hk]
            exact hb k)
      refine ⟨?_, ?_⟩
      · rw [ihc, hstep, allocAll_cons]
        dsimp only
        rw [List.map_append]
        simp [clusterRecOf]
      · rw [ihr, hstep]
        dsimp only
        rw [profileBasesAux_cons, if_neg (by rw [hbound]; exact Bool.false_ne_true)]
        rw [allocAll_cons, List.map_append]
        simp [synthRoleRec]
    · have hbound : bound (roleKeyOf cl.AccountID cl.RoleName) = true := by
        rcases Bool.eq_false_or_eq_true (bound (roleKeyOf cl.AccountID cl.RoleName)) with h | h
        · exact h
        · exact absurd ((hb _).mpr h) hsy
      have hstep : clusterStep cfg acc cl =
          { pNamer := acc.pNamer
            cNamer := (acc.cNamer.next (contextBase cl)).2
            keyMap := acc.keyMap
            roles := acc.roles
            clusters := acc.clusters ++
              [clusterRecOf cfg cl (acc.keyMap (roleKeyOf cl.AccountID cl.RoleName))
                ((acc.cNamer.next (contextBase cl)).1)] } := by
        unfold clusterStep
        rw [if_neg hsy]
      obtain ⟨ihc, ihr⟩ := ih (clusterStep cfg acc cl) bound
        (by
          intro k
          rw [hstep]
          exact hb k)
      refine ⟨?_, ?_⟩
      · rw [ihc, hstep, allocAll_cons]
        dsimp only
        rw [List.map_append]
        simp [clusterRecOf]
      · rw [ihr, hstep]
        dsimp only
        rw [profileBasesAux_cons, if_pos hbound]

/-- BuildState's two loops feed two independent registries: the produced
context names are the context registry's allocations over only the context
bases, and the produced profile names are the profile registry's
allocations over only the profile bases. -/
theorem buildLoops_names (cfg : Config) (inv : Inventory) :
    ((buildLoops cfg inv).roles.map (fun r => r.AWSProfile) =
      allocAll Namer.empty (profileBasesOf inv)) ∧
    ((buildLoops cfg inv).clusters.map (fun c => c.KubeContext) =
      allocAll Namer.empty (contextBasesOf inv)) := by
  unfold buildLoops profileBasesOf contextBasesOf
  obtain ⟨r1, r2, r3⟩ := roleLoop_sim (sortRolesInv inv.Roles)
    { pNamer := Namer.empty, keyMap := fun _ => "", roles := [] }
  obtain ⟨c1, c2⟩ := clusterLoop_sim cfg (sortClustersInv inv.Clusters)
    { pNamer := ((sortRolesInv inv.Roles).foldl roleStep
        { pNamer := Namer.empty, keyMap := fun _ => "", roles := [] }).pNamer,
      cNamer := Namer.empty,
      keyMap := ((sortRolesInv inv.Roles).foldl roleStep
        { pNamer := Namer.empty, keyMap := fun _ => "", roles := [] }).keyMap,
      roles := ((sortRolesInv inv.Roles).foldl roleStep
        { pNamer := Namer.empty, keyMap := fun _ => "", roles := [] }).roles,
      clusters := [] }
    (fun k => (sortRolesInv inv.Roles).any (fun r => roleKeyOf r.AccountID r.RoleName == k))
    (by
      intro k
      rw [r3 k]
      simp)
  constructor
  · rw [c2, r1, r2]
    simp only [List.map_nil, List.nil_append]
    rw [allocAll_append]
  · rw [c1]
    simp

/-! ## C6: allocation registry numbering -/

/-- C6 counterexample: the registry slugs each base before counting, so the
first occurrence of the base "Admin" allocates "admin", not the bare base
"Admin" as claimed. -/
theorem namer_bare_base_cex :
    allocAll Namer.empty ["Admin"] = ["admin"] ∧
    allocAll Namer.empty ["Admin"] ≠ ["Admin"] := by decide

/-- C6 (amended): the k-th occurrence of a base (occurrences counted on the
slugged base) allocates the slugged base bare for k = 1 and with suffix
"-k" for k ≥ 2; three identical bases "rift-prod-acme-admin" allocate to
"rift-prod-acme-admin", "-2", "-3" in order; and the profile and context
registries are independent — BuildState's profile names are exactly one
registry's allocations over only the profile bases and its context names
exactly the other registry's allocations over only the context bases. -/
theorem namer_occurrence_spec :
    (∀ (bs : List String) (i : Nat) (h : i < bs.length)
       (h2 : i < (allocAll Namer.empty bs).length),
      (allocAll Namer.empty bs)[i] =
        (if (bs.take (i + 1)).countP (fun x => Slug x == Slug bs[i]) = 1 then Slug bs[i]
         else Slug bs[i] ++ "-" ++
           natRepr ((bs.take (i + 1)).countP (fun x => Slug x == Slug bs[i])))) ∧
    allocAll Namer.empty
      ["rift-prod-acme-admin", "rift-prod-acme-admin", "rift-prod-acme-admin"] =
      ["rift-prod-acme-admin", "rift-prod-acme-admin-2", "rift-prod-acme-admin-3"] ∧
    (∀ (cfg : Config) (inv : Inventory),
      ((buildLoops cfg inv).roles.map (fun r => r.AWSProfile) =
        allocAll Namer.empty (profileBasesOf inv)) ∧
      ((buildLoops cfg inv).clusters.map (fun c => c.KubeContext) =
        allocAll Namer.empty (contextBasesOf inv))) := by
  refine ⟨?_, by decide, buildLoops_names⟩
  intro bs i h h2
  rw [allocAll_getElem bs Namer.empty i h h2]
  have hcounts : Namer.empty.counts (Slug bs[i]) = 0 := rfl
  rw [hcounts, Nat.zero_add]
  rfl

/-- Witness for C6's occurrence formula at a concrete input: the second
occurrence (by slug) of base "a" behind "A" allocates "a-2". -/
theorem namer_occurrence_spec_witness :
    (allocAll Namer.empty ["A", "a"]).get ⟨1, by decide⟩ = "a-2" := by
  have h := namer_occurrence_spec.1 ["A", "a"] 1 (by decide) (by decide)
  rw [List.get_eq_getElem, h]
  decide

/-! ## C3: name uniqueness in BuildState -/

theorem dedupeAux_shape :
    ∀ (l : List RoleRecord) (seen : List String) (acc : List RoleRecord),
      ∃ sub, (l.foldl dedupeStep (seen, acc)).2 = acc ++ sub ∧ sub.Sublist l := by
  intro l
  induction l with
  | nil => intro seen acc; exact ⟨[], by simp, List.Sublist.refl _⟩
  | cons r l ih =>
    intro seen acc
    simp only [List.foldl_cons]
    by_cases hmem : dedupeKey r ∈ seen
    · rw [show dedupeStep (seen, acc) r = (seen, acc) from by
        unfold dedupeStep; rw [if_pos hmem]]
      obtain ⟨sub, heq, hsub⟩ := ih seen acc
      exact ⟨sub, heq, hsub.cons r⟩
    · rw [show dedupeStep (seen, acc) r = (seen ++ [dedupeKey r], acc ++ [r]) from by
        unfold dedupeStep; rw [if_neg hmem]]
      obtain ⟨sub, heq, hsub⟩ := ih (seen ++ [dedupeKey r]) (acc ++ [r])
      exact ⟨r :: sub, by rw [heq, List.append_assoc]; rfl, hsub.cons₂ r⟩

theorem dedupeRoles_sublist (l : List RoleRecord) : (dedupeRoles l).Sublist l := by
  obtain ⟨sub, heq, hsub⟩ := dedupeAux_shape l [] []
  unfold dedupeRoles
  rw [heq]
  simpa using hsub

/-- C3 counterexample: BuildState can emit two RoleRecords with the same
generated profile name.  With account name "prodacme" and role names
"Admin", "admin", "admin-2", the base "rift-prod-prodacme-admin" suffixes
its second occurrence to "rift-prod-prodacme-admin-2", which collides with
the first (bare) occurrence of the base "rift-prod-prodacme-admin-2". -/
theorem buildState_duplicate_profile_cex :
    ((BuildState { SSOStartURL := "", SSORegion := "", Regions := [], NamespaceDefaults := [] }
        { Roles := [{ AccountID := "1", AccountName := "prodacme", RoleName := "Admin" },
                    { AccountID := "1", AccountName := "prodacme", RoleName := "admin" },
                    { AccountID := "1", AccountName := "prodacme", RoleName := "admin-2" }],
          Clusters := [] }).Roles.map (fun r => r.AWSProfile)) =
      ["rift-prod-prodacme-admin", "rift-prod-prodacme-admin-2",
       "rift-prod-prodacme-admin-2"] ∧
    ¬ ((BuildState { SSOStartURL := "", SSORegion := "", Regions := [], NamespaceDefaults := [] }
        { Roles := [{ AccountID := "1", AccountName := "prodacme", RoleName := "Admin" },
                    { AccountID := "1", AccountName := "prodacme", RoleName := "admin" },
                    { AccountID := "1", AccountName := "prodacme", RoleName := "admin-2" }],
          Clusters := [] }).Roles.map (fun r => r.AWSProfile)).Nodup := by decide

/-- C3 (amended): in every State produced by BuildState the generated
profile names are pairwise distinct and the generated context names are
pairwise distinct, provided no slugged base name of the run extends another
one by a "-digits" suffix (the collision the counterexample exhibits). -/
theorem buildState_names_unique_amended :
    ∀ (cfg : Config) (inv : Inventory),
      ((∀ b1 ∈ (profileBasesOf inv).map Slug, ∀ b2 ∈ (profileBasesOf inv).map Slug,
          numSuffixOf b1 b2 = false) →
        ((BuildState cfg inv).Roles.map (fun r => r.AWSProfile)).Nodup) ∧
      ((∀ b1 ∈ (contextBasesOf inv).map Slug, ∀ b2 ∈ (contextBasesOf inv).map Slug,
          numSuffixOf b1 b2 = false) →
        ((BuildState cfg inv).Clusters.map (fun c => c.KubeContext)).Nodup) := by
  intro cfg inv
  constructor
  · intro hns
    have h1 := (buildLoops_names cfg inv).1
    have hnod : ((buildLoops cfg inv).roles.map (fun r => r.AWSProfile)).Nodup := by
      rw [h1]
      exact allocAll_nodup _ hns
    have hnod2 : ((dedupeRoles (buildLoops cfg inv).roles).map
        (fun r => r.AWSProfile)).Nodup :=
      ((dedupeRoles_sublist (buildLoops cfg inv).roles).map _).nodup hnod
    unfold BuildState State.Normalize
    dsimp only
    exact hnod2.perm ((sortBy_perm _ _).map _).symm
  · intro hns
    have h1 := (buildLoops_names cfg inv).2
    have hnod : ((buildLoops cfg inv).clusters.map (fun c => c.KubeContext)).Nodup := by
      rw [h1]
      exact allocAll_nodup _ hns
    unfold BuildState State.Normalize
    dsimp only
    exact hnod.perm ((sortBy_perm _ _).map _).symm

/-- Witness for C3's amended theorem at a concrete non-colliding inventory. -/
theorem buildState_names_unique_amended_witness :
    (((BuildState { SSOStartURL := "", SSORegion := "", Regions := [], NamespaceDefaults := [] }
        { Roles := [{ AccountID := "1", AccountName := "acme", RoleName := "ops" },
                    { AccountID := "2", AccountName := "beta", RoleName := "ops" }],
          Clusters := [] }).Roles.map (fun r => r.AWSProfile)).Nodup) := by
  exact (buildState_names_unique_amended
    { SSOStartURL := "", SSORegion := "", Regions := [], NamespaceDefaults := [] }
    { Roles := [{ AccountID := "1", AccountName := "acme", RoleName := "ops" },
                { AccountID := "2", AccountName := "beta", RoleName := "ops" }],
      Clusters := [] }).1 (by decide)

/-! ## Well-formedness of slugs and generated names (towards C10) -/

/-- A well-formed name fragment: non-empty, only [a-z0-9-], no hyphen at
either end, no two consecutive hyphens. -/
def WFChars (l : List Char) : Prop :=
  l ≠ [] ∧ (∀ c ∈ l, isNameChar c = true) ∧
  l.head? ≠ some '-' ∧ l.getLast? ≠ some '-' ∧
  l.Chain' (fun a b => ¬(a = '-' ∧ b = '-'))

theorem squeezeDashes_sublist : ∀ l : List Char, (squeezeDashes l).Sublist l := by
  intro l
  induction l with
  | nil => exact List.Sublist.refl _
  | cons c1 rest ih =>
    cases rest with
    | nil => exact List.Sublist.refl _
    | cons c2 rest2 =>
      rw [squeezeDashes]
      split
      · exact ih.cons c1
      · exact ih.cons₂ c1

theorem squeezeDashes_head? :
    ∀ (x : Char) (xs : List Char), (squeezeDashes (x :: xs)).head? = some x := by
  intro x xs
  induction xs generalizing x with
  | nil => rfl
  | cons y ys ih =>
    rw [squeezeDashes]
    split
    · rename_i hd
      rw [ih y, hd.2, hd.1]
    · rfl

theorem squeezeDashes_chain' :
    ∀ l : List Char, (squeezeDashes l).Chain' (fun a b => ¬(a = '-' ∧ b = '-')) := by
  intro l
  induction l with
  | nil => exact List.chain'_nil
  | cons c1 rest ih =>
    cases rest with
    | nil => exact List.chain'_singleton c1
    | cons c2 rest2 =>
      rw [squeezeDashes]
      split
      · exact ih
      · rename_i hnd
        refine List.chain'_cons'.mpr ⟨?_, ih⟩
        intro y hy
        rw [squeezeDashes_head? c2 rest2] at hy
        cases hy
        exact hnd

theorem dropWhile_eq_self_of_all {p : Char → Bool} :
    ∀ l : List Char, (∀ c ∈ l, p c = false) → l.dropWhile p = l := by
  intro l h
  cases l with
  | nil => rfl
  | cons a t =>
    rw [List.dropWhile_cons, if_neg]
    rw [h a (List.mem_cons_self a t)]
    simp

theorem isNameChar_not_space {c : Char} (h : isNameChar c = true) : isSpaceChar c = false := by
  unfold isNameChar isSlugChar at h
  by_contra hcon
  rw [Bool.not_eq_false] at hcon
  unfold isSpaceChar at hcon
  simp only [Bool.or_eq_true, beq_iff_eq] at hcon h
  have hn : (97 ≤ c.toNat ∧ c.toNat ≤ 122) ∨ (48 ≤ c.toNat ∧ c.toNat ≤ 57) ∨ c = '-' := by
    rcases h with ⟨h1⟩ | h2
    · rcases h1 with h1 | h1
      · left; simp only [Bool.and_eq_true, decide_eq_true_eq] at h1; exact h1
      · right; left; simp only [Bool.and_eq_true, decide_eq_true_eq] at h1; exact h1
    · right; right; exact h2
  rcases hcon with ((((hc | hc) | hc) | hc) | hc) | hc <;> subst hc <;>
    rcases hn with ⟨h1, h2⟩ | ⟨h1, h2⟩ | h3 <;> simp_all

theorem head?_dropLead {p : Char → Bool} {l : List Char} {a : Char} {t : List Char}
    (h : dropLead p l = a :: t) : p a = false := by
  have h0 := List.head?_dropWhile_not p l
  unfold dropLead at h
  rw [h] at h0
  simpa using h0

theorem dropLead_suffix (p : Char → Bool) (l : List Char) : (dropLead p l).IsSuffix l :=
  List.dropWhile_suffix p

theorem dropTrail_isPre (p : Char → Bool) (l : List Char) : (dropTrail p l).IsPrefix l := by
  unfold dropTrail
  rcases List.dropWhile_suffix (l := l.reverse) p with ⟨pre, hpre⟩
  refine ⟨pre.reverse, ?_⟩
  have h := congrArg List.reverse hpre
  rw [List.reverse_append, List.reverse_reverse] at h
  exact h

theorem getLast?_dropTrail {p : Char → Bool} {l : List Char} {a : Char}
    (h : (dropTrail p l).getLast? = some a) : p a = false := by
  unfold dropTrail at h
  rw [List.getLast?_reverse] at h
  have h0 := List.head?_dropWhile_not p l.reverse
  rw [h] at h0
  simpa using h0

theorem chain'_of_suffix {R : Char → Char → Prop} {l t : List Char}
    (hs : t.IsSuffix l) (h : l.Chain' R) : t.Chain' R := by
  rcases hs with ⟨pre, hpre⟩
  rw [← hpre] at h
  exact (List.chain'_append.mp h).2.1

theorem chain'_of_isPre {R : Char → Char → Prop} {l t : List Char}
    (hs : t.IsPrefix l) (h : l.Chain' R) : t.Chain' R := by
  rcases hs with ⟨suf, hsuf⟩
  rw [← hsuf] at h
  exact (List.chain'_append.mp h).1

theorem trimChars_subset (p : Char → Bool) (l : List Char) : trimChars p l ⊆ l := by
  intro c hc
  exact (dropLead_suffix p l).subset ((dropTrail_isPre p (dropLead p l)).subset hc)

theorem head?_trimChars {p : Char → Bool} {l : List Char} {a : Char}
    (h : (trimChars p l).head? = some a) : p a = false := by
  unfold trimChars at h
  rcases dropTrail_isPre p (dropLead p l) with ⟨suf, hsuf⟩
  cases hcase : dropTrail p (dropLead p l) with
  | nil => rw [hcase] at h; exact Option.noConfusion h
  | cons b u =>
    rw [hcase] at h hsuf
    simp only [List.head?_cons, Option.some.injEq] at h
    cases hdl : dropLead p l with
    | nil => rw [hdl] at hsuf; exact absurd hsuf (by simp)
    | cons b0 u0 =>
      rw [hdl] at hsuf
      have hb : b = b0 := by
        have := congrArg List.head? hsuf
        simpa using this
      rw [← h, hb]
      exact head?_dropLead hdl

theorem getLast?_trimChars {p : Char → Bool} {l : List Char} {a : Char}
    (h : (trimChars p l).getLast? = some a) : p a = false :=
  getLast?_dropTrail h

theorem chain'_trimChars {R : Char → Char → Prop} {p : Char → Bool} {l : List Char}
    (h : l.Chain' R) : (trimChars p l).Chain' R :=
  chain'_of_isPre (dropTrail_isPre p (dropLead p l))
    (chain'_of_suffix (dropLead_suffix p l) h)

/-- The character list of a slug is empty or a well-formed name fragment. -/
theorem slugChars_wf (cs : List Char) :
    slugChars cs = [] ∨ WFChars (slugChars cs) := by
  by_cases hnil : slugChars cs = []
  · exact Or.inl hnil
  · right
    have hform : slugChars cs = trimChars (fun c => c = '-')
        (squeezeDashes (((trimChars isSpaceChar cs).map lowerChar).map
          (fun c => if isSlugChar c then c else '-'))) := rfl
    refine ⟨hnil, ?_, ?_, ?_, ?_⟩
    · intro c hc
      rw [hform] at hc
      have hc1 := trimChars_subset _ _ hc
      have hc2 := (squeezeDashes_sublist _).subset hc1
      rcases List.mem_map.mp hc2 with ⟨c0, -, rfl⟩
      unfold isNameChar
      by_cases hs : isSlugChar c0 = true
      · rw [if_pos hs, hs]
        simp
      · rw [if_neg hs]
        simp
    · intro hhead
      have := head?_trimChars (hform ▸ hhead)
      simp at this
    · intro hlast
      have := getLast?_trimChars (hform ▸ hlast)
      simp at this
    · rw [hform]
      exact chain'_trimChars (squeezeDashes_chain' _)

/-- Boolean check for the no-consecutive-hyphens condition. -/
def noDDB : List Char → Bool
  | [] => true
  | [_] => true
  | c1 :: c2 :: rest => !(decide (c1 = '-' ∧ c2 = '-')) && noDDB (c2 :: rest)

theorem noDDB_iff : ∀ l : List Char,
    noDDB l = true ↔ l.Chain' (fun a b => ¬(a = '-' ∧ b = '-')) := by
  intro l
  induction l with
  | nil => simp [noDDB]
  | cons c1 rest ih =>
    cases rest with
    | nil => simp [noDDB]
    | cons c2 rest2 =>
      rw [noDDB, List.chain'_cons, ← ih]
      simp only [Bool.and_eq_true, Bool.not_eq_eq_eq_not, Bool.not_true,
        decide_eq_false_iff_not]

/-- Boolean check for WFChars, usable with decide on concrete strings. -/
def wfB (l : List Char) : Bool :=
  !l.isEmpty && l.all isNameChar && !(l.head? == some '-') &&
  !(l.getLast? == some '-') && noDDB l

theorem wfB_iff (l : List Char) : wfB l = true ↔ WFChars l := by
  unfold wfB WFChars
  rw [← noDDB_iff]
  simp only [Bool.and_eq_true, Bool.not_eq_eq_eq_not, Bool.not_true, List.isEmpty_eq_false,
    List.all_eq_true, beq_eq_false_iff_ne, ne_eq, and_assoc]

theorem Slug_wf (s : String) : WFChars (Slug s).data := by
  unfold Slug
  dsimp only
  split
  · exact (wfB_iff _).mp (by decide)
  · rename_i h
    show WFChars (slugChars s.data)
    rcases slugChars_wf s.data with hnil | hwf
    · rw [hnil] at h
      exact absurd rfl h
    · exact hwf

theorem isNameChar_ranges {c : Char} (h : isNameChar c = true) :
    (97 ≤ c.toNat ∧ c.toNat ≤ 122) ∨ (48 ≤ c.toNat ∧ c.toNat ≤ 57) ∨ c.toNat = 45 := by
  unfold isNameChar isSlugChar at h
  simp only [Bool.or_eq_true, Bool.and_eq_true, decide_eq_true_eq, beq_iff_eq] at h
  rcases h with (h | h) | h
  · exact Or.inl h
  · exact Or.inr (Or.inl h)
  · subst h
    exact Or.inr (Or.inr rfl)

theorem lowerChar_eq_self {c : Char} (h : isNameChar c = true) : lowerChar c = c := by
  unfold lowerChar
  rw [if_neg]
  rcases isNameChar_ranges h with ⟨h1, h2⟩ | ⟨h1, h2⟩ | h1 <;> omega

theorem slugify_eq_self {c : Char} (h : isNameChar c = true) :
    (if isSlugChar c then c else '-') = c := by
  by_cases hs : isSlugChar c = true
  · rw [if_pos hs]
  · rw [if_neg hs]
    unfold isNameChar at h
    rcases Bool.or_eq_true_iff.mp h with h1 | h1
    · exact absurd h1 hs
    · exact (beq_iff_eq.mp h1).symm

theorem squeezeDashes_eq_self :
    ∀ {l : List Char}, l.Chain' (fun a b => ¬(a = '-' ∧ b = '-')) → squeezeDashes l = l := by
  intro l
  induction l with
  | nil => intro h; rfl
  | cons c1 rest ih =>
    intro h
    cases rest with
    | nil => rfl
    | cons c2 rest2 =>
      rw [squeezeDashes, if_neg (List.chain'_cons.mp h).1]
      rw [ih (List.chain'_cons.mp h).2]

theorem trimChars_eq_self_of_all {p : Char → Bool} {l : List Char}
    (h : ∀ c ∈ l, p c = false) : trimChars p l = l := by
  unfold trimChars dropTrail dropLead
  rw [dropWhile_eq_self_of_all l h, dropWhile_eq_self_of_all l.reverse
    (fun c hc => h c (List.mem_reverse.mp hc)), List.reverse_reverse]

theorem dropLead_eq_self_of_head {p : Char → Bool} {l : List Char}
    (h : ∀ a, l.head? = some a → p a = false) : dropLead p l = l := by
  cases l with
  | nil => rfl
  | cons a t =>
    unfold dropLead
    rw [List.dropWhile_cons, if_neg]
    rw [h a rfl]
    simp

theorem dropTrail_eq_self_of_last {p : Char → Bool} {l : List Char}
    (hl : ∀ a, l.getLast? = some a → p a = false) : dropTrail p l = l := by
  unfold dropTrail
  rw [show l.reverse.dropWhile p = l.reverse from
    dropLead_eq_self_of_head (fun a ha => hl a (by rwa [List.head?_reverse] at ha))]
  exact List.reverse_reverse l

theorem trimChars_eq_self_of_ends {p : Char → Bool} {l : List Char}
    (hh : ∀ a, l.head? = some a → p a = false)
    (hl : ∀ a, l.getLast? = some a → p a = false) : trimChars p l = l := by
  unfold trimChars
  rw [dropLead_eq_self_of_head hh, dropTrail_eq_self_of_last hl]

theorem slugChars_eq_self {l : List Char} (h : WFChars l) : slugChars l = l := by
  obtain ⟨hne, hchars, hhead, hlast, hchain⟩ := h
  show trimChars (fun c => c = '-')
    (squeezeDashes (((trimChars isSpaceChar l).map lowerChar).map
      (fun c => if isSlugChar c then c else '-'))) = l
  rw [trimChars_eq_self_of_all (fun c hc => isNameChar_not_space (hchars c hc))]
  rw [show l.map lowerChar = l from List.map_congr_left
    (fun c hc => lowerChar_eq_self (hchars c hc)) |>.trans (List.map_id l)]
  rw [show l.map (fun c => if isSlugChar c then c else '-') = l from List.map_congr_left
    (fun c hc => slugify_eq_self (hchars c hc)) |>.trans (List.map_id l)]
  rw [squeezeDashes_eq_self hchain]
  refine trimChars_eq_self_of_ends ?_ ?_
  · intro a ha
    have : a ≠ '-' := fun hcon => hhead (by rw [← hcon]; exact ha)
    simpa using this
  · intro a ha
    have : a ≠ '-' := fun hcon => hlast (by rw [← hcon]; exact ha)
    simpa using this

theorem Slug_fixed {s : String} (h : WFChars s.data) : Slug s = s := by
  show (if (slugChars s.data).isEmpty then ("unknown" : String) else ⟨slugChars s.data⟩) = s
  rw [slugChars_eq_self h,
    if_neg (by simp only [List.isEmpty_iff]; exact fun hcon => h.1 hcon)]

theorem WF_glue {a b : List Char} (ha : WFChars a) (hb : WFChars b) :
    WFChars (a ++ '-' :: b) := by
  obtain ⟨hane, hac, hah, hal, hachain⟩ := ha
  obtain ⟨hbne, hbc, hbh, hbl, hbchain⟩ := hb
  refine ⟨by simp, ?_, ?_, ?_, ?_⟩
  · intro c hc
    rcases List.mem_append.mp hc with hc | hc
    · exact hac c hc
    · rcases List.mem_cons.mp hc with rfl | hc
      · decide
      · exact hbc c hc
  · cases a with
    | nil => exact absurd rfl hane
    | cons a0 t =>
      simp only [List.cons_append, List.head?_cons]
      simpa using hah
  · rw [List.getLast?_append_of_ne_nil a (by simp : ('-' :: b) ≠ [])]
    cases b with
    | nil => exact absurd rfl hbne
    | cons b0 u =>
      rw [show ('-' :: b0 :: u) = ['-'] ++ (b0 :: u) from rfl,
        List.getLast?_append_of_ne_nil ['-'] (by simp : (b0 :: u) ≠ [])]
      exact hbl
  · refine List.chain'_append.mpr ⟨hachain, ?_, ?_⟩
    · refine List.chain'_cons'.mpr ⟨?_, hbchain⟩
      intro y hy
      rintro ⟨-, rfl⟩
      exact hbh hy
    · intro x hx y hy
      simp only [List.head?_cons, Option.mem_def, Option.some.injEq] at hy
      rintro ⟨rfl, -⟩
      exact hal hx

theorem InferEnv_mem (parts : List String) :
    InferEnv parts = "prod" ∨ InferEnv parts = "staging" ∨ InferEnv parts = "dev" ∨
    InferEnv parts = "int" ∨ InferEnv parts = "other" := by
  unfold InferEnv
  dsimp only
  split_ifs <;> simp

theorem WF_env {parts : List String} : WFChars (InferEnv parts).data := by
  rcases InferEnv_mem parts with h | h | h | h | h <;> rw [h] <;>
    exact (wfB_iff _).mp (by decide)

theorem base_data_eq (env a r : String) :
    ("rift-" ++ env ++ "-" ++ a ++ "-" ++ r).data =
      (("rift".data ++ '-' :: env.data) ++ '-' :: a.data) ++ '-' :: r.data := by
  simp only [String.data_append]
  simp [List.append_assoc]

theorem WF_base (env a r : String) (henv : WFChars env.data) (ha : WFChars a.data)
    (hr : WFChars r.data) : WFChars ("rift-" ++ env ++ "-" ++ a ++ "-" ++ r).data := by
  rw [base_data_eq]
  exact WF_glue (WF_glue (WF_glue ((wfB_iff _).mp (by decide)) henv) ha) hr

theorem base_starts (env a r : String) :
    strStarts ("rift-" ++ env ++ "-" ++ a ++ "-" ++ r) "rift-" = true := by
  unfold strStarts
  apply List.isPrefixOf_iff_prefix.mpr
  rw [base_data_eq]
  refine List.IsPrefix.trans ?_ (List.prefix_append _ _)
  refine List.IsPrefix.trans ?_ (List.prefix_append _ _)
  rw [show ("rift".data ++ '-' :: env.data) = ("rift".data ++ ['-']) ++ env.data from by simp,
    show ("rift-" : String).data = "rift".data ++ ['-'] from rfl]
  exact List.prefix_append _ _

theorem WF_accountSlug (n i : String) : WFChars (accountSlugOf n i).data := by
  unfold accountSlugOf
  split
  · exact Slug_wf i
  · exact Slug_wf n

theorem roleBase_props (role : RoleAccess) :
    WFChars (roleBase role).data ∧ strStarts (roleBase role) "rift-" = true :=
  ⟨WF_base _ _ _ WF_env (WF_accountSlug _ _) (Slug_wf _), base_starts _ _ _⟩

theorem contextBase_props (cl : ClusterAccess) :
    WFChars (contextBase cl).data ∧ strStarts (contextBase cl) "rift-" = true :=
  ⟨WF_base _ _ _ WF_env (WF_accountSlug _ _) (Slug_wf _), base_starts _ _ _⟩

theorem clusterRoleBase_props (cl : ClusterAccess) :
    WFChars (clusterRoleBase cl).data ∧ strStarts (clusterRoleBase cl) "rift-" = true :=
  ⟨WF_base _ _ _ WF_env (WF_accountSlug _ _) (Slug_wf _), base_starts _ _ _⟩

theorem mem_allocAll {n : String} :
    ∀ {bs : List String} {u : Namer}, n ∈ allocAll u bs →
      ∃ b ∈ bs, ∃ k, n = nameOf (Slug b) k := by
  intro bs
  induction bs with
  | nil => intro u h; simp [allocAll] at h
  | cons b bs ih =>
    intro u h
    rw [allocAll_cons] at h
    rcases List.mem_cons.mp h with rfl | h
    · rw [namer_next_eq]
      exact ⟨b, List.mem_cons_self b bs, u.counts (Slug b) + 1, rfl⟩
    · obtain ⟨b0, hb0, k, hk⟩ := ih h
      exact ⟨b0, List.mem_cons_of_mem b hb0, k, hk⟩

theorem isNameChar_of_isDigit {c : Char} (h : c.isDigit = true) : isNameChar c = true := by
  unfold Char.isDigit at h
  unfold isNameChar isSlugChar
  simp only [Bool.and_eq_true, decide_eq_true_eq] at h
  simp only [Bool.or_eq_true, Bool.and_eq_true, decide_eq_true_eq]
  left
  right
  exact ⟨h.1, h.2⟩

theorem nameOf_props {b : String} (hwf : WFChars b.data)
    (hpre : strStarts b "rift-" = true) (k : Nat) :
    strStarts (nameOf b k) "rift-" = true ∧
    ∀ c ∈ (nameOf b k).data, isNameChar c = true := by
  unfold nameOf
  split
  · exact ⟨hpre, hwf.2.1⟩
  · rename_i hk
    constructor
    · unfold strStarts at hpre ⊢
      apply List.isPrefixOf_iff_prefix.mpr
      rw [String.data_append, String.data_append]
      exact (List.isPrefixOf_iff_prefix.mp hpre).trans
        ((List.prefix_append _ _).trans (by rw [List.append_assoc]))
    · intro c hc
      rw [String.data_append, String.data_append] at hc
      rcases List.mem_append.mp hc with hc | hc
      · rcases List.mem_append.mp hc with hc | hc
        · exact hwf.2.1 c hc
        · rcases List.mem_singleton.mp hc with rfl
          decide
      · exact isNameChar_of_isDigit (isDigit_of_mem_decDigits k c hc)

theorem mem_profileBasesAux {b : String} :
    ∀ (cs : List ClusterAccess) (bound : String → Bool),
      b ∈ profileBasesAux bound cs → ∃ cl ∈ cs, b = clusterRoleBase cl := by
  intro cs
  induction cs with
  | nil => intro bound h; simp [profileBasesAux] at h
  | cons cl cs ih =>
    intro bound h
    rw [profileBasesAux_cons] at h
    split at h
    · obtain ⟨cl0, hcl0, hb⟩ := ih bound h
      exact ⟨cl0, List.mem_cons_of_mem cl hcl0, hb⟩
    · rcases List.mem_cons.mp h with rfl | h
      · exact ⟨cl, List.mem_cons_self cl cs, rfl⟩
      · obtain ⟨cl0, hcl0, hb⟩ := ih _ h
        exact ⟨cl0, List.mem_cons_of_mem cl hcl0, hb⟩

theorem profileBase_shape {b : String} {inv : Inventory} (h : b ∈ profileBasesOf inv) :
    WFChars b.data ∧ strStarts b "rift-" = true := by
  unfold profileBasesOf at h
  rcases List.mem_append.mp h with h | h
  · rcases List.mem_map.mp h with ⟨role, -, rfl⟩
    exact roleBase_props role
  · obtain ⟨cl, -, rfl⟩ := mem_profileBasesAux _ _ h
    exact clusterRoleBase_props cl

theorem contextBase_shape {b : String} {inv : Inventory} (h : b ∈ contextBasesOf inv) :
    WFChars b.data ∧ strStarts b "rift-" = true := by
  unfold contextBasesOf at h
  rcases List.mem_map.mp h with ⟨cl, -, rfl⟩
  exact contextBase_props cl

/-! ## C10: every generated name is owned -/

/-- C10: every profile name and every context name allocated by BuildState
begins with "rift-" and consists only of characters [a-z0-9-]: each base is
"rift-" plus a fixed env word and non-empty slugs, the registry re-slugs
the base (a no-op on these bases) and at most appends a decimal "-n"
suffix, so every generated entry name matches the reconcilers' owned-name
conventions ("profile rift-" sections, "rift-" context keys). -/
theorem name_props_of_alloc {n b : String} (hwf : WFChars b.data)
    (hpre : strStarts b "rift-" = true) (k : Nat) (hk : n = nameOf (Slug b) k) :
    strStarts n "rift-" = true ∧ ∀ c ∈ n.data, isNameChar c = true := by
  subst hk
  rw [Slug_fixed hwf]
  exact nameOf_props hwf hpre k

theorem buildLoops_role_name_props (cfg : Config) (inv : Inventory) :
    ∀ r ∈ (buildLoops cfg inv).roles,
      strStarts r.AWSProfile "rift-" = true ∧
      ∀ c ∈ r.AWSProfile.data, isNameChar c = true := by
  intro r hr2
  have hp : r.AWSProfile ∈ allocAll Namer.empty (profileBasesOf inv) := by
    rw [← (buildLoops_names cfg inv).1]
    exact List.mem_map.mpr ⟨r, hr2, rfl⟩
  obtain ⟨b, hb, k, hk⟩ := mem_allocAll hp
  obtain ⟨hwf, hpre⟩ := profileBase_shape hb
  exact name_props_of_alloc hwf hpre k hk

theorem buildLoops_cluster_name_props (cfg : Config) (inv : Inventory) :
    ∀ cl ∈ (buildLoops cfg inv).clusters,
      strStarts cl.KubeContext "rift-" = true ∧
      ∀ c ∈ cl.KubeContext.data, isNameChar c = true := by
  intro cl hc1
  have hp : cl.KubeContext ∈ allocAll Namer.empty (contextBasesOf inv) := by
    rw [← (buildLoops_names cfg inv).2]
    exact List.mem_map.mpr ⟨cl, hc1, rfl⟩
  obtain ⟨b, hb, k, hk⟩ := mem_allocAll hp
  obtain ⟨hwf, hpre⟩ := contextBase_shape hb
  exact name_props_of_alloc hwf hpre k hk

theorem mem_buildState_roles {cfg : Config} {inv : Inventory} {r : RoleRecord}
    (hr : r ∈ (BuildState cfg inv).Roles) : r ∈ (buildLoops cfg inv).roles := by
  have hshape : (BuildState cfg inv).Roles = sortBy
      (fun a b => strLe (roleRecKey a) (roleRecKey b))
      (dedupeRoles (buildLoops cfg inv).roles) := rfl
  rw [hshape] at hr
  exact (dedupeRoles_sublist _).subset ((mem_sortBy _).mp hr)

theorem mem_buildState_clusters {cfg : Config} {inv : Inventory} {cl : ClusterRecord}
    (hcl : cl ∈ (BuildState cfg inv).Clusters) : cl ∈ (buildLoops cfg inv).clusters := by
  have hshape : (BuildState cfg inv).Clusters = sortBy
      (fun a b => strLe (clusterRecKey a) (clusterRecKey b))
      (buildLoops cfg inv).clusters := rfl
  rw [hshape] at hcl
  exact (mem_sortBy _).mp hcl

/-- C10: every profile name and every context name allocated by BuildState
begins with "rift-" and uses only characters from [a-z0-9-]: each base is
"rift-" followed by the env word and non-empty slugs, the registry re-slugs
the base and at most appends a decimal "-n" suffix, so every generated name
matches the reconcilers' owned-name convention. -/
theorem buildState_owned_names :
    ∀ (cfg : Config) (inv : Inventory),
      (∀ r ∈ (BuildState cfg inv).Roles,
        strStarts r.AWSProfile "rift-" = true ∧
        ∀ c ∈ r.AWSProfile.data, isNameChar c = true) ∧
      (∀ cl ∈ (BuildState cfg inv).Clusters,
        strStarts cl.KubeContext "rift-" = true ∧
        ∀ c ∈ cl.KubeContext.data, isNameChar c = true) := by
  intro cfg inv
  exact ⟨fun r hr => buildLoops_role_name_props cfg inv r (mem_buildState_roles hr),
    fun cl hcl => buildLoops_cluster_name_props cfg inv cl (mem_buildState_clusters hcl)⟩

/-- Witness for C10 at a concrete one-role inventory. -/
theorem buildState_owned_names_witness :
    strStarts "rift-other-acme-ops" "rift-" = true ∧
    (∀ c ∈ ("rift-other-acme-ops" : String).data, isNameChar c = true) := by
  have h := (buildState_owned_names
    { SSOStartURL := "", SSORegion := "", Regions := [], NamespaceDefaults := [] }
    { Roles := [{ AccountID := "1", AccountName := "acme", RoleName := "ops" }],
      Clusters := [] }).1
    { Env := "other", AccountID := "1", AccountName := "acme", RoleName := "ops",
      RoleSlug := "ops", AWSProfile := "rift-other-acme-ops" } (by decide)
  exact h

/-! ## C7: role-key-to-profile coupling -/

theorem dedupeAux_mono :
    ∀ (l : List RoleRecord) (seen : List String) (acc : List RoleRecord),
      ∀ y ∈ acc, y ∈ (l.foldl dedupeStep (seen, acc)).2 := by
  intro l seen acc y hy
  obtain ⟨sub, heq, -⟩ := dedupeAux_shape l seen acc
  rw [heq]
  exact List.mem_append.mpr (Or.inl hy)

theorem dedupeAux_covers :
    ∀ (l : List RoleRecord) (seen : List String) (acc : List RoleRecord),
      (∀ s ∈ seen, ∃ y ∈ acc, dedupeKey y = s) →
      ∀ r ∈ l, ∃ y ∈ (l.foldl dedupeStep (seen, acc)).2, dedupeKey y = dedupeKey r := by
  intro l
  induction l with
  | nil => intro seen acc hseen r hr; simp at hr
  | cons r0 l ih =>
    intro seen acc hseen r hr
    simp only [List.foldl_cons]
    by_cases hmem : dedupeKey r0 ∈ seen
    · rw [show dedupeStep (seen, acc) r0 = (seen, acc) from by
        unfold dedupeStep; rw [if_pos hmem]]
      rcases List.mem_cons.mp hr with rfl | hr
      · obtain ⟨y, hy, hk⟩ := hseen _ hmem
        exact ⟨y, dedupeAux_mono l seen acc y hy, hk⟩
      · exact ih seen acc hseen r hr
    · rw [show dedupeStep (seen, acc) r0 = (seen ++ [dedupeKey r0], acc ++ [r0]) from by
        unfold dedupeStep; rw [if_neg hmem]]
      have hseen' : ∀ s ∈ seen ++ [dedupeKey r0], ∃ y ∈ acc ++ [r0], dedupeKey y = s := by
        intro s hs
        rcases List.mem_append.mp hs with hs | hs
        · obtain ⟨y, hy, hk⟩ := hseen s hs
          exact ⟨y, List.mem_append.mpr (Or.inl hy), hk⟩
        · rcases List.mem_singleton.mp hs with rfl
          exact ⟨r0, List.mem_append.mpr (Or.inr (List.mem_singleton.mpr rfl)), rfl⟩
      rcases List.mem_cons.mp hr with rfl | hr
      · exact ⟨r, dedupeAux_mono l _ _ r
          (List.mem_append.mpr (Or.inr (List.mem_singleton.mpr rfl))), rfl⟩
      · exact ih _ _ hseen' r hr

/-- The segment after the last "|" of a character list. -/
def lastSeg (l : List Char) : List Char :=
  (l.reverse.takeWhile (fun c => !(c == '|'))).reverse

theorem takeWhile_append_all {p : Char → Bool} :
    ∀ (l1 : List Char) (x : Char) (l2 : List Char),
      (∀ c ∈ l1, p c = true) → p x = false →
      (l1 ++ x :: l2).takeWhile p = l1 := by
  intro l1
  induction l1 with
  | nil =>
    intro x l2 h1 hx
    simp [List.takeWhile_cons, hx]
  | cons a t ih =>
    intro x l2 h1 hx
    rw [List.cons_append, List.takeWhile_cons, if_pos (h1 a (List.mem_cons_self a t))]
    rw [ih x l2 (fun c hc => h1 c (List.mem_cons_of_mem a hc)) hx]

theorem lastSeg_append {u p : List Char} (hp : '|' ∉ p) :
    lastSeg (u ++ '|' :: p) = p := by
  unfold lastSeg
  rw [List.reverse_append, List.reverse_cons, List.append_assoc, List.singleton_append]
  rw [takeWhile_append_all p.reverse '|' u.reverse
    (fun c hc => by
      have : c ≠ '|' := fun hcon => hp (hcon ▸ List.mem_reverse.mp hc)
      simpa using this)
    (by simp)]
  exact List.reverse_reverse p

theorem dedupeKey_data (r : RoleRecord) :
    (dedupeKey r).data = (r.AccountID ++ "|" ++ r.RoleName).data ++ '|' :: r.AWSProfile.data := by
  unfold dedupeKey
  simp [String.data_append]

theorem dedupeKey_eq_profile {r1 r2 : RoleRecord}
    (h1 : '|' ∉ r1.AWSProfile.data) (h2 : '|' ∉ r2.AWSProfile.data)
    (heq : dedupeKey r1 = dedupeKey r2) : r1.AWSProfile = r2.AWSProfile := by
  have hd := congrArg String.data heq
  rw [dedupeKey_data, dedupeKey_data] at hd
  have hs : lastSeg ((r1.AccountID ++ "|" ++ r1.RoleName).data ++ '|' :: r1.AWSProfile.data) =
      lastSeg ((r2.AccountID ++ "|" ++ r2.RoleName).data ++ '|' :: r2.AWSProfile.data) := by
    rw [hd]
  rw [lastSeg_append h1, lastSeg_append h2] at hs
  exact String.ext hs

/-- Profiles survive dedupeRoles: some kept record carries each profile,
provided profiles are "|"-free (true of all generated names). -/
theorem dedupeRoles_profile {roles : List RoleRecord}
    (hbar : ∀ r ∈ roles, '|' ∉ r.AWSProfile.data) :
    ∀ r ∈ roles, ∃ y ∈ dedupeRoles roles, y.AWSProfile = r.AWSProfile := by
  intro r hr
  obtain ⟨y, hy, hk⟩ := dedupeAux_covers roles [] [] (by simp) r hr
  refine ⟨y, hy, ?_⟩
  have hysub : y ∈ roles := (dedupeRoles_sublist roles).subset hy
  exact dedupeKey_eq_profile (hbar y hysub) (hbar r hr) hk

/-- Cluster-loop invariant for C7: roles grow, non-empty key bindings are
stable, every non-empty binding has a matching role record, and every
cluster record's profile equals the final binding of its role key. -/
theorem clusterLoop_keyInv (cfg : Config) :
    ∀ (cs : List ClusterAccess) (acc : BuildAcc2),
      (∀ r ∈ acc.roles, r ∈ (cs.foldl (clusterStep cfg) acc).roles) ∧
      (∀ k, acc.keyMap k ≠ "" →
        (cs.foldl (clusterStep cfg) acc).keyMap k = acc.keyMap k) ∧
      ((∀ k, acc.keyMap k ≠ "" → ∃ r ∈ acc.roles, r.AWSProfile = acc.keyMap k) →
        (∀ k, (cs.foldl (clusterStep cfg) acc).keyMap k ≠ "" →
          ∃ r ∈ (cs.foldl (clusterStep cfg) acc).roles,
            r.AWSProfile = (cs.foldl (clusterStep cfg) acc).keyMap k)) ∧
      ((∀ cl ∈ acc.clusters,
          acc.keyMap (roleKeyOf cl.AccountID cl.RoleName) = cl.AWSProfile ∧
          cl.AWSProfile ≠ "") →
        (∀ cl ∈ (cs.foldl (clusterStep cfg) acc).clusters,
          (cs.foldl (clusterStep cfg) acc).keyMap (roleKeyOf cl.AccountID cl.RoleName) =
            cl.AWSProfile ∧ cl.AWSProfile ≠ "")) := by
  intro cs
  induction cs with
  | nil =>
    intro acc
    exact ⟨fun r hr => hr, fun k _ => rfl, fun h => h, fun h => h⟩
  | cons cl cs ih =>
    intro acc
    simp only [List.foldl_cons]
    obtain ⟨ih1, ih2, ih3, ih4⟩ := ih (clusterStep cfg acc cl)
    by_cases hsy : acc.keyMap (roleKeyOf cl.AccountID cl.RoleName) = ""
    · have hstep : clusterStep cfg acc cl =
          { pNamer := (acc.pNamer.next (clusterRoleBase cl)).2
            cNamer := (acc.cNamer.next (contextBase cl)).2
            keyMap := fun x => if x = roleKeyOf cl.AccountID cl.RoleName
              then (acc.pNamer.next (clusterRoleBase cl)).1 else acc.keyMap x
            roles := acc.roles ++ [synthRoleRec cl ((acc.pNamer.next (clusterRoleBase cl)).1)]
            clusters := acc.clusters ++
              [clusterRecOf cfg cl ((acc.pNamer.next (clusterRoleBase cl)).1)
                ((acc.cNamer.next (contextBase cl)).1)] } := by
        unfold clusterStep
        rw [if_pos hsy]
      refine ⟨?_, ?_, ?_, ?_⟩
      · intro r hr
        refine ih1 r ?_
        rw [hstep]
        exact List.mem_append.mpr (Or.inl hr)
      · intro k hk
        have hkne : k ≠ roleKeyOf cl.AccountID cl.RoleName := by
          intro hcon
          rw [hcon] at hk
          exact hk hsy
        have hmid : (clusterStep cfg acc cl).keyMap k = acc.keyMap k := by
          rw [hstep]
          exact if_neg hkne
        rw [ih2 k (by rw [hmid]; exact hk), hmid]
      · intro hcoup
        refine ih3 ?_
        intro k hk
        rw [hstep] at hk ⊢
        dsimp only at hk ⊢
        by_cases hke : k = roleKeyOf cl.AccountID cl.RoleName
        · rw [if_pos hke] at hk ⊢
          exact ⟨synthRoleRec cl ((acc.pNamer.next (clusterRoleBase cl)).1),
            List.mem_append.mpr (Or.inr (List.mem_singleton.mpr rfl)), rfl⟩
        · rw [if_neg hke] at hk ⊢
          obtain ⟨r, hr, hp⟩ := hcoup k hk
          exact ⟨r, List.mem_append.mpr (Or.inl hr), hp⟩
      · intro hcl
        refine ih4 ?_
        intro c hc
        rw [hstep] at hc ⊢
        dsimp only at hc ⊢
        rcases List.mem_append.mp hc with hc | hc
        · obtain ⟨h1, h2⟩ := hcl c hc
          have hne : roleKeyOf c.AccountID c.RoleName ≠
              roleKeyOf cl.AccountID cl.RoleName := by
            intro hcon
            rw [hcon, hsy] at h1
            exact h2 h1.symm
          rw [if_neg hne]
          exact ⟨h1, h2⟩
        · rcases List.mem_singleton.mp hc with rfl
          rw [show roleKeyOf (clusterRecOf cfg cl ((acc.pNamer.next (clusterRoleBase cl)).1)
              ((acc.cNamer.next (contextBase cl)).1)).AccountID
              (clusterRecOf cfg cl ((acc.pNamer.next (clusterRoleBase cl)).1)
              ((acc.cNamer.next (contextBase cl)).1)).RoleName =
              roleKeyOf cl.AccountID cl.RoleName from rfl]
          rw [if_pos rfl]
          exact ⟨rfl, namer_next_fst_ne_empty _ _⟩
    · have hstep : clusterStep cfg acc cl =
          { pNamer := acc.pNamer
            cNamer := (acc.cNamer.next (contextBase cl)).2
            keyMap := acc.keyMap
            roles := acc.roles
            clusters := acc.clusters ++
              [clusterRecOf cfg cl (acc.keyMap (roleKeyOf cl.AccountID cl.RoleName))
                ((acc.cNamer.next (contextBase cl)).1)] } := by
        unfold clusterStep
        rw [if_neg hsy]
      refine ⟨?_, ?_, ?_, ?_⟩
      · intro r hr
        refine ih1 r ?_
        rw [hstep]
        exact hr
      · intro k hk
        have hmid : (clusterStep cfg acc cl).keyMap k = acc.keyMap k := by rw [hstep]
        rw [ih2 k (by rw [hmid]; exact hk), hmid]
      · intro hcoup
        refine ih3 ?_
        intro k hk
        rw [hstep] at hk ⊢
        exact hcoup k hk
      · intro hcl
        refine ih4 ?_
        intro c hc
        rw [hstep] at hc ⊢
        dsimp only at hc ⊢
        rcases List.mem_append.mp hc with hc | hc
        · exact hcl c hc
        · rcases List.mem_singleton.mp hc with rfl
          exact ⟨rfl, hsy⟩

theorem roleLoop_keyInv :
    ∀ (rs : List RoleAccess) (acc : BuildAcc),
      (∀ k, acc.keyMap k ≠ "" → ∃ r ∈ acc.roles, r.AWSProfile = acc.keyMap k) →
      ∀ k, (rs.foldl roleStep acc).keyMap k ≠ "" →
        ∃ r ∈ (rs.foldl roleStep acc).roles,
          r.AWSProfile = (rs.foldl roleStep acc).keyMap k := by
  intro rs
  induction rs with
  | nil => intro acc h; exact h
  | cons r0 rs ih =>
    intro acc h
    simp only [List.foldl_cons]
    refine ih (roleStep acc r0) ?_
    intro k hk
    unfold roleStep at hk ⊢
    dsimp only at hk ⊢
    by_cases hke : k = roleKeyOf r0.AccountID r0.RoleName
    · rw [if_pos hke] at hk ⊢
      exact ⟨_, List.mem_append.mpr (Or.inr (List.mem_singleton.mpr rfl)), rfl⟩
    · rw [if_neg hke] at hk ⊢
      obtain ⟨r, hr, hp⟩ := h k hk
      exact ⟨r, List.mem_append.mpr (Or.inl hr), hp⟩

/-- C7: in the State returned by BuildState, each (accountID, roleName)
pair maps to exactly one generated profile name across ClusterRecords, and
every ClusterRecord's profile name is carried by some RoleRecord of the
same State (a cluster whose role was not independently discovered gets a
synthesized RoleRecord). -/
theorem buildState_profile_coupling :
    ∀ (cfg : Config) (inv : Inventory),
      (∀ c1 ∈ (BuildState cfg inv).Clusters, ∀ c2 ∈ (BuildState cfg inv).Clusters,
        c1.AccountID = c2.AccountID → c1.RoleName = c2.RoleName →
        c1.AWSProfile = c2.AWSProfile) ∧
      (∀ c ∈ (BuildState cfg inv).Clusters, ∃ r ∈ (BuildState cfg inv).Roles,
        r.AWSProfile = c.AWSProfile) := by
  intro cfg inv
  obtain ⟨-, -, hP3, hP5⟩ := clusterLoop_keyInv cfg (sortClustersInv inv.Clusters)
    { pNamer := ((sortRolesInv inv.Roles).foldl roleStep
        { pNamer := Namer.empty, keyMap := fun _ => "", roles := [] }).pNamer,
      cNamer := Namer.empty,
      keyMap := ((sortRolesInv inv.Roles).foldl roleStep
        { pNamer := Namer.empty, keyMap := fun _ => "", roles := [] }).keyMap,
      roles := ((sortRolesInv inv.Roles).foldl roleStep
        { pNamer := Namer.empty, keyMap := fun _ => "", roles := [] }).roles,
      clusters := [] }
  have hcoup0 : ∀ k, ((sortRolesInv inv.Roles).foldl roleStep
      { pNamer := Namer.empty, keyMap := fun _ => "", roles := [] }).keyMap k ≠ "" →
      ∃ r ∈ ((sortRolesInv inv.Roles).foldl roleStep
        { pNamer := Namer.empty, keyMap := fun _ => "", roles := [] }).roles,
        r.AWSProfile = ((sortRolesInv inv.Roles).foldl roleStep
          { pNamer := Namer.empty, keyMap := fun _ => "", roles := [] }).keyMap k := by
    refine roleLoop_keyInv (sortRolesInv inv.Roles) _ ?_
    intro k hk
    exact absurd rfl hk
  have hP3' := hP3 hcoup0
  have hP5' := hP5 (by intro cl hcl; simp at hcl)
  have hF3 : ∀ k, (buildLoops cfg inv).keyMap k ≠ "" →
      ∃ r ∈ (buildLoops cfg inv).roles,
        r.AWSProfile = (buildLoops cfg inv).keyMap k := hP3'
  have hF5 : ∀ cl ∈ (buildLoops cfg inv).clusters,
      (buildLoops cfg inv).keyMap (roleKeyOf cl.AccountID cl.RoleName) = cl.AWSProfile ∧
      cl.AWSProfile ≠ "" := hP5'
  constructor
  · intro c1 hc1 c2 hc2 hid hrole
    have h1 := (hF5 c1 (mem_buildState_clusters hc1)).1
    have h2 := (hF5 c2 (mem_buildState_clusters hc2)).1
    rw [← h1, ← h2]
    unfold roleKeyOf
    rw [hid, hrole]
  · intro c hc
    obtain ⟨hmap, hne⟩ := hF5 c (mem_buildState_clusters hc)
    obtain ⟨r, hr, hp⟩ := hF3 _ (by rw [hmap]; exact hne)
    have hbar : ∀ r0 ∈ (buildLoops cfg inv).roles, '|' ∉ r0.AWSProfile.data := by
      intro r0 hr0 hcon
      have := (buildLoops_role_name_props cfg inv r0 hr0).2 '|' hcon
      exact absurd this (by decide)
    obtain ⟨y, hy, hyp⟩ := dedupeRoles_profile hbar r hr
    refine ⟨y, ?_, by rw [hyp, hp, hmap]⟩
    have hshape : (BuildState cfg inv).Roles = sortBy
        (fun a b => strLe (roleRecKey a) (roleRecKey b))
        (dedupeRoles (buildLoops cfg inv).roles) := rfl
    rw [hshape]
    exact (mem_sortBy _).mpr hy

/-- Concrete one-cluster access used by the C7 witness. -/
def caW7 : ClusterAccess :=
  { AccountID := "42", AccountName := "acme", RoleName := "ops",
    Region := "us-east-1", ClusterName := "pay", ClusterARN := "a",
    ClusterEndpoint := "e", ClusterCertificateBase64 := "c" }

/-- Concrete one-cluster inventory used by the C7 witness. -/
def invW7 : Inventory := { Roles := [], Clusters := [caW7] }

/-- Trivial config used by the C7 witness. -/
def cfgW7 : Config :=
  { SSOStartURL := "", SSORegion := "", Regions := [], NamespaceDefaults := [] }

/-- The ClusterRecord BuildState produces for the C7 witness inventory. -/
def crW7 : ClusterRecord :=
  { Env := "other", AccountID := "42", AccountName := "acme", RoleName := "ops",
    AWSProfile := "rift-other-acme-ops", Region := "us-east-1", ClusterName := "pay",
    ClusterARN := "a", ClusterEndpoint := "e", ClusterCertificateBase64 := "c",
    KubeContext := "rift-other-acme-pay", Namespace := "", Namespaces := [] }

/-- Witness for C7 at a concrete inventory with one cluster and no
discovered roles (the profile is carried by a synthesized RoleRecord). -/
theorem buildState_profile_coupling_witness :
    ∃ r ∈ (BuildState cfgW7 invW7).Roles, r.AWSProfile = "rift-other-acme-ops" := by
  have h := (buildState_profile_coupling cfgW7 invW7).2 crW7
    (by
      rw [show (BuildState cfgW7 invW7).Clusters = [crW7] from by decide]
      exact List.mem_singleton.mpr rfl)
  exact h

/-! ## INI store primitives: lemmas -/

theorem getVal_setValRaw_self : ∀ (sec : IniSec) (k v : String),
    getVal (setValRaw sec k v) k = v := by
  intro sec k v
  induction sec with
  | nil => simp [setValRaw, getVal]
  | cons kv rest ih =>
    unfold setValRaw
    by_cases hk : kv.1 = k
    · rw [if_pos hk]
      simp [getVal]
    · rw [if_neg hk]
      unfold getVal
      rw [List.find?_cons_of_neg _ (by simpa using hk)]
      exact ih

theorem getVal_setValRaw_other : ∀ (sec : IniSec) (k v k' : String), k' ≠ k →
    getVal (setValRaw sec k v) k' = getVal sec k' := by
  intro sec k v k' hne
  induction sec with
  | nil =>
    unfold setValRaw getVal
    rw [List.find?_cons_of_neg _ (by simpa using fun h => hne h.symm)]
  | cons kv rest ih =>
    unfold setValRaw
    by_cases hk : kv.1 = k
    · rw [if_pos hk]
      unfold getVal
      rw [List.find?_cons_of_neg _ (by simpa using fun h => hne h.symm),
        List.find?_cons_of_neg _ (by rw [hk]; simpa using fun h => hne h.symm)]
    · rw [if_neg hk]
      unfold getVal
      by_cases hk' : kv.1 = k'
      · rw [List.find?_cons_of_pos _ (by simpa using hk'),
          List.find?_cons_of_pos _ (by simpa using hk')]
      · rw [List.find?_cons_of_neg _ (by simpa using hk'),
          List.find?_cons_of_neg _ (by simpa using hk')]
        exact ih

theorem getVal_setKeySec_self (sec : IniSec) (k v : String) :
    getVal (setKeySec sec k v).1 k = v := by
  unfold setKeySec
  split_ifs with h
  · exact h
  · exact getVal_setValRaw_self sec k v

theorem getVal_setKeySec_other (sec : IniSec) (k v k' : String) (hne : k' ≠ k) :
    getVal (setKeySec sec k v).1 k' = getVal sec k' := by
  unfold setKeySec
  split_ifs with h
  · rfl
  · exact getVal_setValRaw_other sec k v k' hne

theorem setKeySec_snd (sec : IniSec) (k v : String) :
    (setKeySec sec k v).2 = !(getVal sec k == v) := by
  unfold setKeySec
  split_ifs with h
  · simp [h]
  · simp [h]

theorem getVal_setKeysAux_other :
    ∀ (kvs : List (String × String)) (sec : IniSec) (flag : Bool) (k : String),
      (∀ kv ∈ kvs, k ≠ kv.1) →
      getVal (kvs.foldl setKeysStep (sec, flag)).1 k = getVal sec k := by
  intro kvs
  induction kvs with
  | nil => intro sec flag k h; rfl
  | cons kv0 kvs ih =>
    intro sec flag k h
    simp only [List.foldl_cons]
    rw [show setKeysStep (sec, flag) kv0 =
      ((setKeySec sec kv0.1 kv0.2).1, flag || (setKeySec sec kv0.1 kv0.2).2) from rfl]
    rw [ih _ _ k (fun kv hkv => h kv (List.mem_cons_of_mem kv0 hkv))]
    exact getVal_setKeySec_other sec kv0.1 kv0.2 k (h kv0 (List.mem_cons_self kv0 kvs))

theorem getVal_setKeysAux_self :
    ∀ (kvs : List (String × String)) (sec : IniSec) (flag : Bool),
      (kvs.map Prod.fst).Nodup →
      ∀ kv ∈ kvs, getVal (kvs.foldl setKeysStep (sec, flag)).1 kv.1 = kv.2 := by
  intro kvs
  induction kvs with
  | nil => intro sec flag hnd kv hkv; simp at hkv
  | cons kv0 kvs ih =>
    intro sec flag hnd kv hkv
    simp only [List.map_cons, List.nodup_cons] at hnd
    simp only [List.foldl_cons]
    rw [show setKeysStep (sec, flag) kv0 =
      ((setKeySec sec kv0.1 kv0.2).1, flag || (setKeySec sec kv0.1 kv0.2).2) from rfl]
    rcases List.mem_cons.mp hkv with rfl | hkv
    · rw [getVal_setKeysAux_other kvs _ _ kv.1
        (fun kv' hkv' => fun hcon => hnd.1 (by
          rw [hcon]
          exact List.mem_map.mpr ⟨kv', hkv', rfl⟩))]
      exact getVal_setKeySec_self sec kv.1 kv.2
    · exact ih _ _ hnd.2 kv hkv

theorem any_congr {α : Type} {f g : α → Bool} :
    ∀ {l : List α}, (∀ x ∈ l, f x = g x) → l.any f = l.any g := by
  intro l
  induction l with
  | nil => intro h; rfl
  | cons a t ih =>
    intro h
    simp only [List.any_cons]
    rw [h a (List.mem_cons_self a t), ih (fun x hx => h x (List.mem_cons_of_mem a hx))]

theorem setKeysAux_snd :
    ∀ (kvs : List (String × String)) (sec : IniSec) (flag : Bool),
      (kvs.map Prod.fst).Nodup →
      (kvs.foldl setKeysStep (sec, flag)).2 =
        (flag || kvs.any (fun kv => !(getVal sec kv.1 == kv.2))) := by
  intro kvs
  induction kvs with
  | nil => intro sec flag hnd; simp
  | cons kv0 kvs ih =>
    intro sec flag hnd
    simp only [List.map_cons, List.nodup_cons] at hnd
    simp only [List.foldl_cons, List.any_cons]
    rw [show setKeysStep (sec, flag) kv0 =
      ((setKeySec sec kv0.1 kv0.2).1, flag || (setKeySec sec kv0.1 kv0.2).2) from rfl]
    rw [ih _ _ hnd.2]
    rw [setKeySec_snd]
    rw [any_congr (fun kv hkv => by
      rw [getVal_setKeySec_other sec kv0.1 kv0.2 kv.1
        (fun hcon => hnd.1 (by rw [← hcon]; exact List.mem_map.mpr ⟨kv, hkv, rfl⟩))])]
    rw [Bool.or_assoc]

theorem setKeysSec_snd (sec : IniSec) (kvs : List (String × String))
    (hnd : (kvs.map Prod.fst).Nodup) :
    (setKeysSec sec kvs).2 = kvs.any (fun kv => !(getVal sec kv.1 == kv.2)) := by
  unfold setKeysSec
  rw [setKeysAux_snd kvs sec false hnd]
  simp

theorem setKeysSec_getVal (sec : IniSec) (kvs : List (String × String))
    (hnd : (kvs.map Prod.fst).Nodup) :
    ∀ kv ∈ kvs, getVal (setKeysSec sec kvs).1 kv.1 = kv.2 :=
  getVal_setKeysAux_self kvs sec false hnd

/-! ## IniFile operation lemmas -/

theorem hasSec_updateSec (f : IniFile) (n : String) (sec : IniSec) (m : String) :
    hasSec (updateSec f n sec) m = hasSec f m := by
  unfold hasSec updateSec
  induction f with
  | nil => rfl
  | cons s rest ih =>
    simp only [List.map_cons, List.any_cons]
    by_cases hn : s.1 = n
    · rw [if_pos hn, ih, hn]
    · rw [if_neg hn, ih]

theorem getSec_updateSec_self (f : IniFile) (n : String) (sec : IniSec)
    (h : hasSec f n = true) : getSec (updateSec f n sec) n = sec := by
  unfold hasSec at h
  unfold getSec updateSec
  induction f with
  | nil => simp at h
  | cons s rest ih =>
    simp only [List.any_cons, Bool.or_eq_true] at h
    by_cases hn : s.1 = n
    · rw [List.map_cons, if_pos hn, List.find?_cons_of_pos _ (by simp)]
    · rw [List.map_cons, if_neg hn, List.find?_cons_of_neg _ (by simpa using hn)]
      rcases h with h | h
      · exact absurd (by simpa using h) hn
      · exact ih h

theorem getSec_updateSec_other (f : IniFile) (n : String) (sec : IniSec) (m : String)
    (hne : m ≠ n) : getSec (updateSec f n sec) m = getSec f m := by
  unfold getSec updateSec
  induction f with
  | nil => rfl
  | cons s rest ih =>
    by_cases hn : s.1 = n
    · rw [List.map_cons, if_pos hn,
        List.find?_cons_of_neg _ (by simpa using fun h => hne h.symm),
        List.find?_cons_of_neg _ (by rw [hn]; simpa using fun h => hne h.symm)]
      exact ih
    · by_cases hm : s.1 = m
      · rw [List.map_cons, if_neg hn, List.find?_cons_of_pos _ (by simpa using hm),
          List.find?_cons_of_pos _ (by simpa using hm)]
      · rw [List.map_cons, if_neg hn, List.find?_cons_of_neg _ (by simpa using hm),
          List.find?_cons_of_neg _ (by simpa using hm)]
        exact ih

theorem mem_updateSec {f : IniFile} {n : String} {sec : IniSec} {m : String} {s : IniSec}
    (h : (m, s) ∈ f) (hne : m ≠ n) : (m, s) ∈ updateSec f n sec := by
  unfold updateSec
  rcases List.mem_map.mp (List.mem_map_of_mem
    (fun x => if x.1 = n then (n, sec) else x) h) with ⟨y, hy, hyy⟩
  have : (if (m, s).1 = n then (n, sec) else (m, s)) ∈ f.map
      (fun x => if x.1 = n then (n, sec) else x) := List.mem_map_of_mem _ h
  rwa [if_neg hne] at this

theorem hasSec_ensureSec_self (f : IniFile) (n : String) :
    hasSec (ensureSec f n) n = true := by
  unfold ensureSec
  split_ifs with h
  · exact h
  · unfold hasSec
    rw [List.any_append]
    simp

theorem hasSec_ensureSec_other (f : IniFile) (n m : String) (hne : m ≠ n) :
    hasSec (ensureSec f n) m = hasSec f m := by
  unfold ensureSec
  split_ifs with h
  · rfl
  · unfold hasSec
    rw [List.any_append]
    simp [beq_false_of_ne (fun hc => hne hc.symm)]

theorem getSec_ensureSec_other (f : IniFile) (n m : String) (hne : m ≠ n) :
    getSec (ensureSec f n) m = getSec f m := by
  unfold ensureSec
  split_ifs with h
  · rfl
  · unfold getSec
    rw [List.find?_append]
    cases hf : f.find? (fun s => s.1 == m) with
    | some s => rfl
    | none =>
      simp only [Option.none_or]
      rw [List.find?_cons_of_neg _ (by simpa using fun hc => hne hc.symm)]
      rfl

theorem getSec_ensureSec_of_has (f : IniFile) (n : String) (h : hasSec f n = true) :
    getSec (ensureSec f n) n = getSec f n := by
  unfold ensureSec
  rw [if_pos h]

theorem mem_ensureSec {f : IniFile} {n m : String} {s : IniSec} (h : (m, s) ∈ f) :
    (m, s) ∈ ensureSec f n := by
  unfold ensureSec
  split_ifs
  · exact h
  · exact List.mem_append.mpr (Or.inl h)

theorem hasSec_deleteSec (f : IniFile) (n m : String) :
    hasSec (deleteSec f n) m = (hasSec f m && !(m == n)) := by
  unfold hasSec deleteSec
  induction f with
  | nil => rfl
  | cons s rest ih =>
    simp only [List.filter_cons, List.any_cons]
    by_cases hn : s.1 = n
    · rw [if_neg (by simpa using hn)]
      rw [ih]
      by_cases hm : s.1 = m
      · rw [show (s.1 == m) = true from beq_iff_eq.mpr hm]
        have : (m == n) = true := beq_iff_eq.mpr (by rw [← hm, hn])
        rw [this]
        simp
      · rw [show (s.1 == m) = false from beq_false_of_ne hm]
        simp
    · rw [if_pos (by simpa using hn)]
      simp only [List.any_cons]
      rw [ih]
      by_cases hm : s.1 = m
      · have hmn : (m == n) = false := beq_false_of_ne (by rw [← hm]; exact hn)
        rw [show (s.1 == m) = true from beq_iff_eq.mpr hm, hmn]
        simp
      · rw [show (s.1 == m) = false from beq_false_of_ne hm]
        simp

theorem getSec_deleteSec (f : IniFile) (n m : String) (hne : m ≠ n) :
    getSec (deleteSec f n) m = getSec f m := by
  unfold getSec deleteSec
  induction f with
  | nil => rfl
  | cons s rest ih =>
    simp only [List.filter_cons]
    by_cases hn : s.1 = n
    · rw [if_neg (by simpa using hn),
        List.find?_cons_of_neg _ (by simp [hn]; exact fun hc => hne hc.symm)]
      exact ih
    · rw [if_pos (by simpa using hn)]
      by_cases hm : s.1 = m
      · rw [List.find?_cons_of_pos _ (by simpa using hm),
          List.find?_cons_of_pos _ (by simpa using hm)]
      · rw [List.find?_cons_of_neg _ (by simpa using hm),
          List.find?_cons_of_neg _ (by simpa using hm)]
        exact ih

theorem mem_deleteSec {f : IniFile} {n m : String} {s : IniSec} (h : (m, s) ∈ f)
    (hne : m ≠ n) : (m, s) ∈ deleteSec f n := by
  unfold deleteSec
  exact List.mem_filter.mpr ⟨h, by simpa using hne⟩

/-! ## String facts about section names -/

theorem strStarts_append (pre s : String) : strStarts (pre ++ s) pre = true := by
  unfold strStarts
  rw [String.data_append]
  exact List.isPrefixOf_iff_prefix.mpr (List.prefix_append _ _)

theorem dropPre_append (pre s : String) : dropPre pre (pre ++ s) = s := by
  unfold dropPre
  rw [if_pos (strStarts_append pre s)]
  apply String.ext
  show (pre ++ s).data.drop pre.data.length = s.data
  rw [String.data_append, List.drop_left]

theorem recompose_of_strStarts {n pre : String} (h : strStarts n pre = true) :
    n = pre ++ dropPre pre n := by
  obtain ⟨t, ht⟩ := List.isPrefixOf_iff_prefix.mp h
  unfold dropPre
  rw [if_pos h]
  apply String.ext
  rw [String.data_append]
  show n.data = pre.data ++ n.data.drop pre.data.length
  rw [← ht, List.drop_left]

theorem strStarts_trans {n p q : String} (h1 : strStarts n p = true)
    (h2 : strStarts p q = true) : strStarts n q = true := by
  unfold strStarts at h1 h2 ⊢
  exact List.isPrefixOf_iff_prefix.mpr
    ((List.isPrefixOf_iff_prefix.mp h2).trans (List.isPrefixOf_iff_prefix.mp h1))

theorem append_left_cancel_str {a b c : String} (h : a ++ b = a ++ c) : b = c := by
  have hd := congrArg String.data h
  rw [String.data_append, String.data_append] at hd
  exact String.ext (List.append_cancel_left hd)

theorem profile_section_ne_session (p : String) : "profile " ++ p ≠ sessionSecName := by
  intro h
  have hd := congrArg String.data h
  rw [String.data_append] at hd
  have h1 : ("profile ".data ++ p.data).head? = some 'p' := rfl
  rw [hd] at h1
  have h2 : sessionSecName.data.head? = some 's' := rfl
  rw [h2] at h1
  exact absurd h1 (by decide)

theorem session_not_owned : strStarts sessionSecName "profile rift-" = false := by decide

theorem owned_iff_rift (p : String) :
    strStarts ("profile " ++ p) "profile rift-" = strStarts p "rift-" := by
  unfold strStarts
  rw [String.data_append]
  rw [show ("profile rift-" : String).data = ("profile " : String).data ++
    ("rift-" : String).data from rfl]
  by_cases h : List.isPrefixOf ("rift-" : String).data p.data
  · rw [h]
    exact List.isPrefixOf_iff_prefix.mpr
      ((List.prefix_append_right_inj _).mpr (List.isPrefixOf_iff_prefix.mp h))
  · rw [Bool.eq_false_iff.mpr h]
    apply Bool.eq_false_iff.mpr
    intro hc
    exact h (List.isPrefixOf_iff_prefix.mpr
      ((List.prefix_append_right_inj _).mp (List.isPrefixOf_iff_prefix.mp hc)))

theorem owned_then_profile_pre {n : String} (h : strStarts n "profile rift-" = true) :
    strStarts n "profile " = true :=
  strStarts_trans h (by decide)

/-! ## Deletion-phase lemmas (awsconfig) -/

theorem delFold_has :
    ∀ (ps : List String) (f : IniFile) (m : String),
      hasSec (ps.foldl (fun acc p => deleteSec acc ("profile " ++ p)) f) m =
        (hasSec f m && !(ps.any (fun p => m == "profile " ++ p))) := by
  intro ps
  induction ps with
  | nil => intro f m; simp
  | cons p ps ih =>
    intro f m
    simp only [List.foldl_cons, List.any_cons]
    rw [ih, hasSec_deleteSec]
    simp only [Bool.not_or, Bool.and_assoc]

theorem delFold_get :
    ∀ (ps : List String) (f : IniFile) (m : String),
      (∀ p ∈ ps, m ≠ "profile " ++ p) →
      getSec (ps.foldl (fun acc p => deleteSec acc ("profile " ++ p)) f) m = getSec f m := by
  intro ps
  induction ps with
  | nil => intro f m h; rfl
  | cons p ps ih =>
    intro f m h
    simp only [List.foldl_cons]
    rw [ih _ _ (fun q hq => h q (List.mem_cons_of_mem p hq)),
      getSec_deleteSec f _ m (h p (List.mem_cons_self p ps))]

theorem delFold_mem :
    ∀ (ps : List String) (f : IniFile) (m : String) (s : IniSec),
      (m, s) ∈ f → (∀ p ∈ ps, m ≠ "profile " ++ p) →
      (m, s) ∈ ps.foldl (fun acc p => deleteSec acc ("profile " ++ p)) f := by
  intro ps
  induction ps with
  | nil => intro f m s h1 h2; exact h1
  | cons p ps ih =>
    intro f m s h1 h2
    simp only [List.foldl_cons]
    exact ih _ _ _ (mem_deleteSec h1 (h2 p (List.mem_cons_self p ps)))
      (fun q hq => h2 q (List.mem_cons_of_mem p hq))

/-! ## Update-loop lemmas (awsconfig) -/

theorem profileKVs_keys_nodup (cfg : Config) (r : RoleRecord) :
    ((profileKVs cfg r).map Prod.fst).Nodup := by
  unfold profileKVs
  split_ifs <;> simp

theorem awsUpdateStep_eq (cfg : Config) (st : State) (f : IniFile) (r : AwsSyncResult)
    (p : String) :
    awsUpdateStep cfg st (f, r) p =
      (updateSec (ensureSec f ("profile " ++ p)) ("profile " ++ p)
        (setKeysSec (getSec (ensureSec f ("profile " ++ p)) ("profile " ++ p))
          (profileKVs cfg (desiredRoleFor st p))).1,
       { r with
          Added := r.Added + (if !(hasSec f ("profile " ++ p)) then 1 else 0)
          Updated := r.Updated +
            (if (setKeysSec (getSec (ensureSec f ("profile " ++ p)) ("profile " ++ p))
              (profileKVs cfg (desiredRoleFor st p))).2 &&
              !(!(hasSec f ("profile " ++ p))) then 1 else 0) }) := rfl

/-- Whether the existing section for profile p differs from the desired
key/value pairs. -/
def profChanged (cfg : Config) (st : State) (f : IniFile) (p : String) : Bool :=
  (profileKVs cfg (desiredRoleFor st p)).any
    (fun kv => !(getVal (getSec f ("profile " ++ p)) kv.1 == kv.2))

theorem awsStep_snd_changed (cfg : Config) (st : State) (f : IniFile) (p : String)
    (hhas : hasSec f ("profile " ++ p) = true) :
    (setKeysSec (getSec (ensureSec f ("profile " ++ p)) ("profile " ++ p))
      (profileKVs cfg (desiredRoleFor st p))).2 = profChanged cfg st f p := by
  rw [getSec_ensureSec_of_has f _ hhas,
    setKeysSec_snd _ _ (profileKVs_keys_nodup cfg (desiredRoleFor st p))]
  rfl

/-- Full characterization of the update loop: counters, section names,
untouched sections, and the content written to every desired section. -/
theorem awsUpdateLoop (cfg : Config) (st : State) :
    ∀ (ps : List String) (facc : IniFile) (racc : AwsSyncResult), ps.Nodup →
      ((ps.foldl (awsUpdateStep cfg st) (facc, racc)).2.Added =
        racc.Added + ps.countP (fun p => !(hasSec facc ("profile " ++ p)))) ∧
      ((ps.foldl (awsUpdateStep cfg st) (facc, racc)).2.Updated =
        racc.Updated + ps.countP (fun p => hasSec facc ("profile " ++ p) &&
          profChanged cfg st facc p)) ∧
      ((ps.foldl (awsUpdateStep cfg st) (facc, racc)).2.Removed = racc.Removed) ∧
      (∀ m, hasSec (ps.foldl (awsUpdateStep cfg st) (facc, racc)).1 m =
        (hasSec facc m || ps.any (fun p => m == "profile " ++ p))) ∧
      (∀ m, (∀ p ∈ ps, m ≠ "profile " ++ p) →
        getSec (ps.foldl (awsUpdateStep cfg st) (facc, racc)).1 m = getSec facc m) ∧
      (∀ m s, (m, s) ∈ facc → (∀ p ∈ ps, m ≠ "profile " ++ p) →
        (m, s) ∈ (ps.foldl (awsUpdateStep cfg st) (facc, racc)).1) ∧
      (∀ p ∈ ps, ∀ kv ∈ profileKVs cfg (desiredRoleFor st p),
        getVal (getSec (ps.foldl (awsUpdateStep cfg st) (facc, racc)).1
          ("profile " ++ p)) kv.1 = kv.2) := by
  intro ps
  induction ps with
  | nil =>
    intro facc racc hnd
    refine ⟨by simp, by simp, rfl, fun m => by simp, fun m h => rfl,
      fun m s h1 h2 => h1, fun p hp => by simp at hp⟩
  | cons p ps ih =>
    intro facc racc hnd
    rw [List.nodup_cons] at hnd
    simp only [List.foldl_cons]
    rw [awsUpdateStep_eq]
    obtain ⟨ihA, ihU, ihR, ihH, ihG, ihM, ihC⟩ := ih
      (updateSec (ensureSec facc ("profile " ++ p)) ("profile " ++ p)
        (setKeysSec (getSec (ensureSec facc ("profile " ++ p)) ("profile " ++ p))
          (profileKVs cfg (desiredRoleFor st p))).1)
      { racc with
          Added := racc.Added + (if !(hasSec facc ("profile " ++ p)) then 1 else 0)
          Updated := racc.Updated +
            (if (setKeysSec (getSec (ensureSec facc ("profile " ++ p)) ("profile " ++ p))
              (profileKVs cfg (desiredRoleFor st p))).2 &&
              !(!(hasSec facc ("profile " ++ p))) then 1 else 0) }
      hnd.2
    have hstep_has : ∀ m,
        hasSec (updateSec (ensureSec facc ("profile " ++ p)) ("profile " ++ p)
          (setKeysSec (getSec (ensureSec facc ("profile " ++ p)) ("profile " ++ p))
            (profileKVs cfg (desiredRoleFor st p))).1) m =
        (hasSec facc m || (m == "profile " ++ p)) := by
      intro m
      rw [hasSec_updateSec]
      by_cases hm : m = "profile " ++ p
      · rw [hm, hasSec_ensureSec_self]
        simp
      · rw [hasSec_ensureSec_other _ _ _ hm]
        rw [show (m == "profile " ++ p) = false from beq_false_of_ne hm]
        simp
    have hstep_get : ∀ m, m ≠ "profile " ++ p →
        getSec (updateSec (ensureSec facc ("profile " ++ p)) ("profile " ++ p)
          (setKeysSec (getSec (ensureSec facc ("profile " ++ p)) ("profile " ++ p))
            (profileKVs cfg (desiredRoleFor st p))).1) m = getSec facc m := by
      intro m hm
      rw [getSec_updateSec_other _ _ _ _ hm, getSec_ensureSec_other _ _ _ hm]
    refine ⟨?_, ?_, ?_, ?_, ?_, ?_, ?_⟩
    · rw [ihA]
      simp only [List.countP_cons]
      have : ∀ q ∈ ps, (!(hasSec (updateSec (ensureSec facc ("profile " ++ p))
          ("profile " ++ p) (setKeysSec (getSec (ensureSec facc ("profile " ++ p))
            ("profile " ++ p)) (profileKVs cfg (desiredRoleFor st p))).1)
          ("profile " ++ q))) = !(hasSec facc ("profile " ++ q)) := by
        intro q hq
        rw [hstep_has]
        have hne : ("profile " ++ q) ≠ ("profile " ++ p) := by
          intro hc
          exact hnd.1 (by rw [← append_left_cancel_str hc]; exact hq)
        rw [show (("profile " ++ q : String) == "profile " ++ p) = false from
          beq_false_of_ne hne]
        simp
      rw [List.countP_congr (fun q hq => by rw [this q hq])]
      dsimp only
      by_cases hhas : hasSec facc ("profile " ++ p) = true
      · rw [hhas]
        simp only [Bool.not_true]
        rw [if_neg (show ¬(false = true) from by decide)]
        omega
      · rw [Bool.eq_false_iff.mpr hhas]
        simp only [Bool.not_false, if_true]
        omega
    · rw [ihU]
      simp only [List.countP_cons]
      have : ∀ q ∈ ps,
          (hasSec (updateSec (ensureSec facc ("profile " ++ p)) ("profile " ++ p)
            (setKeysSec (getSec (ensureSec facc ("profile " ++ p)) ("profile " ++ p))
              (profileKVs cfg (desiredRoleFor st p))).1) ("profile " ++ q) &&
           profChanged cfg st (updateSec (ensureSec facc ("profile " ++ p))
            ("profile " ++ p) (setKeysSec (getSec (ensureSec facc ("profile " ++ p))
              ("profile " ++ p)) (profileKVs cfg (desiredRoleFor st p))).1) q) =
          (hasSec facc ("profile " ++ q) && profChanged cfg st facc q) := by
        intro q hq
        have hne : ("profile " ++ q) ≠ ("profile " ++ p) := by
          intro hc
          exact hnd.1 (by rw [← append_left_cancel_str hc]; exact hq)
        rw [hstep_has]
        rw [show (("profile " ++ q : String) == "profile " ++ p) = false from
          beq_false_of_ne hne]
        unfold profChanged
        rw [hstep_get _ hne]
        simp
      rw [List.countP_congr (fun q hq => by rw [this q hq])]
      dsimp only
      by_cases hhas : hasSec facc ("profile " ++ p) = true
      · rw [awsStep_snd_changed cfg st facc p hhas, hhas]
        simp only [Bool.not_true, Bool.not_false, Bool.and_true, Bool.true_and]
        by_cases hch : profChanged cfg st facc p = true
        · simp only [if_pos hch]
          omega
        · simp only [if_neg hch]
          omega
      · rw [Bool.eq_false_iff.mpr hhas]
        simp only [Bool.not_false, Bool.not_true, Bool.and_false, Bool.false_and]
        omega
    · rw [ihR]
    · intro m
      rw [ihH m, hstep_has m]
      simp only [List.any_cons]
      by_cases hm : m = "profile " ++ p
      · rw [show (m == "profile " ++ p) = true from beq_iff_eq.mpr hm]
        simp
      · rw [show (m == "profile " ++ p) = false from beq_false_of_ne hm]
        simp [Bool.or_assoc, Bool.or_comm]
    · intro m hm
      rw [ihG m (fun q hq => hm q (List.mem_cons_of_mem p hq)),
        hstep_get m (hm p (List.mem_cons_self p ps))]
    · intro m s h1 h2
      refine ihM m s ?_ (fun q hq => h2 q (List.mem_cons_of_mem p hq))
      exact mem_updateSec (mem_ensureSec h1) (h2 p (List.mem_cons_self p ps))
    · intro q hq kv hkv
      rcases List.mem_cons.mp hq with rfl | hq
      · rw [ihG _ (fun q' hq' => fun hc =>
          hnd.1 (by rw [append_left_cancel_str hc]; exact hq'))]
        rw [getSec_updateSec_self _ _ _ (hasSec_ensureSec_self _ _)]
        exact setKeysSec_getVal _ _ (profileKVs_keys_nodup cfg _) kv hkv
      · exact ihC q hq kv hkv

/-! ## Session-section lemmas and the deletion-phase file -/

theorem ensureSSOSession_fst (cfg : Config) (f : IniFile) :
    (ensureSSOSession cfg f).1 =
      updateSec (ensureSec f sessionSecName) sessionSecName
        (setKeysSec (getSec (ensureSec f sessionSecName) sessionSecName)
          (sessionKVs cfg)).1 := rfl

theorem ensureSSOSession_snd (cfg : Config) (f : IniFile) :
    (ensureSSOSession cfg f).2 =
      (setKeysSec (getSec (ensureSec f sessionSecName) sessionSecName)
        (sessionKVs cfg)).2 := rfl

theorem sessionKVs_keys_nodup (cfg : Config) :
    ((sessionKVs cfg).map Prod.fst).Nodup := by
  show (["sso_start_url", "sso_region", "sso_registration_scopes"] : List String).Nodup
  decide

theorem sess_has (cfg : Config) (f : IniFile) (m : String) :
    hasSec (ensureSSOSession cfg f).1 m = (hasSec f m || (m == sessionSecName)) := by
  rw [ensureSSOSession_fst, hasSec_updateSec]
  by_cases hm : m = sessionSecName
  · rw [hm, hasSec_ensureSec_self]
    simp
  · rw [hasSec_ensureSec_other _ _ _ hm,
      show (m == sessionSecName) = false from beq_false_of_ne hm]
    simp

theorem sess_get_other (cfg : Config) (f : IniFile) (m : String)
    (hm : m ≠ sessionSecName) : getSec (ensureSSOSession cfg f).1 m = getSec f m := by
  rw [ensureSSOSession_fst, getSec_updateSec_other _ _ _ _ hm,
    getSec_ensureSec_other _ _ _ hm]

theorem sess_mem {cfg : Config} {f : IniFile} {m : String} {s : IniSec}
    (h : (m, s) ∈ f) (hm : m ≠ sessionSecName) :
    (m, s) ∈ (ensureSSOSession cfg f).1 := by
  rw [ensureSSOSession_fst]
  exact mem_updateSec (mem_ensureSec h) hm

theorem sess_content (cfg : Config) (f : IniFile) :
    ∀ kv ∈ sessionKVs cfg,
      getVal (getSec (ensureSSOSession cfg f).1 sessionSecName) kv.1 = kv.2 := by
  intro kv hkv
  rw [ensureSSOSession_fst, getSec_updateSec_self _ _ _ (hasSec_ensureSec_self _ _)]
  exact setKeysSec_getVal _ _ (sessionKVs_keys_nodup cfg) kv hkv

theorem any_getVal_false (sec : IniSec) (kvs : List (String × String))
    (h : ∀ kv ∈ kvs, getVal sec kv.1 = kv.2) :
    kvs.any (fun kv => !(getVal sec kv.1 == kv.2)) = false := by
  rw [List.any_eq_false]
  intro kv hkv
  rw [h kv hkv]
  simp

theorem updateSec_names (f : IniFile) (n : String) (sec : IniSec) :
    (updateSec f n sec).map (fun s => s.1) = f.map (fun s => s.1) := by
  unfold updateSec
  rw [List.map_map]
  apply List.map_congr_left
  intro s _
  by_cases h : s.1 = n <;> simp [Function.comp, h]

theorem ensureSec_names (f : IniFile) (n : String) :
    (ensureSec f n).map (fun s => s.1) =
      if hasSec f n then f.map (fun s => s.1) else f.map (fun s => s.1) ++ [n] := by
  unfold ensureSec
  by_cases h : hasSec f n = true
  · rw [if_pos h, if_pos h]
  · rw [if_neg (by simp [h]), if_neg (by simp [h]), List.map_append]
    rfl

/-- The rift-owned profile names present in a file (Sync's existingRift). -/
def ownedOf (f : IniFile) : List String :=
  ((f.map (fun s => s.1)).filter (fun n => strStarts n "profile rift-")).map
    (fun n => dropPre "profile " n)

/-- The owned profiles no longer desired (Sync's removal loop input). -/
def toRemoveOf (cfg : Config) (st : State) (f : IniFile) : List String :=
  (ownedOf (ensureSSOSession cfg f).1).filter
    (fun p => !((desiredProfilesOf st).contains p))

/-- The file after the session refresh and the removal loop. -/
def awsPreFile (cfg : Config) (st : State) (f : IniFile) : IniFile :=
  (toRemoveOf cfg st f).foldl (fun acc p => deleteSec acc ("profile " ++ p))
    (ensureSSOSession cfg f).1

theorem awsSync_eq (cfg : Config) (st : State) (f : IniFile) :
    awsSync cfg st f =
      (desiredProfilesOf st).foldl (awsUpdateStep cfg st)
        (awsPreFile cfg st f,
         { Added := 0, Updated := (if (ensureSSOSession cfg f).2 then 1 else 0),
           Removed := (toRemoveOf cfg st f).length }) := rfl

theorem ownedOf_sess (cfg : Config) (f : IniFile) :
    ownedOf (ensureSSOSession cfg f).1 = ownedOf f := by
  rw [ensureSSOSession_fst]
  unfold ownedOf
  rw [updateSec_names, ensureSec_names]
  by_cases h : hasSec f sessionSecName = true
  · rw [if_pos h]
  · rw [if_neg (by simp [h]), List.filter_append,
      show List.filter (fun n => strStarts n "profile rift-") [sessionSecName] = []
        from by rw [List.filter_cons, if_neg (by simp [session_not_owned])]; rfl,
      List.append_nil]

theorem hasSec_iff_mem_names (f : IniFile) (n : String) :
    hasSec f n = true ↔ n ∈ f.map (fun s => s.1) := by
  unfold hasSec
  rw [List.any_eq_true]
  constructor
  · rintro ⟨s, hs, hbeq⟩
    exact List.mem_map.mpr ⟨s, hs, beq_iff_eq.mp hbeq⟩
  · intro h
    obtain ⟨s, hs, hsn⟩ := List.mem_map.mp h
    exact ⟨s, hs, beq_iff_eq.mpr hsn⟩

theorem mem_ownedOf {f : IniFile} {q : String} :
    q ∈ ownedOf f ↔ ∃ n, n ∈ f.map (fun s => s.1) ∧
      strStarts n "profile rift-" = true ∧ q = dropPre "profile " n := by
  unfold ownedOf
  constructor
  · intro h
    obtain ⟨n, hn, rfl⟩ := List.mem_map.mp h
    have hf := List.mem_filter.mp hn
    exact ⟨n, hf.1, hf.2, rfl⟩
  · rintro ⟨n, h1, h2, rfl⟩
    exact List.mem_map.mpr ⟨n, List.mem_filter.mpr ⟨h1, h2⟩, rfl⟩

theorem owned_recompose {n : String} (h : strStarts n "profile rift-" = true) :
    "profile " ++ dropPre "profile " n = n :=
  (recompose_of_strStarts (owned_then_profile_pre h)).symm

theorem contains_iff_mem {l : List String} {a : String} :
    l.contains a = true ↔ a ∈ l := List.elem_iff

theorem toRemove_spec (cfg : Config) (st : State) (f : IniFile) :
    ∀ q ∈ toRemoveOf cfg st f,
      q ∉ desiredProfilesOf st ∧ strStarts ("profile " ++ q) "profile rift-" = true := by
  intro q hq
  have hf := List.mem_filter.mp hq
  obtain ⟨n, _, hown, hdrop⟩ := mem_ownedOf.mp hf.1
  constructor
  · intro hmem
    have := contains_iff_mem.mpr hmem
    rw [this] at hf
    simp at hf
  · rw [hdrop, owned_recompose hown]
    exact hown

theorem desired_ne_removed {cfg : Config} {st : State} {f : IniFile} {p q : String}
    (hp : p ∈ desiredProfilesOf st) (hq : q ∈ toRemoveOf cfg st f) :
    "profile " ++ p ≠ "profile " ++ q := by
  intro hc
  exact (toRemove_spec cfg st f q hq).1 (append_left_cancel_str hc ▸ hp)

theorem hasSec_awsPre (cfg : Config) (st : State) (f : IniFile) (m : String) :
    hasSec (awsPreFile cfg st f) m =
      ((hasSec f m || (m == sessionSecName)) &&
        !((toRemoveOf cfg st f).any (fun q => m == "profile " ++ q))) := by
  unfold awsPreFile
  rw [delFold_has, sess_has]

theorem getSec_awsPre_other (cfg : Config) (st : State) (f : IniFile) (m : String)
    (hm : m ≠ sessionSecName) (h2 : ∀ q ∈ toRemoveOf cfg st f, m ≠ "profile " ++ q) :
    getSec (awsPreFile cfg st f) m = getSec f m := by
  unfold awsPreFile
  rw [delFold_get _ _ _ h2, sess_get_other _ _ _ hm]

theorem mem_awsPre {cfg : Config} {st : State} {f : IniFile} {m : String} {s : IniSec}
    (h : (m, s) ∈ f) (hm : m ≠ sessionSecName)
    (h2 : ∀ q ∈ toRemoveOf cfg st f, m ≠ "profile " ++ q) :
    (m, s) ∈ awsPreFile cfg st f := by
  unfold awsPreFile
  exact delFold_mem _ _ _ _ (sess_mem h hm) h2

theorem hasSec_awsPre_desired (cfg : Config) (st : State) (f : IniFile) {p : String}
    (hp : p ∈ desiredProfilesOf st) :
    hasSec (awsPreFile cfg st f) ("profile " ++ p) = hasSec f ("profile " ++ p) := by
  rw [hasSec_awsPre,
    show (("profile " ++ p : String) == sessionSecName) = false from
      beq_false_of_ne (profile_section_ne_session p),
    show ((toRemoveOf cfg st f).any (fun q => ("profile " ++ p) == "profile " ++ q))
        = false from List.any_eq_false.mpr (fun q hq => by
          rw [beq_false_of_ne (desired_ne_removed hp hq)]; exact Bool.false_ne_true)]
  simp

theorem getSec_awsPre_desired (cfg : Config) (st : State) (f : IniFile) {p : String}
    (hp : p ∈ desiredProfilesOf st) :
    getSec (awsPreFile cfg st f) ("profile " ++ p) = getSec f ("profile " ++ p) :=
  getSec_awsPre_other cfg st f _ (profile_section_ne_session p)
    (fun q hq => desired_ne_removed hp hq)

theorem getSec_awsPre_session (cfg : Config) (st : State) (f : IniFile) :
    getSec (awsPreFile cfg st f) sessionSecName =
      getSec (ensureSSOSession cfg f).1 sessionSecName := by
  unfold awsPreFile
  exact delFold_get _ _ _ (fun q _ => (profile_section_ne_session q).symm)

theorem desiredProfiles_nodup (st : State) : (desiredProfilesOf st).Nodup :=
  nodup_sortBy strLe (nodup_dedupStr _)

theorem profChanged_congr (cfg : Config) (st : State) {f g : IniFile} (p : String)
    (h : getSec g ("profile " ++ p) = getSec f ("profile " ++ p)) :
    profChanged cfg st g p = profChanged cfg st f p := by
  unfold profChanged
  rw [h]

/-! ## awsconfig.Sync: per-run characterization -/

theorem awsSync_removed (cfg : Config) (st : State) (f : IniFile) :
    (awsSync cfg st f).2.Removed = (toRemoveOf cfg st f).length := by
  rw [awsSync_eq]
  exact (awsUpdateLoop cfg st (desiredProfilesOf st) (awsPreFile cfg st f)
    _ (desiredProfiles_nodup st)).2.2.1

theorem awsSync_added (cfg : Config) (st : State) (f : IniFile) :
    (awsSync cfg st f).2.Added =
      (desiredProfilesOf st).countP (fun p => !(hasSec f ("profile " ++ p))) := by
  rw [awsSync_eq,
    (awsUpdateLoop cfg st (desiredProfilesOf st) (awsPreFile cfg st f)
      _ (desiredProfiles_nodup st)).1]
  dsimp only
  rw [Nat.zero_add]
  exact List.countP_congr (fun p hp => by rw [hasSec_awsPre_desired cfg st f hp])

theorem awsSync_updated (cfg : Config) (st : State) (f : IniFile) :
    (awsSync cfg st f).2.Updated =
      (if (ensureSSOSession cfg f).2 then 1 else 0) +
      (desiredProfilesOf st).countP
        (fun p => hasSec f ("profile " ++ p) && profChanged cfg st f p) := by
  rw [awsSync_eq,
    (awsUpdateLoop cfg st (desiredProfilesOf st) (awsPreFile cfg st f)
      _ (desiredProfiles_nodup st)).2.1]
  dsimp only
  congr 1
  exact List.countP_congr (fun p hp => by
    rw [hasSec_awsPre_desired cfg st f hp,
      profChanged_congr cfg st p (getSec_awsPre_desired cfg st f hp)])

theorem awsSync_hasSec (cfg : Config) (st : State) (f : IniFile) (m : String) :
    hasSec (awsSync cfg st f).1 m =
      ((hasSec f m || (m == sessionSecName)) &&
        !((toRemoveOf cfg st f).any (fun q => m == "profile " ++ q)) ||
       (desiredProfilesOf st).any (fun p => m == "profile " ++ p)) := by
  rw [awsSync_eq,
    (awsUpdateLoop cfg st (desiredProfilesOf st) (awsPreFile cfg st f)
      _ (desiredProfiles_nodup st)).2.2.2.1 m, hasSec_awsPre]

theorem awsSync_getSec_foreign (cfg : Config) (st : State) (f : IniFile) (m : String)
    (hm : m ≠ sessionSecName)
    (h2 : ∀ q ∈ toRemoveOf cfg st f, m ≠ "profile " ++ q)
    (h3 : ∀ p ∈ desiredProfilesOf st, m ≠ "profile " ++ p) :
    getSec (awsSync cfg st f).1 m = getSec f m := by
  rw [awsSync_eq,
    (awsUpdateLoop cfg st (desiredProfilesOf st) (awsPreFile cfg st f)
      _ (desiredProfiles_nodup st)).2.2.2.2.1 m h3,
    getSec_awsPre_other cfg st f m hm h2]

theorem awsSync_mem_foreign {cfg : Config} {st : State} {f : IniFile} {m : String}
    {s : IniSec} (h : (m, s) ∈ f) (hm : m ≠ sessionSecName)
    (h2 : ∀ q ∈ toRemoveOf cfg st f, m ≠ "profile " ++ q)
    (h3 : ∀ p ∈ desiredProfilesOf st, m ≠ "profile " ++ p) :
    (m, s) ∈ (awsSync cfg st f).1 := by
  rw [awsSync_eq]
  exact (awsUpdateLoop cfg st (desiredProfilesOf st) (awsPreFile cfg st f)
    _ (desiredProfiles_nodup st)).2.2.2.2.2.1 m s (mem_awsPre h hm h2) h3

theorem awsSync_desired_content (cfg : Config) (st : State) (f : IniFile) :
    ∀ p ∈ desiredProfilesOf st, ∀ kv ∈ profileKVs cfg (desiredRoleFor st p),
      getVal (getSec (awsSync cfg st f).1 ("profile " ++ p)) kv.1 = kv.2 := by
  rw [awsSync_eq]
  exact (awsUpdateLoop cfg st (desiredProfilesOf st) (awsPreFile cfg st f)
    _ (desiredProfiles_nodup st)).2.2.2.2.2.2

theorem awsSync_session_content (cfg : Config) (st : State) (f : IniFile) :
    ∀ kv ∈ sessionKVs cfg,
      getVal (getSec (awsSync cfg st f).1 sessionSecName) kv.1 = kv.2 := by
  intro kv hkv
  rw [awsSync_eq,
    (awsUpdateLoop cfg st (desiredProfilesOf st) (awsPreFile cfg st f)
      _ (desiredProfiles_nodup st)).2.2.2.2.1 sessionSecName
      (fun p _ => (profile_section_ne_session p).symm),
    getSec_awsPre_session]
  exact sess_content cfg f kv hkv

theorem awsSync_hasSec_desired (cfg : Config) (st : State) (f : IniFile) {p : String}
    (hp : p ∈ desiredProfilesOf st) :
    hasSec (awsSync cfg st f).1 ("profile " ++ p) = true := by
  rw [awsSync_hasSec,
    show (desiredProfilesOf st).any
        (fun p' => ("profile " ++ p) == "profile " ++ p') = true from
      List.any_eq_true.mpr ⟨p, hp, beq_self_eq_true _⟩, Bool.or_true]

theorem awsSync_hasSec_session (cfg : Config) (st : State) (f : IniFile) :
    hasSec (awsSync cfg st f).1 sessionSecName = true := by
  rw [awsSync_hasSec,
    show (sessionSecName == sessionSecName) = true from beq_self_eq_true _,
    show (toRemoveOf cfg st f).any (fun q => sessionSecName == "profile " ++ q)
        = false from List.any_eq_false.mpr (fun q _ => by
          rw [beq_false_of_ne (profile_section_ne_session q).symm]
          exact Bool.false_ne_true)]
  simp

/-! ## awsconfig.Sync: second-run idempotence -/

theorem awsSync_session_nochange (cfg : Config) (st : State) (f : IniFile) :
    (ensureSSOSession cfg (awsSync cfg st f).1).2 = false := by
  rw [ensureSSOSession_snd, setKeysSec_snd _ _ (sessionKVs_keys_nodup cfg),
    getSec_ensureSec_of_has _ _ (awsSync_hasSec_session cfg st f)]
  exact any_getVal_false _ _ (awsSync_session_content cfg st f)

theorem awsSync_toRemove_idem (cfg : Config) (st : State) (f : IniFile) :
    toRemoveOf cfg st (awsSync cfg st f).1 = [] := by
  unfold toRemoveOf
  rw [ownedOf_sess]
  apply List.filter_eq_nil_iff.mpr
  intro q hq hcon
  obtain ⟨n, hnames, hown, hqeq⟩ := mem_ownedOf.mp hq
  have hne : ¬(q ∈ desiredProfilesOf st) := by
    intro hmem
    rw [contains_iff_mem.mpr hmem] at hcon
    exact absurd hcon (by decide)
  have hhas : hasSec (awsSync cfg st f).1 n = true := (hasSec_iff_mem_names _ _).mpr hnames
  rw [awsSync_hasSec] at hhas
  rcases Bool.or_eq_true_iff.mp hhas with hleft | hright
  · have hand := Bool.and_eq_true_iff.mp hleft
    have hns : n ≠ sessionSecName := by
      intro hc
      rw [hc, session_not_owned] at hown
      exact absurd hown (by decide)
    have hfn : hasSec f n = true := by
      rcases Bool.or_eq_true_iff.mp hand.1 with h | h
      · exact h
      · exact absurd (beq_iff_eq.mp h) hns
    have hqR : q ∈ toRemoveOf cfg st f := by
      unfold toRemoveOf
      rw [ownedOf_sess]
      refine List.mem_filter.mpr ⟨mem_ownedOf.mpr
        ⟨n, (hasSec_iff_mem_names f n).mp hfn, hown, hqeq⟩, ?_⟩
      rw [show (desiredProfilesOf st).contains q = false from
        Bool.eq_false_iff.mpr (fun hc => hne (contains_iff_mem.mp hc))]
      rfl
    have := List.any_eq_false.mp
      (by rw [Bool.not_eq_true'] at hand; exact hand.2) q hqR
    rw [hqeq, owned_recompose hown] at this
    exact this (beq_self_eq_true n)
  · obtain ⟨p, hp, hbeq⟩ := List.any_eq_true.mp hright
    have : q = p := by rw [hqeq, beq_iff_eq.mp hbeq, dropPre_append]
    exact hne (this ▸ hp)

theorem awsSync_idem (cfg : Config) (st : State) (f : IniFile) :
    (awsSync cfg st (awsSync cfg st f).1).2.Added = 0 ∧
    (awsSync cfg st (awsSync cfg st f).1).2.Updated = 0 ∧
    (awsSync cfg st (awsSync cfg st f).1).2.Removed = 0 := by
  refine ⟨?_, ?_, ?_⟩
  · rw [awsSync_added]
    apply List.countP_eq_zero.mpr
    intro p hp
    simp only [awsSync_hasSec_desired cfg st f hp, Bool.not_true]
    exact Bool.false_ne_true
  · rw [awsSync_updated, awsSync_session_nochange,
      if_neg (show ¬(false = true) from by decide), Nat.zero_add]
    apply List.countP_eq_zero.mpr
    intro p hp
    have hpc : profChanged cfg st (awsSync cfg st f).1 p = false := by
      unfold profChanged
      exact any_getVal_false _ _ (awsSync_desired_content cfg st f p hp)
    simp only [hpc, Bool.and_false]
    exact Bool.false_ne_true
  · rw [awsSync_removed, awsSync_toRemove_idem]
    rfl

/-! ## kubeconfig map primitives -/

theorem kLookup_eq_none {α : Type} {m : List (String × α)} {k : String}
    (h : ∀ kv ∈ m, kv.1 ≠ k) : kLookup m k = none := by
  unfold kLookup
  have hf : List.find? (fun kv => kv.1 == k) m = none :=
    List.find?_eq_none.mpr (fun kv hkv => by
      rw [beq_false_of_ne (h kv hkv)]
      exact Bool.false_ne_true)
  rw [hf]

theorem kLookup_cons_pos {α : Type} {kv : String × α} {m : List (String × α)}
    {k : String} (h : (kv.1 == k) = true) : kLookup (kv :: m) k = some kv.2 := by
  unfold kLookup
  rw [@List.find?_cons_of_pos (String × α) (fun x => x.1 == k) kv m h]

theorem kLookup_cons_neg {α : Type} {kv : String × α} {m : List (String × α)}
    {k : String} (h : (kv.1 == k) = false) : kLookup (kv :: m) k = kLookup m k := by
  unfold kLookup
  rw [@List.find?_cons_of_neg (String × α) (fun x => x.1 == k) kv m
    (by show ¬(kv.1 == k) = true; rw [h]; exact Bool.false_ne_true)]

theorem kLookup_kInsert_self {α : Type} (m : List (String × α)) (k : String) (v : α) :
    kLookup (kInsert m k v) k = some v := by
  induction m with
  | nil =>
    show kLookup [(k, v)] k = some v
    rw [kLookup_cons_pos (beq_self_eq_true k)]
  | cons kv rest ih =>
    unfold kInsert
    by_cases h : kv.1 = k
    · rw [if_pos h, kLookup_cons_pos (beq_self_eq_true k)]
    · rw [if_neg h, kLookup_cons_neg (beq_false_of_ne h)]
      exact ih

theorem kLookup_kInsert_other {α : Type} (m : List (String × α)) (k : String) (v : α)
    (q : String) (h : q ≠ k) : kLookup (kInsert m k v) q = kLookup m q := by
  induction m with
  | nil =>
    show kLookup [(k, v)] q = kLookup ([] : List (String × α)) q
    rw [kLookup_cons_neg (beq_false_of_ne (fun hc : (k, v).1 = q => h hc.symm))]
  | cons kv rest ih =>
    unfold kInsert
    by_cases hk : kv.1 = k
    · rw [if_pos hk,
        kLookup_cons_neg (beq_false_of_ne (fun hc : (k, v).1 = q => h hc.symm)),
        kLookup_cons_neg (beq_false_of_ne (by rw [hk]; exact fun hc => h hc.symm))]
    · rw [if_neg hk]
      by_cases hh : (kv.1 == q) = true
      · rw [kLookup_cons_pos hh, kLookup_cons_pos hh]
      · rw [kLookup_cons_neg (Bool.eq_false_iff.mpr hh),
          kLookup_cons_neg (Bool.eq_false_iff.mpr hh)]
        exact ih

theorem keys_kInsert {α : Type} (m : List (String × α)) (k : String) (v : α)
    (q : String) (h : q ∈ (kInsert m k v).map (fun kv => kv.1)) :
    q ∈ m.map (fun kv => kv.1) ∨ q = k := by
  induction m with
  | nil =>
    rcases List.mem_map.mp h with ⟨kv, hkv, rfl⟩
    rcases List.mem_singleton.mp hkv with rfl
    exact Or.inr rfl
  | cons kv rest ih =>
    unfold kInsert at h
    by_cases hk : kv.1 = k
    · rw [if_pos hk, List.map_cons] at h
      rcases List.mem_cons.mp h with h | h
      · exact Or.inr h
      · exact Or.inl (by
          obtain ⟨kv', hkv', hfst⟩ := List.mem_map.mp h
          exact List.mem_map.mpr ⟨kv', List.mem_cons_of_mem kv hkv', hfst⟩)
    · rw [if_neg hk, List.map_cons] at h
      rcases List.mem_cons.mp h with h | h
      · exact Or.inl (by rw [List.map_cons, h]; exact List.mem_cons_self _ _)
      · rcases ih h with h' | h'
        · exact Or.inl (by rw [List.map_cons]; exact List.mem_cons_of_mem _ h')
        · exact Or.inr h'

theorem kLookup_filter_keep {α : Type} (m : List (String × α)) (rk : List String)
    (k : String) (h : rk.contains k = false) :
    kLookup (m.filter (fun kv => !(rk.contains kv.1))) k = kLookup m k := by
  induction m with
  | nil => rfl
  | cons kv rest ih =>
    rw [List.filter_cons]
    by_cases hk : (kv.1 == k) = true
    · rw [if_pos (by rw [beq_iff_eq.mp hk, h]; rfl)]
      rw [kLookup_cons_pos hk, kLookup_cons_pos hk]
    · by_cases hkeep : (!(rk.contains kv.1)) = true
      · rw [if_pos hkeep, kLookup_cons_neg (Bool.eq_false_iff.mpr hk),
          kLookup_cons_neg (Bool.eq_false_iff.mpr hk)]
        exact ih
      · rw [if_neg hkeep, kLookup_cons_neg (Bool.eq_false_iff.mpr hk)]
        exact ih

theorem kLookup_filter_drop {α : Type} (m : List (String × α)) (rk : List String)
    (k : String) (h : rk.contains k = true) :
    kLookup (m.filter (fun kv => !(rk.contains kv.1))) k = none := by
  apply kLookup_eq_none
  intro kv hkv hc
  have hm := (List.mem_filter.mp hkv).2
  rw [hc, h] at hm
  exact absurd hm (by decide)

theorem keys_filter_sub {α : Type} {m : List (String × α)} {rk : List String}
    {k : String}
    (h : k ∈ (m.filter (fun kv => !(rk.contains kv.1))).map (fun kv => kv.1)) :
    k ∈ m.map (fun kv => kv.1) ∧ rk.contains k = false := by
  obtain ⟨kv, hkv, rfl⟩ := List.mem_map.mp h
  have hf := List.mem_filter.mp hkv
  refine ⟨List.mem_map.mpr ⟨kv, hf.1, rfl⟩, ?_⟩
  have hp := hf.2
  cases hcc : rk.contains kv.1 with
  | false => rfl
  | true => rw [hcc] at hp; exact absurd hp (by decide)

/-! ## kubeconfig.Sync: update-loop characterization -/

/-- Whether the three existing entries for a context name differ from the
desired ones (the manager's field-level comparison). -/
def kChanged (caOf : String → String) (st : State) (c : KubeConfig) (n : String) :
    Bool :=
  !(kClusterEq (kLookup c.Clusters n)
      (some (desiredKCluster caOf (desiredClusterFor st n)))) ||
  !(kUserEq (kLookup c.AuthInfos n) (some (desiredKUser (desiredClusterFor st n)))) ||
  !(kContextEq (kLookup c.Contexts n)
      (some (desiredKContext n (desiredClusterFor st n))))

theorem kubeUpdateStep_eq (caOf : String → String) (st : State) (c : KubeConfig)
    (r : KubeSyncResult) (n : String) :
    kubeUpdateStep caOf st (c, r) n =
      ({ c with
          Clusters := kInsert c.Clusters n (desiredKCluster caOf (desiredClusterFor st n))
          AuthInfos := kInsert c.AuthInfos n (desiredKUser (desiredClusterFor st n))
          Contexts := kInsert c.Contexts n (desiredKContext n (desiredClusterFor st n)) },
       { r with
          AddedContexts := r.AddedContexts +
            (if (kLookup c.Clusters n).isSome then 0 else 1)
          UpdatedContexts := r.UpdatedContexts +
            (if (kLookup c.Clusters n).isSome && kChanged caOf st c n
             then 1 else 0) }) := rfl

theorem kChanged_congr (caOf : String → String) (st : State) {c c' : KubeConfig}
    (n : String)
    (h1 : kLookup c'.Clusters n = kLookup c.Clusters n)
    (h2 : kLookup c'.AuthInfos n = kLookup c.AuthInfos n)
    (h3 : kLookup c'.Contexts n = kLookup c.Contexts n) :
    kChanged caOf st c' n = kChanged caOf st c n := by
  unfold kChanged
  rw [h1, h2, h3]

/-- Full characterization of kubeconfig.Sync's create-or-update loop. -/
theorem kubeUpdateLoop (caOf : String → String) (st : State) :
    ∀ (ns : List String) (c : KubeConfig) (r : KubeSyncResult), ns.Nodup →
      ((ns.foldl (kubeUpdateStep caOf st) (c, r)).2.AddedContexts =
        r.AddedContexts + ns.countP (fun n => !(kLookup c.Clusters n).isSome)) ∧
      ((ns.foldl (kubeUpdateStep caOf st) (c, r)).2.UpdatedContexts =
        r.UpdatedContexts + ns.countP
          (fun n => (kLookup c.Clusters n).isSome && kChanged caOf st c n)) ∧
      ((ns.foldl (kubeUpdateStep caOf st) (c, r)).2.RemovedContexts =
        r.RemovedContexts) ∧
      (∀ k, (∀ n ∈ ns, k ≠ n) →
        kLookup (ns.foldl (kubeUpdateStep caOf st) (c, r)).1.Clusters k =
          kLookup c.Clusters k ∧
        kLookup (ns.foldl (kubeUpdateStep caOf st) (c, r)).1.AuthInfos k =
          kLookup c.AuthInfos k ∧
        kLookup (ns.foldl (kubeUpdateStep caOf st) (c, r)).1.Contexts k =
          kLookup c.Contexts k) ∧
      (∀ n ∈ ns,
        kLookup (ns.foldl (kubeUpdateStep caOf st) (c, r)).1.Clusters n =
          some (desiredKCluster caOf (desiredClusterFor st n)) ∧
        kLookup (ns.foldl (kubeUpdateStep caOf st) (c, r)).1.AuthInfos n =
          some (desiredKUser (desiredClusterFor st n)) ∧
        kLookup (ns.foldl (kubeUpdateStep caOf st) (c, r)).1.Contexts n =
          some (desiredKContext n (desiredClusterFor st n))) ∧
      (∀ k, k ∈ (ns.foldl (kubeUpdateStep caOf st) (c, r)).1.Contexts.map
          (fun kv => kv.1) →
        k ∈ c.Contexts.map (fun kv => kv.1) ∨ k ∈ ns) := by
  intro ns
  induction ns with
  | nil =>
    intro c r hnd
    exact ⟨by simp, by simp, rfl, fun k h => ⟨rfl, rfl, rfl⟩,
      fun n hn => by simp at hn, fun k hk => Or.inl hk⟩
  | cons n ns ih =>
    intro c r hnd
    rw [List.nodup_cons] at hnd
    simp only [List.foldl_cons]
    rw [kubeUpdateStep_eq]
    obtain ⟨ihA, ihU, ihR, ihP, ihD, ihK⟩ := ih
      { c with
          Clusters := kInsert c.Clusters n (desiredKCluster caOf (desiredClusterFor st n))
          AuthInfos := kInsert c.AuthInfos n (desiredKUser (desiredClusterFor st n))
          Contexts := kInsert c.Contexts n (desiredKContext n (desiredClusterFor st n)) }
      { r with
          AddedContexts := r.AddedContexts +
            (if (kLookup c.Clusters n).isSome then 0 else 1)
          UpdatedContexts := r.UpdatedContexts +
            (if (kLookup c.Clusters n).isSome && kChanged caOf st c n then 1 else 0) }
      hnd.2
    refine ⟨?_, ?_, ?_, ?_, ?_, ?_⟩
    · rw [ihA]
      simp only [List.countP_cons]
      have hcong : ∀ q ∈ ns,
          (!(kLookup (kInsert c.Clusters n
              (desiredKCluster caOf (desiredClusterFor st n))) q).isSome) =
          !(kLookup c.Clusters q).isSome := by
        intro q hq
        rw [kLookup_kInsert_other _ _ _ q (fun hc => hnd.1 (by rw [← hc]; exact hq))]
      rw [List.countP_congr (fun q hq => by rw [hcong q hq])]
      dsimp only
      by_cases hex : (kLookup c.Clusters n).isSome = true
      · rw [hex, if_pos rfl]
        simp only [Bool.not_true]
        rw [if_neg (show ¬(false = true) from by decide)]
        omega
      · rw [Bool.eq_false_iff.mpr hex, if_neg (show ¬(false = true) from by decide)]
        simp only [Bool.not_false, if_true]
        omega
    · rw [ihU]
      simp only [List.countP_cons]
      have hcong : ∀ q ∈ ns,
          ((kLookup (kInsert c.Clusters n
              (desiredKCluster caOf (desiredClusterFor st n))) q).isSome &&
            kChanged caOf st { c with
              Clusters := kInsert c.Clusters n
                (desiredKCluster caOf (desiredClusterFor st n))
              AuthInfos := kInsert c.AuthInfos n (desiredKUser (desiredClusterFor st n))
              Contexts := kInsert c.Contexts n
                (desiredKContext n (desiredClusterFor st n)) } q) =
          ((kLookup c.Clusters q).isSome && kChanged caOf st c q) := by
        intro q hq
        have hqn : q ≠ n := fun hc => hnd.1 (hc ▸ hq)
        rw [kLookup_kInsert_other _ _ _ q hqn,
          kChanged_congr caOf st q (kLookup_kInsert_other _ _ _ q hqn)
            (kLookup_kInsert_other _ _ _ q hqn) (kLookup_kInsert_other _ _ _ q hqn)]
      rw [List.countP_congr (fun q hq => by rw [hcong q hq])]
      dsimp only
      by_cases hex : (kLookup c.Clusters n).isSome = true
      · rw [hex]
        by_cases hch : kChanged caOf st c n = true
        · rw [hch]
          simp only [Bool.and_self, if_pos rfl, Bool.true_and]
          omega
        · rw [Bool.eq_false_iff.mpr hch]
          simp only [Bool.and_false, Bool.true_and]
          omega
      · rw [Bool.eq_false_iff.mpr hex]
        simp only [Bool.false_and]
        omega
    · rw [ihR]
    · intro k hk
      have hkn : k ≠ n := hk n (List.mem_cons_self n ns)
      obtain ⟨p1, p2, p3⟩ := ihP k (fun q hq => hk q (List.mem_cons_of_mem n hq))
      refine ⟨?_, ?_, ?_⟩
      · rw [p1]
        exact kLookup_kInsert_other _ _ _ k hkn
      · rw [p2]
        exact kLookup_kInsert_other _ _ _ k hkn
      · rw [p3]
        exact kLookup_kInsert_other _ _ _ k hkn
    · intro q hq
      rcases List.mem_cons.mp hq with rfl | hq
      · obtain ⟨p1, p2, p3⟩ := ihP q (fun q' hq' => fun hc => hnd.1 (by rw [hc]; exact hq'))
        refine ⟨?_, ?_, ?_⟩
        · rw [p1]
          exact kLookup_kInsert_self _ _ _
        · rw [p2]
          exact kLookup_kInsert_self _ _ _
        · rw [p3]
          exact kLookup_kInsert_self _ _ _
      · exact ihD q hq
    · intro k hk
      rcases ihK k hk with h' | h'
      · rcases keys_kInsert _ _ _ _ h' with h'' | h''
        · exact Or.inl h''
        · exact Or.inr (by rw [h'']; exact List.mem_cons_self n ns)
      · exact Or.inr (List.mem_cons_of_mem n h')

/-! ## kubeconfig.Sync: per-run characterization -/

/-- The owned context keys kubeconfig.Sync deletes (rift-prefixed, not desired). -/
def removedKeysOf (st : State) (cfg : KubeConfig) : List String :=
  (cfg.Contexts.map (fun kv => kv.1)).filter
    (fun n => strStarts n "rift-" && !((desiredContextsOf st).contains n))

/-- The config after the removal phase. -/
def kubePreCfg (st : State) (cfg : KubeConfig) : KubeConfig :=
  { cfg with
    Contexts := cfg.Contexts.filter (fun kv => !((removedKeysOf st cfg).contains kv.1))
    Clusters := cfg.Clusters.filter (fun kv => !((removedKeysOf st cfg).contains kv.1))
    AuthInfos := cfg.AuthInfos.filter (fun kv => !((removedKeysOf st cfg).contains kv.1)) }

theorem kubeSync_snd (caOf : String → String) (st : State) (cfg : KubeConfig) :
    (kubeSync caOf st cfg).2 =
      ((desiredContextsOf st).foldl (kubeUpdateStep caOf st)
        (kubePreCfg st cfg,
         { AddedContexts := 0, UpdatedContexts := 0,
           RemovedContexts := (removedKeysOf st cfg).length })).2 := rfl

theorem kubeSync_clusters (caOf : String → String) (st : State) (cfg : KubeConfig) :
    (kubeSync caOf st cfg).1.Clusters =
      ((desiredContextsOf st).foldl (kubeUpdateStep caOf st)
        (kubePreCfg st cfg,
         { AddedContexts := 0, UpdatedContexts := 0,
           RemovedContexts := (removedKeysOf st cfg).length })).1.Clusters := rfl

theorem kubeSync_authinfos (caOf : String → String) (st : State) (cfg : KubeConfig) :
    (kubeSync caOf st cfg).1.AuthInfos =
      ((desiredContextsOf st).foldl (kubeUpdateStep caOf st)
        (kubePreCfg st cfg,
         { AddedContexts := 0, UpdatedContexts := 0,
           RemovedContexts := (removedKeysOf st cfg).length })).1.AuthInfos := rfl

theorem kubeSync_contexts (caOf : String → String) (st : State) (cfg : KubeConfig) :
    (kubeSync caOf st cfg).1.Contexts =
      ((desiredContextsOf st).foldl (kubeUpdateStep caOf st)
        (kubePreCfg st cfg,
         { AddedContexts := 0, UpdatedContexts := 0,
           RemovedContexts := (removedKeysOf st cfg).length })).1.Contexts := rfl

theorem desiredContexts_nodup (st : State) : (desiredContextsOf st).Nodup :=
  nodup_sortBy strLe (nodup_dedupStr _)

theorem removedKeys_spec (st : State) (cfg : KubeConfig) :
    ∀ k ∈ removedKeysOf st cfg,
      strStarts k "rift-" = true ∧ k ∉ desiredContextsOf st := by
  intro k hk
  have hf := List.mem_filter.mp hk
  have hand := Bool.and_eq_true_iff.mp hf.2
  refine ⟨hand.1, fun hmem => ?_⟩
  have h2 := hand.2
  rw [contains_iff_mem.mpr hmem] at h2
  exact absurd h2 (by decide)

theorem desired_not_removedK (st : State) (cfg : KubeConfig) {n : String}
    (hn : n ∈ desiredContextsOf st) : (removedKeysOf st cfg).contains n = false := by
  cases hc : (removedKeysOf st cfg).contains n with
  | false => rfl
  | true => exact absurd hn (removedKeys_spec st cfg n (contains_iff_mem.mp hc)).2

theorem foreign_not_removedK (st : State) (cfg : KubeConfig) {k : String}
    (h : strStarts k "rift-" = false) : (removedKeysOf st cfg).contains k = false := by
  cases hc : (removedKeysOf st cfg).contains k with
  | false => rfl
  | true =>
    have := (removedKeys_spec st cfg k (contains_iff_mem.mp hc)).1
    rw [h] at this
    exact absurd this (by decide)

theorem kubePre_lookup (st : State) (cfg : KubeConfig) (k : String)
    (h : (removedKeysOf st cfg).contains k = false) :
    kLookup (kubePreCfg st cfg).Clusters k = kLookup cfg.Clusters k ∧
    kLookup (kubePreCfg st cfg).AuthInfos k = kLookup cfg.AuthInfos k ∧
    kLookup (kubePreCfg st cfg).Contexts k = kLookup cfg.Contexts k :=
  ⟨kLookup_filter_keep _ _ _ h, kLookup_filter_keep _ _ _ h,
   kLookup_filter_keep _ _ _ h⟩

theorem kubeSync_addedContexts (caOf : String → String) (st : State)
    (cfg : KubeConfig) :
    (kubeSync caOf st cfg).2.AddedContexts =
      (desiredContextsOf st).countP (fun n => !(kLookup cfg.Clusters n).isSome) := by
  rw [kubeSync_snd,
    (kubeUpdateLoop caOf st (desiredContextsOf st) (kubePreCfg st cfg)
      _ (desiredContexts_nodup st)).1]
  dsimp only
  rw [Nat.zero_add]
  exact List.countP_congr (fun n hn => by
    rw [(kubePre_lookup st cfg n (desired_not_removedK st cfg hn)).1])

theorem kubeSync_updatedContexts (caOf : String → String) (st : State)
    (cfg : KubeConfig) :
    (kubeSync caOf st cfg).2.UpdatedContexts =
      (desiredContextsOf st).countP
        (fun n => (kLookup cfg.Clusters n).isSome && kChanged caOf st cfg n) := by
  rw [kubeSync_snd,
    (kubeUpdateLoop caOf st (desiredContextsOf st) (kubePreCfg st cfg)
      _ (desiredContexts_nodup st)).2.1]
  dsimp only
  rw [Nat.zero_add]
  exact List.countP_congr (fun n hn => by
    obtain ⟨p1, p2, p3⟩ := kubePre_lookup st cfg n (desired_not_removedK st cfg hn)
    rw [p1, kChanged_congr caOf st n p1 p2 p3])

theorem kubeSync_removedContexts (caOf : String → String) (st : State)
    (cfg : KubeConfig) :
    (kubeSync caOf st cfg).2.RemovedContexts = (removedKeysOf st cfg).length := by
  rw [kubeSync_snd,
    (kubeUpdateLoop caOf st (desiredContextsOf st) (kubePreCfg st cfg)
      _ (desiredContexts_nodup st)).2.2.1]

theorem kubeSync_lookup_desired (caOf : String → String) (st : State)
    (cfg : KubeConfig) {n : String} (hn : n ∈ desiredContextsOf st) :
    kLookup (kubeSync caOf st cfg).1.Clusters n =
      some (desiredKCluster caOf (desiredClusterFor st n)) ∧
    kLookup (kubeSync caOf st cfg).1.AuthInfos n =
      some (desiredKUser (desiredClusterFor st n)) ∧
    kLookup (kubeSync caOf st cfg).1.Contexts n =
      some (desiredKContext n (desiredClusterFor st n)) := by
  rw [kubeSync_clusters, kubeSync_authinfos, kubeSync_contexts]
  exact (kubeUpdateLoop caOf st (desiredContextsOf st) (kubePreCfg st cfg)
    _ (desiredContexts_nodup st)).2.2.2.2.1 n hn

theorem kubeSync_lookup_foreign (caOf : String → String) (st : State)
    (cfg : KubeConfig) {k : String} (hk : strStarts k "rift-" = false)
    (hd : ∀ n ∈ desiredContextsOf st, k ≠ n) :
    kLookup (kubeSync caOf st cfg).1.Clusters k = kLookup cfg.Clusters k ∧
    kLookup (kubeSync caOf st cfg).1.AuthInfos k = kLookup cfg.AuthInfos k ∧
    kLookup (kubeSync caOf st cfg).1.Contexts k = kLookup cfg.Contexts k := by
  rw [kubeSync_clusters, kubeSync_authinfos, kubeSync_contexts]
  obtain ⟨p1, p2, p3⟩ := (kubeUpdateLoop caOf st (desiredContextsOf st)
    (kubePreCfg st cfg) _ (desiredContexts_nodup st)).2.2.2.1 k hd
  obtain ⟨q1, q2, q3⟩ := kubePre_lookup st cfg k (foreign_not_removedK st cfg hk)
  exact ⟨p1.trans q1, p2.trans q2, p3.trans q3⟩

/-! ## kubeconfig.Sync: second-run idempotence -/

theorem kubeSync_removedKeys_idem (caOf : String → String) (st : State)
    (cfg : KubeConfig) : removedKeysOf st (kubeSync caOf st cfg).1 = [] := by
  unfold removedKeysOf
  apply List.filter_eq_nil_iff.mpr
  intro k hk hcon
  have hand := Bool.and_eq_true_iff.mp hcon
  rw [kubeSync_contexts] at hk
  rcases (kubeUpdateLoop caOf st (desiredContextsOf st) (kubePreCfg st cfg)
      _ (desiredContexts_nodup st)).2.2.2.2.2 k hk with hpre | hd
  · have hsub := keys_filter_sub hpre
    have hkD : k ∈ desiredContextsOf st := by
      by_contra hnd
      have hcf : (desiredContextsOf st).contains k = false := by
        cases hc : (desiredContextsOf st).contains k with
        | false => rfl
        | true => exact absurd (contains_iff_mem.mp hc) hnd
      have hrem : k ∈ removedKeysOf st cfg :=
        List.mem_filter.mpr ⟨hsub.1, by rw [hand.1, hcf]; rfl⟩
      have hc2 := hsub.2
      rw [contains_iff_mem.mpr hrem] at hc2
      exact absurd hc2 (by decide)
    have h2 := hand.2
    rw [contains_iff_mem.mpr hkD] at h2
    exact absurd h2 (by decide)
  · have h2 := hand.2
    rw [contains_iff_mem.mpr hd] at h2
    exact absurd h2 (by decide)

theorem kChanged_of_desired (caOf : String → String) (st : State) {g : KubeConfig}
    {n : String}
    (h1 : kLookup g.Clusters n = some (desiredKCluster caOf (desiredClusterFor st n)))
    (h2 : kLookup g.AuthInfos n = some (desiredKUser (desiredClusterFor st n)))
    (h3 : kLookup g.Contexts n = some (desiredKContext n (desiredClusterFor st n))) :
    kChanged caOf st g n = false := by
  unfold kChanged
  rw [h1, h2, h3]
  simp [kClusterEq, kUserEq, kContextEq, desiredKUser]

theorem kubeSync_idem (caOf : String → String) (st : State) (cfg : KubeConfig) :
    (kubeSync caOf st (kubeSync caOf st cfg).1).2.AddedContexts = 0 ∧
    (kubeSync caOf st (kubeSync caOf st cfg).1).2.UpdatedContexts = 0 ∧
    (kubeSync caOf st (kubeSync caOf st cfg).1).2.RemovedContexts = 0 := by
  refine ⟨?_, ?_, ?_⟩
  · rw [kubeSync_addedContexts]
    apply List.countP_eq_zero.mpr
    intro n hn
    simp only [(kubeSync_lookup_desired caOf st cfg hn).1, Option.isSome_some,
      Bool.not_true]
    exact Bool.false_ne_true
  · rw [kubeSync_updatedContexts]
    apply List.countP_eq_zero.mpr
    intro n hn
    obtain ⟨p1, p2, p3⟩ := kubeSync_lookup_desired caOf st cfg hn
    simp only [kChanged_of_desired caOf st p1 p2 p3, Bool.and_false]
    exact Bool.false_ne_true
  · rw [kubeSync_removedContexts, kubeSync_removedKeys_idem]
    rfl

/-! ## Deleted-entry and foreign-entry facts for single runs -/

theorem awsSync_removed_gone (cfg : Config) (st : State) (f : IniFile) :
    ∀ q ∈ toRemoveOf cfg st f,
      hasSec (awsSync cfg st f).1 ("profile " ++ q) = false := by
  intro q hq
  rw [awsSync_hasSec,
    show (toRemoveOf cfg st f).any
        (fun q' => ("profile " ++ q) == "profile " ++ q') = true from
      List.any_eq_true.mpr ⟨q, hq, beq_self_eq_true _⟩,
    show (desiredProfilesOf st).any
        (fun p => ("profile " ++ q) == "profile " ++ p) = false from
      List.any_eq_false.mpr (fun p hp => by
        rw [beq_false_of_ne (fun hc => (toRemove_spec cfg st f q hq).1
          (by rw [append_left_cancel_str hc]; exact hp))]
        exact Bool.false_ne_true)]
  simp

theorem kubeSync_removed_gone (caOf : String → String) (st : State)
    (kc : KubeConfig) :
    ∀ k ∈ removedKeysOf st kc,
      kLookup (kubeSync caOf st kc).1.Contexts k = none ∧
      kLookup (kubeSync caOf st kc).1.Clusters k = none ∧
      kLookup (kubeSync caOf st kc).1.AuthInfos k = none := by
  intro k hk
  have hspec := removedKeys_spec st kc k hk
  have hd : ∀ n ∈ desiredContextsOf st, k ≠ n := fun n hn hc => hspec.2 (hc ▸ hn)
  obtain ⟨p1, p2, p3⟩ := (kubeUpdateLoop caOf st (desiredContextsOf st)
    (kubePreCfg st kc) _ (desiredContexts_nodup st)).2.2.2.1 k hd
  have hcont : (removedKeysOf st kc).contains k = true := contains_iff_mem.mpr hk
  refine ⟨?_, ?_, ?_⟩
  · rw [kubeSync_contexts]
    exact p3.trans (kLookup_filter_drop _ _ _ hcont)
  · rw [kubeSync_clusters]
    exact p1.trans (kLookup_filter_drop _ _ _ hcont)
  · rw [kubeSync_authinfos]
    exact p2.trans (kLookup_filter_drop _ _ _ hcont)

theorem awsSync_hasSec_foreign (cfg : Config) (st : State) (f : IniFile) (m : String)
    (hm : m ≠ sessionSecName)
    (h2 : ∀ q ∈ toRemoveOf cfg st f, m ≠ "profile " ++ q)
    (h3 : ∀ p ∈ desiredProfilesOf st, m ≠ "profile " ++ p) :
    hasSec (awsSync cfg st f).1 m = hasSec f m := by
  rw [awsSync_hasSec,
    show (m == sessionSecName) = false from beq_false_of_ne hm,
    show (toRemoveOf cfg st f).any (fun q => m == "profile " ++ q) = false from
      List.any_eq_false.mpr (fun q hq => by
        rw [beq_false_of_ne (h2 q hq)]; exact Bool.false_ne_true),
    show (desiredProfilesOf st).any (fun p => m == "profile " ++ p) = false from
      List.any_eq_false.mpr (fun p hp => by
        rw [beq_false_of_ne (h3 p hp)]; exact Bool.false_ne_true)]
  simp

theorem foreign_ne_removed (cfg : Config) (st : State) (f : IniFile) {m : String}
    (hm1 : strStarts m "profile rift-" = false) :
    ∀ q ∈ toRemoveOf cfg st f, m ≠ "profile " ++ q := by
  intro q hq hc
  have := (toRemove_spec cfg st f q hq).2
  rw [← hc, hm1] at this
  exact absurd this (by decide)

theorem foreign_ne_desired (st : State) {m : String}
    (hm1 : strStarts m "profile rift-" = false)
    (hprof : ∀ p ∈ desiredProfilesOf st, strStarts p "rift-" = true) :
    ∀ p ∈ desiredProfilesOf st, m ≠ "profile " ++ p := by
  intro p hp hc
  have : strStarts ("profile " ++ p) "profile rift-" = true := by
    rw [owned_iff_rift]
    exact hprof p hp
  rw [← hc, hm1] at this
  exact absurd this (by decide)

/-! ## Foreign entries across a sequence of sync runs -/

theorem awsFold_foreign (m : String)
    (hm1 : strStarts m "profile rift-" = false) (hm2 : m ≠ sessionSecName) :
    ∀ (runs : List (Config × State)) (f : IniFile),
      (∀ r ∈ runs, ∀ p ∈ desiredProfilesOf r.2, strStarts p "rift-" = true) →
      getSec (runs.foldl (fun acc r => (awsSync r.1 r.2 acc).1) f) m = getSec f m ∧
      hasSec (runs.foldl (fun acc r => (awsSync r.1 r.2 acc).1) f) m = hasSec f m ∧
      (∀ s : IniSec, (m, s) ∈ f →
        (m, s) ∈ runs.foldl (fun acc r => (awsSync r.1 r.2 acc).1) f) := by
  intro runs
  induction runs with
  | nil => exact fun f _ => ⟨rfl, rfl, fun s hs => hs⟩
  | cons r rs ih =>
    intro f hp
    simp only [List.foldl_cons]
    have hp1 : ∀ p ∈ desiredProfilesOf r.2, strStarts p "rift-" = true :=
      hp r (List.mem_cons_self r rs)
    have hps : ∀ r' ∈ rs, ∀ p ∈ desiredProfilesOf r'.2, strStarts p "rift-" = true :=
      fun r' hr' => hp r' (List.mem_cons_of_mem r hr')
    obtain ⟨g1, g2, g3⟩ := ih (awsSync r.1 r.2 f).1 hps
    refine ⟨?_, ?_, ?_⟩
    · rw [g1, awsSync_getSec_foreign r.1 r.2 f m hm2
        (foreign_ne_removed r.1 r.2 f hm1) (foreign_ne_desired r.2 hm1 hp1)]
    · rw [g2, awsSync_hasSec_foreign r.1 r.2 f m hm2
        (foreign_ne_removed r.1 r.2 f hm1) (foreign_ne_desired r.2 hm1 hp1)]
    · intro s hs
      exact g3 s (awsSync_mem_foreign hs hm2
        (foreign_ne_removed r.1 r.2 f hm1) (foreign_ne_desired r.2 hm1 hp1))

theorem kubeFold_foreign (caOf : String → String) (k : String)
    (hk : strStarts k "rift-" = false) :
    ∀ (kruns : List State) (kc : KubeConfig),
      (∀ st ∈ kruns, ∀ n ∈ desiredContextsOf st, strStarts n "rift-" = true) →
      kLookup (kruns.foldl (fun acc st => (kubeSync caOf st acc).1) kc).Clusters k =
        kLookup kc.Clusters k ∧
      kLookup (kruns.foldl (fun acc st => (kubeSync caOf st acc).1) kc).AuthInfos k =
        kLookup kc.AuthInfos k ∧
      kLookup (kruns.foldl (fun acc st => (kubeSync caOf st acc).1) kc).Contexts k =
        kLookup kc.Contexts k := by
  intro kruns
  induction kruns with
  | nil => exact fun kc _ => ⟨rfl, rfl, rfl⟩
  | cons st sts ih =>
    intro kc hp
    simp only [List.foldl_cons]
    have hd : ∀ n ∈ desiredContextsOf st, k ≠ n := by
      intro n hn hc
      have := hp st (List.mem_cons_self st sts) n hn
      rw [← hc, hk] at this
      exact absurd this (by decide)
    obtain ⟨g1, g2, g3⟩ := ih (kubeSync caOf st kc).1
      (fun st' hst' => hp st' (List.mem_cons_of_mem st hst'))
    obtain ⟨q1, q2, q3⟩ := kubeSync_lookup_foreign caOf st kc hk hd
    exact ⟨g1.trans q1, g2.trans q2, g3.trans q3⟩

/-! ## C1: second-run idempotence of the full pipeline -/

/-- C1: with the State built deterministically by BuildState from an
unchanged config and Inventory, running awsconfig.Sync and kubeconfig.Sync a
second time against the stores produced by the first run yields
Added = Updated = Removed = 0 and
AddedContexts = UpdatedContexts = RemovedContexts = 0, for every starting
store, config, Inventory and certificate decoding. -/
theorem second_run_all_zero (cfg : Config) (inv : Inventory)
    (caOf : String → String) (f : IniFile) (kc : KubeConfig) :
    (awsSync cfg (BuildState cfg inv)
      (awsSync cfg (BuildState cfg inv) f).1).2.Added = 0 ∧
    (awsSync cfg (BuildState cfg inv)
      (awsSync cfg (BuildState cfg inv) f).1).2.Updated = 0 ∧
    (awsSync cfg (BuildState cfg inv)
      (awsSync cfg (BuildState cfg inv) f).1).2.Removed = 0 ∧
    (kubeSync caOf (BuildState cfg inv)
      (kubeSync caOf (BuildState cfg inv) kc).1).2.AddedContexts = 0 ∧
    (kubeSync caOf (BuildState cfg inv)
      (kubeSync caOf (BuildState cfg inv) kc).1).2.UpdatedContexts = 0 ∧
    (kubeSync caOf (BuildState cfg inv)
      (kubeSync caOf (BuildState cfg inv) kc).1).2.RemovedContexts = 0 := by
  obtain ⟨a1, a2, a3⟩ := awsSync_idem cfg (BuildState cfg inv) f
  obtain ⟨k1, k2, k3⟩ := kubeSync_idem caOf (BuildState cfg inv) kc
  exact ⟨a1, a2, a3, k1, k2, k3⟩

/-! ## C4: exact per-entry reconciliation counters -/

/-- C4: in one Sync run over any store and desired State, the counters are
exactly the per-entry contributions: Removed counts (and the run deletes)
the owned profile sections with no desired record; Added counts the desired
profiles with no existing section; Updated counts the session refresh plus
the desired profiles whose existing section differs on some written key,
and every desired profile section afterwards holds exactly the desired
key/values; likewise RemovedContexts counts (and the run deletes) owned
context keys with no desired record, AddedContexts the desired contexts
with no existing cluster entry, UpdatedContexts the desired contexts whose
existing entries differ from the desired cluster, user or context, and
every desired context's three entries afterwards equal the desired ones;
an entry already equal to its desired form contributes to no counter. -/
theorem sync_counters_exact (cfg : Config) (st : State) (caOf : String → String)
    (f : IniFile) (kc : KubeConfig) :
    ((awsSync cfg st f).2.Removed = (toRemoveOf cfg st f).length ∧
     (∀ q ∈ toRemoveOf cfg st f,
        hasSec (awsSync cfg st f).1 ("profile " ++ q) = false) ∧
     (awsSync cfg st f).2.Added =
       (desiredProfilesOf st).countP (fun p => !(hasSec f ("profile " ++ p))) ∧
     (awsSync cfg st f).2.Updated =
       (if (ensureSSOSession cfg f).2 then 1 else 0) +
       (desiredProfilesOf st).countP
         (fun p => hasSec f ("profile " ++ p) && profChanged cfg st f p) ∧
     (∀ p ∈ desiredProfilesOf st,
        hasSec (awsSync cfg st f).1 ("profile " ++ p) = true ∧
        ∀ kv ∈ profileKVs cfg (desiredRoleFor st p),
          getVal (getSec (awsSync cfg st f).1 ("profile " ++ p)) kv.1 = kv.2)) ∧
    ((kubeSync caOf st kc).2.RemovedContexts = (removedKeysOf st kc).length ∧
     (∀ k ∈ removedKeysOf st kc,
        kLookup (kubeSync caOf st kc).1.Contexts k = none ∧
        kLookup (kubeSync caOf st kc).1.Clusters k = none ∧
        kLookup (kubeSync caOf st kc).1.AuthInfos k = none) ∧
     (kubeSync caOf st kc).2.AddedContexts =
       (desiredContextsOf st).countP (fun n => !(kLookup kc.Clusters n).isSome) ∧
     (kubeSync caOf st kc).2.UpdatedContexts =
       (desiredContextsOf st).countP
         (fun n => (kLookup kc.Clusters n).isSome && kChanged caOf st kc n) ∧
     (∀ n ∈ desiredContextsOf st,
        kLookup (kubeSync caOf st kc).1.Clusters n =
          some (desiredKCluster caOf (desiredClusterFor st n)) ∧
        kLookup (kubeSync caOf st kc).1.AuthInfos n =
          some (desiredKUser (desiredClusterFor st n)) ∧
        kLookup (kubeSync caOf st kc).1.Contexts n =
          some (desiredKContext n (desiredClusterFor st n)))) :=
  ⟨⟨awsSync_removed cfg st f, awsSync_removed_gone cfg st f,
    awsSync_added cfg st f, awsSync_updated cfg st f,
    fun p hp => ⟨awsSync_hasSec_desired cfg st f hp,
      awsSync_desired_content cfg st f p hp⟩⟩,
   ⟨kubeSync_removedContexts caOf st kc, kubeSync_removed_gone caOf st kc,
    kubeSync_addedContexts caOf st kc, kubeSync_updatedContexts caOf st kc,
    fun n hn => kubeSync_lookup_desired caOf st kc hn⟩⟩

/-! ## C2: ownership isolation for foreign entries -/

def cfgC2 : Config :=
  { SSOStartURL := "https://sso.example.com/start", SSORegion := "us-east-1",
    Regions := [], NamespaceDefaults := [] }

def stC2 : State := { Regions := [], Roles := [], Clusters := [] }

def fC2 : IniFile :=
  [("sso-session rift", [("sso_start_url", "https://old.example.com/start")])]

/-- C2 counterexample: the profile store's fixed "sso-session rift" section
is not prefixed "profile rift-" — by the claim's own convention it is a
foreign entry — yet a single Sync run rewrites its keys, so it is not left
byte-identical. -/
theorem awsSync_session_foreign_cex :
    strStarts "sso-session rift" "profile rift-" = false ∧
    getSec (awsSync cfgC2 stC2 fC2).1 "sso-session rift" ≠
      getSec fC2 "sso-session rift" := by decide

/-- C2 (amended): across any sequence of Sync runs whose desired profile
and context names carry the "rift-" prefix (as every BuildState output
does), an INI section that is neither "profile rift-"-prefixed nor the
fixed "sso-session rift" session section keeps its exact body, its
presence bit and its physical entry, and a cluster-client entry whose key
is not "rift-"-prefixed keeps its exact cluster, user and context values. -/
theorem foreign_entries_preserved
    (runs : List (Config × State)) (kruns : List State) (caOf : String → String)
    (f : IniFile) (kc : KubeConfig) (m k : String)
    (hm1 : strStarts m "profile rift-" = false) (hm2 : m ≠ sessionSecName)
    (hprof : ∀ r ∈ runs, ∀ p ∈ desiredProfilesOf r.2, strStarts p "rift-" = true)
    (hk : strStarts k "rift-" = false)
    (hctx : ∀ st ∈ kruns, ∀ n ∈ desiredContextsOf st, strStarts n "rift-" = true) :
    (getSec (runs.foldl (fun acc r => (awsSync r.1 r.2 acc).1) f) m = getSec f m ∧
     hasSec (runs.foldl (fun acc r => (awsSync r.1 r.2 acc).1) f) m = hasSec f m ∧
     (∀ s : IniSec, (m, s) ∈ f →
        (m, s) ∈ runs.foldl (fun acc r => (awsSync r.1 r.2 acc).1) f)) ∧
    (kLookup (kruns.foldl (fun acc st => (kubeSync caOf st acc).1) kc).Clusters k =
       kLookup kc.Clusters k ∧
     kLookup (kruns.foldl (fun acc st => (kubeSync caOf st acc).1) kc).AuthInfos k =
       kLookup kc.AuthInfos k ∧
     kLookup (kruns.foldl (fun acc st => (kubeSync caOf st acc).1) kc).Contexts k =
       kLookup kc.Contexts k) :=
  ⟨awsFold_foreign m hm1 hm2 runs f hprof, kubeFold_foreign caOf k hk kruns kc hctx⟩

def cfgW2 : Config :=
  { SSOStartURL := "https://sso.example.com/start", SSORegion := "us-east-1",
    Regions := ["us-east-1"], NamespaceDefaults := [] }

def roleW2 : RoleRecord :=
  { Env := "prod", AccountID := "111122223333", AccountName := "Acme",
    RoleName := "Admin", RoleSlug := "admin", AWSProfile := "rift-prod-acme-admin" }

def clusW2 : ClusterRecord :=
  { Env := "prod", AccountID := "111122223333", AccountName := "Acme",
    RoleName := "Admin", AWSProfile := "rift-prod-acme-admin",
    Region := "us-east-1", ClusterName := "main", ClusterARN := "arn:aws:eks:main",
    ClusterEndpoint := "https://e.example.com", ClusterCertificateBase64 := "Y2E=",
    KubeContext := "rift-prod-acme-admin-us-east-1-main", Namespace := "",
    Namespaces := [] }

def stW2 : State :=
  { Regions := ["us-east-1"], Roles := [roleW2], Clusters := [clusW2] }

def fW2 : IniFile := [("profile personal", [("region", "eu-west-1")])]

def kcW2 : KubeConfig :=
  { Clusters := [("personal-ctx", { Server := "https://p.example.com", CAData := "x" })],
    AuthInfos := [],
    Contexts := [("personal-ctx",
      { Cluster := "personal-ctx", AuthInfo := "personal-ctx", Namespace := "" })],
    CurrentContext := "personal-ctx" }

def idCA : String → String := fun s => s

/-- Witness for the amended C2 at one concrete run over stores holding one
foreign profile section and one foreign kube entry. -/
theorem foreign_entries_preserved_witness :
    (strStarts "profile personal" "profile rift-" = false ∧
     ("profile personal" : String) ≠ sessionSecName ∧
     strStarts "personal-ctx" "rift-" = false) ∧
    (getSec (([(cfgW2, stW2)] : List (Config × State)).foldl
        (fun acc r => (awsSync r.1 r.2 acc).1) fW2) "profile personal" =
      getSec fW2 "profile personal" ∧
     kLookup (([stW2] : List State).foldl
        (fun acc st => (kubeSync idCA st acc).1) kcW2).Contexts "personal-ctx" =
      kLookup kcW2.Contexts "personal-ctx") :=
  ⟨⟨by decide, by decide, by decide⟩,
   ⟨(foreign_entries_preserved [(cfgW2, stW2)] [stW2] idCA fW2 kcW2
       "profile personal" "personal-ctx" (by decide) (by decide) (by decide)
       (by decide) (by decide)).1.1,
    (foreign_entries_preserved [(cfgW2, stW2)] [stW2] idCA fW2 kcW2
       "profile personal" "personal-ctx" (by decide) (by decide) (by decide)
       (by decide) (by decide)).2.2.2⟩⟩

end Rift
